import Mathlib

/-!
# AtomicML: indentation tokenizer and streaming tree builder

A shallow embedding of `src/cpp/atomicml.cc` / `src/cpp/atomicml.h`.

Modelling conventions.

* The `istream &source` is the list of lines that `getline` has not yet
  delivered; `getline` fails exactly when that list is empty, and keeps failing.
* `std::string` is `String`; the only bytes the code inspects are the space and
  the tab, so scanning characters instead of bytes changes nothing.
* `int` is an `Int` kept within 32 bits.  The only arithmetic on an `int` is in
  `splitLine`: its additions to `indent` wrap around (`wrapInt`), and `%`
  truncates towards zero (`Int.tmod`).  Every other `int` is a copy of such a
  column or the constant `-1`.  A line whose column is below `2^31`
  (`columnFits`) never wraps.  The `for` loop of `splitLine` is a recursion over
  the characters of the line; its index `whichChar` is the position in the
  line and is not a value of the model.
* `std::vector` is a `List` in the vector's own order (index 0 first, `back()`
  last).  Every access the C++ leaves undefined (reading `back()` of an empty
  vector, an index out of range, `pop_back()` on an empty vector) is the
  explicit failure `Fault.outOfRange`.
* `Node *` is an address into an explicit free store (`Heap`); `new Node(data)`
  allocates the next address.  The `cout` trace in `parseNode` is not modelled.
* The `while` loop of `parseNode` is driven by a fuel counter; running out is
  the explicit failure `Fault.outOfFuel`.  `parseNode` starts the loop with
  `parseFuel`, and `parseNode_fuel_adequate` shows that no larger amount changes
  the outcome.
* A returned `Node *` is read as a `NodeTree` by following `first` and `next`,
  the traversal of `Node::toString`.
-/

namespace Aml

/-! ## Failure outcomes -/

/-- Ways in which a run of the model can fail to produce a value. -/
inductive Fault where
  | outOfRange
  | badPointer
  | outOfFuel
  deriving DecidableEq, Repr

/-! ## Vectors -/

/-- The call `v.back()`: the last element, undefined on an empty vector. -/
def back {α : Type} (v : List α) : Except Fault α :=
  match v.getLast? with
  | some x => .ok x
  | none => .error .outOfRange

/-- The call `v.pop_back()`: drops the last element, undefined on an empty vector. -/
def pop_back {α : Type} (v : List α) : Except Fault (List α) :=
  match v with
  | [] => .error .outOfRange
  | _ :: _ => .ok v.dropLast

/-- The call `v.push_back(x)`. -/
def push_back {α : Type} (v : List α) (x : α) : List α := v ++ [x]

/-- The read `v[i]`, undefined when `i` is not below `v.size()`. -/
def at_ {α : Type} (v : List α) (i : Nat) : Except Fault α :=
  match v[i]? with
  | some x => .ok x
  | none => .error .outOfRange

/-- The write `v[i] = x`, undefined when `i` is not below `v.size()`. -/
def assign {α : Type} (v : List α) (i : Nat) (x : α) : Except Fault (List α) :=
  if i < v.length then .ok (v.set i x) else .error .outOfRange

/-- The index `v.size() - k` computed in `size_t`: it wraps around to a value
far above `v.size()` when `k` exceeds the size, so the access that uses it is
out of range. -/
def sizeMinus {α : Type} (v : List α) (k : Nat) : Except Fault Nat :=
  if k ≤ v.length then .ok (v.length - k) else .error .outOfRange

/-! ## Line splitter -/

/-- The value an `int` of 32 bits holds after an addition whose exact result is
`x`: results outside `-2^31 .. 2^31 - 1` wrap around. -/
def wrapInt (x : Int) : Int :=
  (x + 2147483648) % 4294967296 - 2147483648

/-- The `for` loop of `splitLine` over the characters not yet scanned, with the
running value of the `int indent`: `indent++` and `indent += 8 - indent % 8`
wrap around at 32 bits, and `%` on `int` truncates towards zero. -/
def splitLineLoop : List Char → Int → Int × String
  | [], indent => (indent, "")
  | c :: rest, indent =>
    if c = ' ' then splitLineLoop rest (wrapInt (indent + 1))
    else if c = '\t' then splitLineLoop rest (wrapInt (indent + (8 - Int.tmod indent 8)))
    else (indent, String.mk (c :: rest))

/-- The function `splitLine(line, data)`: returns `indent` and the new `data`. -/
def splitLine (line : String) : Int × String :=
  splitLineLoop line.data 0

/-! ## Nodes on the free store -/

/-- An address of a `Node` on the free store. -/
abbrev Ptr := Nat

/-- The class `Node`: label and the three links (`NULL` is `none`). -/
structure Node where
  data : String
  first : Option Ptr
  last : Option Ptr
  next : Option Ptr
  deriving DecidableEq, Repr

/-- The free store: the node at address `p` is the `p`-th entry. -/
abbrev Heap := List Node

/-- Dereference of a node pointer. -/
def Heap.read (h : Heap) (p : Ptr) : Except Fault Node :=
  match h[p]? with
  | some n => .ok n
  | none => .error .badPointer

/-- Store through a node pointer. -/
def Heap.write (h : Heap) (p : Ptr) (n : Node) : Except Fault Heap :=
  if p < h.length then .ok (h.set p n) else .error .badPointer

/-- The expression `new Node(data)`: a fresh node with all links `NULL`. -/
def Heap.alloc (h : Heap) (data : String) : Ptr × Heap :=
  (h.length, h ++ [{ data := data, first := none, last := none, next := none }])

/-- The method `Node::addChild` called on the node at `self`. -/
def addChild (h : Heap) (self child : Ptr) : Except Fault Heap := do
  let n ← h.read self
  match n.last with
  | none => h.write self { n with first := some child, last := some child }
  | some l =>
    let ln ← h.read l
    let h1 ← h.write l { ln with next := some child }
    let n1 ← h1.read self
    h1.write self { n1 with last := some child }

/-- An ordered tree of labels: what a caller sees through a returned `Node *`. -/
inductive NodeTree where
  | node (label : String) (children : List NodeTree)
  deriving Repr

mutual
/-- The tree below the node at `p`, following `first` and `next`; `none` when a
link dangles or the fuel runs out. -/
def readNode : Nat → Heap → Ptr → Option NodeTree
  | 0, _, _ => none
  | fuel + 1, h, p =>
    match h[p]? with
    | none => none
    | some n =>
      match readChain fuel h n.first with
      | none => none
      | some cs => some (NodeTree.node n.data cs)
/-- The trees of a sibling chain starting at `p` and linked through `next`. -/
def readChain : Nat → Heap → Option Ptr → Option (List NodeTree)
  | 0, _, _ => none
  | _ + 1, _, none => some []
  | fuel + 1, h, some p =>
    match readNode fuel h p with
    | none => none
    | some t =>
      match h[p]? with
      | none => none
      | some n =>
        match readChain fuel h n.next with
        | none => none
        | some ts => some (t :: ts)
end

/-- The tree a caller reads through `p` in free store `h`. -/
def treeAt (h : Heap) (p : Ptr) : Option NodeTree :=
  readNode (2 * h.length + 2) h p

/-! ## Session state -/

/-- The enum `Token`. -/
inductive Token where
  | BLANK | INDENT | DEDENT | SAMEDENT | END
  deriving DecidableEq, Repr

/-- The enum `State` of the tokenizer. -/
inductive State where
  | INDENTING | DEDENTING
  deriving DecidableEq, Repr

/-- The data members of class `AtomicML`, plus the free store. -/
structure AtomicML where
  stack : List Int
  state : State
  indent : Int
  data : String
  source : List String
  nodes : List Ptr
  heap : Heap
  deriving Repr

/-- The constructor `AtomicML(source)`.  The member `indent` is left
uninitialised by the C++; `indent0` is whatever value it happens to hold. -/
def AtomicML.new (source : List String) (indent0 : Int) : AtomicML :=
  { stack := push_back [] (-1), state := State.INDENTING, indent := indent0, data := "",
    source := source, nodes := [], heap := [] }

/-! ## Tokenizer -/

/-- Lines 36-41 of `nextToken`: in mode `INDENTING` read and split a line;
`none` is the early `return END`. -/
def readLine (s : AtomicML) : Option AtomicML :=
  if s.state = State.INDENTING then
    match s.source with
    | [] => none
    | line :: rest =>
      some { s with source := rest, indent := (splitLine line).1, data := (splitLine line).2 }
  else some s

/-- Lines 54-60 of `nextToken`. -/
def emitLine (s : AtomicML) : Except Fault (Token × String × AtomicML) := do
  let s1 := { s with state := State.INDENTING }
  let top ← back s1.stack
  if s1.indent = top then
    .ok (Token.SAMEDENT, s1.data, s1)
  else
    .ok (Token.INDENT, s1.data, { s1 with stack := push_back s1.stack s1.indent })

/-- Lines 42-60 of `nextToken`: the token for the stored `indent` and `data`. -/
def tokenOfLine (s1 : AtomicML) : Except Fault (Token × String × AtomicML) :=
  if s1.data.length = 0 then .ok (Token.BLANK, "", s1)
  else do
    let top ← back s1.stack
    if s1.indent < top then
      let i2 ← sizeMinus s1.stack 2
      let below ← at_ s1.stack i2
      if s1.indent > below then
        let i1 ← sizeMinus s1.stack 1
        let stack1 ← assign s1.stack i1 s1.indent
        emitLine { s1 with stack := stack1 }
      else
        let stack1 ← pop_back s1.stack
        .ok (Token.DEDENT, "", { s1 with state := State.DEDENTING, stack := stack1 })
    else emitLine s1

/-- The method `AtomicML::nextToken`: the token, the string left in `out`, and
the session afterwards. -/
def nextToken (s : AtomicML) : Except Fault (Token × String × AtomicML) :=
  match readLine s with
  | none => .ok (Token.END, "", s)
  | some s1 => tokenOfLine s1

/-! ## Tree builder -/

/-- The `switch` of `parseNode` for one pulled token: `Sum.inl` when the loop
goes round again, `Sum.inr` when the call returns (the pointer, `none` for
`NULL`, and the session). -/
def onToken (token : Token) (data : String) (s1 : AtomicML) :
    Except Fault (AtomicML ⊕ (Option Ptr × AtomicML)) :=
  match token with
  | Token.BLANK => .ok (.inl s1)
  | Token.INDENT => do
    let (node, h1) := s1.heap.alloc data
    let h2 ← if s1.nodes.length ≠ 0 then (do let b ← back s1.nodes; addChild h1 b node)
             else .ok h1
    .ok (.inl { s1 with heap := h2, nodes := push_back s1.nodes node })
  | Token.DEDENT => do
    let nodes1 ← pop_back s1.nodes
    .ok (.inl { s1 with nodes := nodes1 })
  | Token.SAMEDENT => do
    let (node, h1) := s1.heap.alloc data
    if s1.nodes.length = 1 then
      let out ← back s1.nodes
      let nodes1 ← pop_back s1.nodes
      .ok (.inr (some out, { s1 with heap := h1, nodes := push_back nodes1 node }))
    else
      let i ← sizeMinus s1.nodes 1
      let parent ← at_ s1.nodes i
      let h2 ← addChild h1 parent node
      let nodes1 ← pop_back s1.nodes
      .ok (.inl { s1 with heap := h2, nodes := push_back nodes1 node })
  | Token.END =>
    if s1.nodes.length ≠ 0 then do
      let out ← at_ s1.nodes 0
      let nodes1 ← pop_back s1.nodes
      .ok (.inr (some out, { s1 with nodes := nodes1 }))
    else .ok (.inr (none, s1))

/-- One round of the `while` loop of `parseNode`: pull a token and act on it. -/
def pullToken (s : AtomicML) : Except Fault (AtomicML ⊕ (Option Ptr × AtomicML)) := do
  let (token, data, s1) ← nextToken s
  onToken token data s1

/-- The `while` loop of `AtomicML::parseNode`, one token per unit of fuel. -/
def parseLoop : Nat → AtomicML → Except Fault (Option Ptr × AtomicML)
  | 0, _ => .error .outOfFuel
  | fuel + 1, s =>
    match pullToken s with
    | .error e => .error e
    | .ok (.inl s2) => parseLoop fuel s2
    | .ok (.inr r) => .ok r

/-- Fuel that covers every token one call of `parseNode` can pull: each
remaining line gives one line token and can add one level to close later. -/
def parseFuel (s : AtomicML) : Nat :=
  2 * s.source.length + s.stack.length + 3

/-- The method `AtomicML::parseNode`. -/
def parseNode (s : AtomicML) : Except Fault (Option Ptr × AtomicML) :=
  parseLoop (parseFuel s) s

/-! ## Drivers: what the test harness does with a session -/

/-- The results of `n` successive `nextToken` calls on one session. -/
def nextTokens : Nat → AtomicML → Except Fault (List (Token × String) × AtomicML)
  | 0, s => .ok ([], s)
  | n + 1, s => do
    let (token, data, s1) ← nextToken s
    let (rest, s2) ← nextTokens n s1
    .ok ((token, data) :: rest, s2)

/-- The results of `n` successive `parseNode` calls on one session, each
returned pointer read as a tree at the moment it is returned (`none` for
`NULL`; a pointer that cannot be read is a failure). -/
def parseNodes : Nat → AtomicML → Except Fault (List (Option NodeTree) × AtomicML)
  | 0, s => .ok ([], s)
  | n + 1, s => do
    let (out, s1) ← parseNode s
    let t ← match out with
      | none => .ok none
      | some p =>
        match treeAt s1.heap p with
        | some t => .ok (some t)
        | none => .error .badPointer
    let (rest, s2) ← parseNodes n s1
    .ok (t :: rest, s2)

/-- A childless tree. -/
def leaf (label : String) : NodeTree := NodeTree.node label []

/-! ## Vocabulary of the properties -/

/-- A text that is non-empty and does not start with a space or a tab. -/
def startsWithText (t : String) : Prop :=
  match t.data with
  | [] => False
  | c :: _ => c ≠ ' ' ∧ c ≠ '\t'

instance (t : String) : Decidable (startsWithText t) := by
  unfold startsWithText
  cases t.data <;> infer_instance

/-- A line that is empty or consists only of spaces and tabs. -/
def isBlankLine (line : String) : Bool :=
  line.data.all (fun c => c = ' ' ∨ c = '\t')

/-- The column of a line. -/
def columnOf (line : String) : Int := (splitLine line).1

/-- The text of a line after its leading spaces and tabs. -/
def remainderOf (line : String) : String := (splitLine line).2

/-! ## Measures and relations used in the proofs -/

/-- Tokens still owed by the stored line: one per stack entry it may close,
and two more while a dedent run is under way. -/
def lineWeight (s : AtomicML) : Nat :=
  s.stack.length + (if s.state = State.DEDENTING then 2 else 0)

/-- A bound on the number of tokens `nextToken` can return before `END`. -/
def tokenBudget (s : AtomicML) : Nat :=
  2 * s.source.length + lineWeight s

/-- A session in mode `DEDENTING` holds a non-blank line. -/
def PendingLineOk (s : AtomicML) : Prop :=
  s.state = State.DEDENTING → s.data ≠ ""

/-- Sessions that differ only in blank lines still to be read (and, while no
line is pending, in the last line they stored). -/
def SameUpToBlanks (s t : AtomicML) : Prop :=
  t.stack = s.stack ∧ t.state = s.state ∧ t.nodes = s.nodes ∧ t.heap = s.heap ∧
  t.source = s.source.filter (fun l => !isBlankLine l) ∧
  (s.state = State.DEDENTING → t.indent = s.indent ∧ t.data = s.data)

/-- Outcomes of `parseNode` that agree: the same pointer and sessions that
differ only in blank lines, or the same failure. -/
def SameOutcome (r r1 : Except Fault (Option Ptr × AtomicML)) : Prop :=
  match r, r1 with
  | .ok (p, s), .ok (q, t) => p = q ∧ SameUpToBlanks s t
  | .error e, .error e1 => e = e1
  | _, _ => False

/-- Lines 42-60 of `nextToken` followed by the `switch` of `parseNode`: one
round of the loop once the line to tokenize is stored. -/
def pullLine (s1 : AtomicML) : Except Fault (AtomicML ⊕ (Option Ptr × AtomicML)) := do
  let (token, data, s2) ← tokenOfLine s1
  onToken token data s2

/-! ## The line splitter as the specification words it -/

/-- One step of the column rule: a space advances the column by one, a tab to
the next multiple of eight. -/
def advanceColumn (col : Int) (c : Char) : Int :=
  if c = ' ' then col + 1 else if c = '\t' then col + 8 - col % 8 else col

/-- Whether a character is a space or a tab. -/
def isBlankChar (c : Char) : Bool := c = ' ' || c = '\t'

/-- The reference line splitter: with `w` the longest prefix of spaces and
tabs and `r` the rest of the line, the column is the fold of the column rule
over `w` and the remainder is `r`. -/
def referenceSplit (line : String) : Int × String :=
  ((line.data.takeWhile isBlankChar).foldl advanceColumn 0,
   String.mk (line.data.dropWhile isBlankChar))

/-- The column of a line as the column rule counts it, without a bound. -/
def trueColumn (line : String) : Int := (referenceSplit line).1

/-- The column of a line is one an `int` of 32 bits can hold: it is below
`2^31`, so that no addition in `splitLine` wraps around. -/
def columnFits (line : String) : Prop := trueColumn line < 2147483648

instance (line : String) : Decidable (columnFits line) := by
  unfold columnFits
  infer_instance

/-- The line of `k` tabs followed by the text `r`. -/
def tabsLine (k : Nat) (r : String) : String :=
  String.mk (List.replicate k '\t' ++ r.data)

/-- A text that does not start with a space or a tab (it may be empty). -/
def noLeadingBlank (r : String) : Prop :=
  match r.data with
  | [] => True
  | c :: _ => c ≠ ' ' ∧ c ≠ '\t'

instance (r : String) : Decidable (noLeadingBlank r) := by
  unfold noLeadingBlank
  cases r.data <;> infer_instance

/-! ## Invariants of a session -/

/-- The indent-stack invariant: the sentinel `-1` at the bottom and strictly
increasing entries from bottom to top. -/
def StackOk (st : List Int) : Prop :=
  st.head? = some (-1) ∧ st.Pairwise (· < ·)

/-- What the tokenizer keeps true when the columns of the non-blank lines are
below `2^31`: the indent-stack invariant, in mode `DEDENTING` a stored line that
is non-blank at a column that is not negative, and non-blank lines still to be
read whose columns fit. -/
def TokenizerOk (s : AtomicML) : Prop :=
  StackOk s.stack ∧ (s.state = State.DEDENTING → s.data ≠ "" ∧ 0 ≤ s.indent) ∧
  ∀ l ∈ s.source, isBlankLine l = false → columnFits l

/-- A tokenizer state reached from a fresh session by `nextToken` calls. -/
def Reachable (s : AtomicML) : Prop :=
  ∃ (lines : List String) (indent0 : Int) (n : Nat) (toks : List (Token × String)),
    nextTokens n (AtomicML.new lines indent0) = .ok (toks, s)

/-- The session with which the caller goes on after one round of the loop of
`parseNode`, whether the loop went round again or the call returned. -/
def sessionAfter : AtomicML ⊕ (Option Ptr × AtomicML) → AtomicML
  | .inl s => s
  | .inr r => r.2

/-- The first `n` rounds of the loop of `parseNode` in a session driven only
through `parseNode` (a call that has returned is followed by the next call):
the tokens pulled, in order, and the session after the last round. -/
def pullRounds : Nat → AtomicML → Except Fault (List Token × AtomicML)
  | 0, s => .ok ([], s)
  | n + 1, s => do
    let (token, data, s1) ← nextToken s
    let r ← onToken token data s1
    let (rest, s2) ← pullRounds n (sessionAfter r)
    .ok (token :: rest, s2)

/-- The results of `n` successive `parseNode` calls on one session, as the
pointers returned (`none` for `NULL`). -/
def parseCalls : Nat → AtomicML → Except Fault (List (Option Ptr) × AtomicML)
  | 0, s => .ok ([], s)
  | n + 1, s => do
    let (out, s1) ← parseNode s
    let (rest, s2) ← parseCalls n s1
    .ok (out :: rest, s2)

/-- Every pointer the session holds is the address of a node: the entries of
the ancestor stack and the `last` link of every node. -/
def HeapOk (s : AtomicML) : Prop :=
  (∀ p ∈ s.nodes, p < s.heap.length) ∧
  (∀ c ∈ s.heap, ∀ l, c.last = some l → l < s.heap.length)

/-- The ancestor stack has one entry for every indent-stack entry above the
sentinel. -/
def Lockstep (s : AtomicML) : Prop :=
  s.nodes.length + 1 = s.stack.length

/-- The source is exhausted and no line is pending: every further token is `END`. -/
def Ended (s : AtomicML) : Prop :=
  s.state = State.INDENTING ∧ s.source = []

/-- What a session driven through `parseNode` keeps true. -/
def SessionOk (s : AtomicML) : Prop :=
  TokenizerOk s ∧ HeapOk s ∧ (Lockstep s ∨ (Ended s ∧ s.nodes.length + 1 ≤ s.stack.length))

/-! ## Rendering a node -/

mutual
/-- The method `Node::toString(prefix)` called on the node at `p`; `pre` is its
argument `prefix`. -/
def Node.toString : Nat → Heap → Ptr → String → Except Fault String
  | 0, _, _, _ => .error .outOfFuel
  | fuel + 1, h, p, pre => do
    let n ← h.read p
    Node.toStringLoop fuel h n.first (pre ++ "  ") (pre ++ n.data)
/-- The `for` loop of `Node::toString` from the child `child` on: `pre2` is
`prefix + "  "` and `out` the string built so far. -/
def Node.toStringLoop : Nat → Heap → Option Ptr → String → String → Except Fault String
  | 0, _, _, _, _ => .error .outOfFuel
  | _ + 1, _, none, _, out => .ok out
  | fuel + 1, h, some child, pre2, out => do
    let s ← Node.toString fuel h child pre2
    let n ← h.read child
    Node.toStringLoop fuel h n.next pre2 (out ++ ("\n" ++ s))
end

/-- The pointers of a sibling chain: `child`, `child->next`, ... up to `NULL`. -/
def childPtrs : Nat → Heap → Option Ptr → Option (List Ptr)
  | 0, _, _ => none
  | _ + 1, _, none => some []
  | fuel + 1, h, some child =>
    match h[child]? with
    | none => none
    | some n =>
      match childPtrs fuel h n.next with
      | none => none
      | some rest => some (child :: rest)

mutual
/-- The rendering as the specification words it: the caller's prefix and the
label, then each child in order on a line of its own, rendered with two more
spaces of prefix. -/
def render (pre : String) : NodeTree → String
  | .node label children => pre ++ label ++ renderChildren (pre ++ "  ") children
/-- The renderings of the children, each preceded by a newline. -/
def renderChildren (pre : String) : List NodeTree → String
  | [] => ""
  | c :: cs => "\n" ++ render pre c ++ renderChildren pre cs
end

mutual
/-- The nodes of a tree in preorder, each with its depth below the root plus `d`. -/
def depthLabels (d : Nat) : NodeTree → List (Nat × String)
  | .node label children => (d, label) :: depthLabelsList (d + 1) children
/-- The nodes of a list of trees in preorder, the roots at depth `d`. -/
def depthLabelsList (d : Nat) : List NodeTree → List (Nat × String)
  | [] => []
  | c :: cs => depthLabels d c ++ depthLabelsList d cs
end

/-- The line of a node at depth `e.1` with label `e.2`: the prefix, two spaces
for every level, the label. -/
def lineOf (pre : String) (e : Nat × String) : String :=
  pre ++ String.mk (List.replicate (2 * e.1) ' ') ++ e.2

/-- Lines joined by newlines. -/
def joinLines : List String → String
  | [] => ""
  | [l] => l
  | l :: rest => l ++ "\n" ++ joinLines rest

mutual
/-- The labels of a tree in preorder. -/
def preorder : NodeTree → List String
  | .node label children => label :: preorderList children
/-- The labels of a list of trees in preorder. -/
def preorderList : List NodeTree → List String
  | [] => []
  | c :: cs => preorder c ++ preorderList cs
end

/-- Lines each preceded by a newline. -/
def prefixedLines : List String → String
  | [] => ""
  | l :: rest => "\n" ++ l ++ prefixedLines rest


/-! ## Trees laid out on the free store -/

mutual
/-- The number of nodes of a tree. -/
def size : NodeTree → Nat
  | .node _ children => 1 + sizeList children
/-- The number of nodes of a list of trees. -/
def sizeList : List NodeTree → Nat
  | [] => 0
  | c :: cs => size c + sizeList cs
end

/-- The `next` link of a child: the address `y` of the sibling that follows, or
`nxt` for the last child of the list. -/
def linkOf (rest : List NodeTree) (nxt : Option Ptr) (y : Ptr) : Option Ptr :=
  match rest with
  | [] => nxt
  | _ :: _ => some y

mutual
/-- The nodes of a tree allocated in preorder from address `a` on, the root
having the `next` link `nxt`: what `new Node` and `addChild` build when every
node is attached to its parent before the next node is allocated. -/
def layout (a : Nat) (nxt : Option Ptr) : NodeTree → List Node
  | .node label children =>
    { data := label,
      first := linkOf children none (a + 1),
      last := linkOf children none (a + 1 + sizeList children.dropLast),
      next := nxt } :: layoutList (a + 1) none children
/-- The nodes of a list of sibling trees allocated from address `a` on, the
last sibling having the `next` link `nxt`. -/
def layoutList (a : Nat) (nxt : Option Ptr) : List NodeTree → List Node
  | [] => []
  | c :: cs => layout a (linkOf cs nxt (a + size c)) c ++ layoutList (a + size c) nxt cs
end

mutual
/-- The tree with a new childless node `d` attached as the last child of the
node at depth `j` on its rightmost path. -/
def attach (j : Nat) (d : String) : NodeTree → NodeTree
  | .node label children =>
    match j with
    | 0 => .node label (children ++ [.node d []])
    | j + 1 => .node label (attachLast j d children)
/-- The list of trees with `attach j d` applied to its last tree. -/
def attachLast (j : Nat) (d : String) : List NodeTree → List NodeTree
  | [] => []
  | c :: cs =>
    match cs with
    | [] => [attach j d c]
    | _ :: _ => c :: attachLast j d cs
end

mutual
/-- The number of nodes below the root on the rightmost path of a tree. -/
def spineLen : NodeTree → Nat
  | .node _ children => spineLenLast children
/-- The number of nodes on the rightmost path through the last tree of a list. -/
def spineLenLast : List NodeTree → Nat
  | [] => 0
  | c :: cs =>
    match cs with
    | [] => 1 + spineLen c
    | _ :: _ => spineLenLast cs
end

mutual
/-- The address of the node at depth `j` on the rightmost path of a tree laid
out from address `a` on. -/
def pathAddr (a : Nat) (j : Nat) : NodeTree → Nat
  | .node _ children =>
    match j with
    | 0 => a
    | j + 1 => pathAddrLast (a + 1) j children
/-- The address of the node at depth `j` on the rightmost path of the last tree
of a list laid out from address `a` on. -/
def pathAddrLast (a : Nat) (j : Nat) : List NodeTree → Nat
  | [] => a
  | c :: cs =>
    match cs with
    | [] => pathAddr a j c
    | _ :: _ => pathAddrLast (a + size c) j cs
end

/-! ## Reading a session to its end -/

/-- The loop of `parseNode` as in `parseLoop`, telling in addition whether the
token on which the call returned was `END`. -/
def parseLoopEnd : Nat → AtomicML → Except Fault (Bool × Option Ptr × AtomicML)
  | 0, _ => .error .outOfFuel
  | fuel + 1, s =>
    match nextToken s with
    | .error e => .error e
    | .ok (token, data, s1) =>
      match onToken token data s1 with
      | .error e => .error e
      | .ok (.inl s2) => parseLoopEnd fuel s2
      | .ok (.inr r) => .ok (decide (token = Token.END), r.1, r.2)

/-- What a caller reads through the result of `parseNode`: no tree for `NULL`,
the tree below the returned node otherwise. -/
def readOut (h : Heap) : Option Ptr → Except Fault (List NodeTree)
  | none => .ok []
  | some p =>
    match treeAt h p with
    | some t => .ok [t]
    | none => .error .badPointer

/-- The trees returned by successive `parseNode` calls on one session, up to and
including the first call that pulls `END`, each read when it is returned; `n`
bounds the number of calls. -/
def treesUntilEnd : Nat → AtomicML → Except Fault (List NodeTree)
  | 0, _ => .error .outOfFuel
  | n + 1, s => do
    let (ended, out, s1) ← parseLoopEnd (parseFuel s) s
    let ts ← readOut s1.heap out
    if ended then .ok ts
    else do
      let rest ← treesUntilEnd n s1
      .ok (ts ++ rest)

/-- The labels of the trees of a list, each tree in preorder, one tree after
the other. -/
def labelsOf (ts : List NodeTree) : List String :=
  (ts.map preorder).flatten

/-- The labels a session still owes: the stored line while a dedent run is
under way, then the remainders of the non-blank lines not yet read. -/
def owedLabels (s : AtomicML) : List String :=
  (if s.state = State.DEDENTING then [s.data] else [])
    ++ (s.source.filter (fun l => !isBlankLine l)).map remainderOf

/-- The open block of a session: the free store is `P` followed by the tree `T`
laid out in preorder, and the ancestor stack holds the nodes at the depths `ds`
of the rightmost path of `T`, the root first. -/
def BlockOk (h : Heap) (nodes : List Ptr) (P : List Node) (T : NodeTree) (ds : List Nat) :
    Prop :=
  h = P ++ layout P.length none T ∧ nodes = ds.map (fun j => pathAddr P.length j T) ∧
  ds.head? = some 0 ∧ ds.Pairwise (· < ·) ∧ ∀ j ∈ ds, j ≤ spineLen T

/-- The labels of the open block of a session are `pend`: none before the first
node of a block is made, the preorder of the open tree afterwards. -/
def OpenOk (s : AtomicML) (pend : List String) : Prop :=
  (s.nodes = [] ∧ pend = []) ∨
  ∃ P T ds, BlockOk s.heap s.nodes P T ds ∧ pend = preorder T
/-! ## The column within 32 bits -/

theorem wrapInt_of_fits (x : Int) (h0 : 0 ≤ x) (h1 : x < 2147483648) : wrapInt x = x := by
  unfold wrapInt
  omega

theorem advanceColumn_space (i : Int) : advanceColumn i ' ' = i + 1 := by
  simp [advanceColumn]

theorem advanceColumn_tab (i : Int) : advanceColumn i '\t' = i + 8 - i % 8 := by
  simp [advanceColumn]

theorem advanceColumn_ge (i : Int) (c : Char) : i ≤ advanceColumn i c := by
  unfold advanceColumn
  split
  · omega
  · split <;> omega

theorem foldl_advance_ge (w : List Char) (i : Int) : i ≤ w.foldl advanceColumn i := by
  induction w generalizing i with
  | nil => simp
  | cons c w ih =>
    rw [List.foldl_cons]
    exact le_trans (advanceColumn_ge i c) (ih _)

theorem foldl_advance_nonneg (w : List Char) (i : Int) (hi : 0 ≤ i) :
    0 ≤ w.foldl advanceColumn i :=
  le_trans hi (foldl_advance_ge w i)

theorem splitLineLoop_space (rest : List Char) (i : Int) (h0 : 0 ≤ i)
    (h1 : i + 1 < 2147483648) :
    splitLineLoop (' ' :: rest) i = splitLineLoop rest (advanceColumn i ' ') := by
  rw [splitLineLoop, if_pos rfl, wrapInt_of_fits _ (by omega) h1, advanceColumn_space]

theorem splitLineLoop_tab (rest : List Char) (i : Int) (h0 : 0 ≤ i)
    (h1 : i + 8 - i % 8 < 2147483648) :
    splitLineLoop ('\t' :: rest) i = splitLineLoop rest (advanceColumn i '\t') := by
  have e : i + (8 - Int.tmod i 8) = i + 8 - i % 8 := by
    rw [Int.tmod_eq_emod h0 (by decide)]
    omega
  rw [splitLineLoop, if_neg (by decide), if_pos rfl, e, wrapInt_of_fits _ (by omega) h1,
    advanceColumn_tab]

theorem splitLineLoop_eq_reference (cs : List Char) (i : Int) (h0 : 0 ≤ i)
    (hfit : (cs.takeWhile isBlankChar).foldl advanceColumn i < 2147483648) :
    splitLineLoop cs i
      = ((cs.takeWhile isBlankChar).foldl advanceColumn i,
         String.mk (cs.dropWhile isBlankChar)) := by
  induction cs generalizing i with
  | nil => rfl
  | cons c rest ih =>
    by_cases h1 : c = ' '
    · subst h1
      have ht : (' ' :: rest).takeWhile isBlankChar = ' ' :: rest.takeWhile isBlankChar := by
        simp [isBlankChar]
      rw [ht, List.foldl_cons] at hfit
      have hstep := foldl_advance_ge (rest.takeWhile isBlankChar) (advanceColumn i ' ')
      rw [advanceColumn_space] at hstep
      rw [splitLineLoop_space rest i h0 (by rw [advanceColumn_space] at hfit; omega),
        ih _ (by rw [advanceColumn_space]; omega) hfit]
      simp [isBlankChar]
    · by_cases h2 : c = '\t'
      · subst h2
        have ht : ('\t' :: rest).takeWhile isBlankChar = '\t' :: rest.takeWhile isBlankChar := by
          simp [isBlankChar]
        rw [ht, List.foldl_cons] at hfit
        have hstep := foldl_advance_ge (rest.takeWhile isBlankChar) (advanceColumn i '\t')
        rw [advanceColumn_tab] at hstep
        rw [splitLineLoop_tab rest i h0 (by rw [advanceColumn_tab] at hfit; omega),
          ih _ (by rw [advanceColumn_tab]; omega) hfit]
        simp [isBlankChar]
      · rw [splitLineLoop, if_neg h1, if_neg h2]
        simp [isBlankChar, h1, h2]

theorem splitLineLoop_remainder (cs : List Char) (i : Int) :
    (splitLineLoop cs i).2 = String.mk (cs.dropWhile isBlankChar) := by
  induction cs generalizing i with
  | nil => rfl
  | cons c rest ih =>
    by_cases h1 : c = ' '
    · subst h1
      rw [splitLineLoop, if_pos rfl, ih]
      simp [isBlankChar]
    · by_cases h2 : c = '\t'
      · subst h2
        rw [splitLineLoop, if_neg (by decide), if_pos rfl, ih]
        simp [isBlankChar]
      · rw [splitLineLoop, if_neg h1, if_neg h2]
        simp [isBlankChar, h1, h2]

theorem splitLine_of_fits (line : String) (h : columnFits line) :
    splitLine line = referenceSplit line :=
  splitLineLoop_eq_reference line.data 0 (le_refl _) h

theorem columnOf_of_fits (line : String) (h : columnFits line) :
    columnOf line = trueColumn line := by
  unfold columnOf trueColumn
  rw [splitLine_of_fits line h]

theorem trueColumn_nonneg (line : String) : 0 ≤ trueColumn line :=
  foldl_advance_nonneg _ 0 (le_refl _)

theorem splitLine_nonneg (line : String) (h : columnFits line) : 0 ≤ (splitLine line).1 := by
  rw [splitLine_of_fits line h]
  exact trueColumn_nonneg line

theorem columnOf_nonneg (line : String) (h : columnFits line) : 0 ≤ columnOf line :=
  splitLine_nonneg line h

theorem columnFits_of_startsWithText (t : String) (h : startsWithText t) : columnFits t := by
  cases t with
  | mk d =>
    cases d with
    | nil => simp [startsWithText] at h
    | cons c cs =>
      simp only [startsWithText] at h
      simp [columnFits, trueColumn, referenceSplit, isBlankChar, h.1, h.2]

theorem startsWithText_of_trueColumn_zero (line : String) (hc : trueColumn line = 0)
    (hb : isBlankLine line = false) : startsWithText line := by
  cases line with
  | mk d =>
    cases d with
    | nil => simp [isBlankLine] at hb
    | cons c cs =>
      simp only [startsWithText]
      by_cases h1 : c = ' '
      · subst h1
        have ht : (' ' :: cs).takeWhile isBlankChar = ' ' :: cs.takeWhile isBlankChar := by
          simp [isBlankChar]
        have := foldl_advance_ge (cs.takeWhile isBlankChar) (advanceColumn 0 ' ')
        simp only [trueColumn, referenceSplit, ht, List.foldl_cons] at hc
        rw [advanceColumn_space] at this hc
        omega
      · by_cases h2 : c = '\t'
        · subst h2
          have ht : ('\t' :: cs).takeWhile isBlankChar = '\t' :: cs.takeWhile isBlankChar := by
            simp [isBlankChar]
          have := foldl_advance_ge (cs.takeWhile isBlankChar) (advanceColumn 0 '\t')
          simp only [trueColumn, referenceSplit, ht, List.foldl_cons] at hc
          rw [advanceColumn_tab] at this hc
          omega
        · exact ⟨h1, h2⟩
/-! ## Lemmas about the line splitter -/

theorem strlen_eq_zero (t : String) : t.length = 0 ↔ t = "" := by
  cases t with
  | mk d =>
    cases d with
    | nil => simp [String.length]
    | cons c cs =>
      simp [String.length]
      intro h
      have := congrArg String.data h
      simp at this

theorem splitLine_of_startsWithText (t : String) (h : startsWithText t) :
    splitLine t = (0, t) := by
  cases t with
  | mk d =>
    cases d with
    | nil => simp [startsWithText] at h
    | cons c cs =>
      simp only [startsWithText] at h
      simp [splitLine, splitLineLoop, h.1, h.2]

theorem splitLineLoop_blank (cs : List Char) (i : Int) :
    (splitLineLoop cs i).2 = "" ↔ ∀ c ∈ cs, c = ' ' ∨ c = '\t' := by
  induction cs generalizing i with
  | nil => simp [splitLineLoop]
  | cons c rest ih =>
    unfold splitLineLoop
    split
    · rename_i hc; simp [ih, hc]
    · split
      · rename_i _ hc; simp [ih, hc]
      · rename_i h1 h2
        simp [h1, h2]
        intro h
        have := congrArg String.data h
        simp at this

theorem splitLine_blank (line : String) :
    (splitLine line).2 = "" ↔ isBlankLine line = true := by
  simp [splitLine, splitLineLoop_blank, isBlankLine]

/-! ### Vector accesses on a stack with known top entries -/

theorem back_snoc {α : Type} (pre : List α) (x : α) : back (pre ++ [x]) = .ok x := by
  simp [back]

theorem back_snoc2 {α : Type} (pre : List α) (x y : α) : back (pre ++ [x, y]) = .ok y := by
  simp [back]

theorem pop_back_snoc {α : Type} (pre : List α) (x : α) : pop_back (pre ++ [x]) = .ok pre := by
  cases pre with
  | nil => simp [pop_back]
  | cons a t =>
    simp only [pop_back, List.cons_append]
    rw [← List.cons_append, List.dropLast_concat]

theorem pop_back_snoc2 {α : Type} (pre : List α) (x y : α) :
    pop_back (pre ++ [x, y]) = .ok (pre ++ [x]) := by
  have := pop_back_snoc (pre ++ [x]) y
  simpa using this

theorem getElem?_snoc2 {α : Type} (pre : List α) (x y : α) :
    (pre ++ [x, y])[pre.length]? = some x := by
  rw [List.getElem?_append_right (le_refl _)]
  simp

theorem sizeMinus_two_snoc2 {α : Type} (pre : List α) (x y : α) :
    sizeMinus (pre ++ [x, y]) 2 = .ok pre.length := by
  simp [sizeMinus]

theorem sizeMinus_one_snoc2 {α : Type} (pre : List α) (x y : α) :
    sizeMinus (pre ++ [x, y]) 1 = .ok (pre.length + 1) := by
  simp [sizeMinus]

theorem at_snoc2 {α : Type} (pre : List α) (x y : α) :
    at_ (pre ++ [x, y]) pre.length = .ok x := by
  unfold at_
  rw [getElem?_snoc2]

theorem assign_snoc2 {α : Type} (pre : List α) (x y z : α) :
    assign (pre ++ [x, y]) (pre.length + 1) z = .ok (pre ++ [x, z]) := by
  have h : (pre ++ [x, y]).set (pre.length + 1) z = pre ++ [x, z] := by
    induction pre with
    | nil => rfl
    | cons a t ih => simp [ih]
  simp [assign, h]

/-! ### The token for a stored line -/

theorem tokenOfLine_blank (s : AtomicML) (h : s.data = "") :
    tokenOfLine s = .ok (Token.BLANK, "", s) := by
  simp [tokenOfLine, h]

theorem emitLine_same (s : AtomicML) (pre : List Int) (hs : s.stack = pre ++ [s.indent]) :
    emitLine s = .ok (Token.SAMEDENT, s.data, { s with state := State.INDENTING }) := by
  have hb : back s.stack = .ok s.indent := by rw [hs]; exact back_snoc _ _
  simp [emitLine, hb, bind, Except.bind]

theorem emitLine_indent (s : AtomicML) (top : Int)
    (hb : back s.stack = .ok top) (hne : s.indent ≠ top) :
    emitLine s = .ok (Token.INDENT, s.data,
      { s with state := State.INDENTING, stack := s.stack ++ [s.indent] }) := by
  simp [emitLine, hb, bind, Except.bind, hne, push_back]

theorem tokenOfLine_same (s : AtomicML) (pre : List Int) (hd : s.data ≠ "")
    (hs : s.stack = pre ++ [s.indent]) :
    tokenOfLine s = .ok (Token.SAMEDENT, s.data, { s with state := State.INDENTING }) := by
  have hb : back s.stack = .ok s.indent := by rw [hs]; exact back_snoc _ _
  simp [tokenOfLine, strlen_eq_zero, hd, hb, bind, Except.bind, emitLine_same s pre hs]

theorem tokenOfLine_indent (s : AtomicML) (pre : List Int) (top : Int) (hd : s.data ≠ "")
    (hs : s.stack = pre ++ [top]) (hlt : top < s.indent) :
    tokenOfLine s = .ok (Token.INDENT, s.data,
      { s with state := State.INDENTING, stack := s.stack ++ [s.indent] }) := by
  have hb : back s.stack = .ok top := by rw [hs]; exact back_snoc _ _
  have hn : ¬ s.indent < top := by omega
  simp [tokenOfLine, strlen_eq_zero, hd, hb, bind, Except.bind, hn,
    emitLine_indent s top hb (by omega)]

theorem tokenOfLine_soft (s : AtomicML) (pre : List Int) (below top : Int) (hd : s.data ≠ "")
    (hs : s.stack = pre ++ [below, top]) (h1 : below < s.indent) (h2 : s.indent < top) :
    tokenOfLine s = .ok (Token.SAMEDENT, s.data,
      { s with state := State.INDENTING, stack := pre ++ [below, s.indent] }) := by
  have e := emitLine_same { s with stack := pre ++ [below, s.indent] } (pre ++ [below])
    (by simp)
  simp [tokenOfLine, strlen_eq_zero, hd, hs, back_snoc2, sizeMinus_two_snoc2, at_snoc2,
    sizeMinus_one_snoc2, assign_snoc2, bind, Except.bind, h1, h2, e]

theorem tokenOfLine_dedent (s : AtomicML) (pre : List Int) (below top : Int) (hd : s.data ≠ "")
    (hs : s.stack = pre ++ [below, top]) (h1 : s.indent ≤ below) (h2 : s.indent < top) :
    tokenOfLine s = .ok (Token.DEDENT, "",
      { s with state := State.DEDENTING, stack := pre ++ [below] }) := by
  have hn : ¬ below < s.indent := by omega
  simp [tokenOfLine, strlen_eq_zero, hd, hs, back_snoc2, sizeMinus_two_snoc2, at_snoc2,
    pop_back_snoc2, bind, Except.bind, hn, h2]

/-! ### One call of the tokenizer -/

theorem nextToken_end (s : AtomicML) (hm : s.state = State.INDENTING) (hsrc : s.source = []) :
    nextToken s = .ok (Token.END, "", s) := by
  simp [nextToken, readLine, hm, hsrc]

theorem nextToken_read (s : AtomicML) (line : String) (rest : List String)
    (hm : s.state = State.INDENTING) (hsrc : s.source = line :: rest) :
    nextToken s = tokenOfLine
      { s with source := rest, indent := (splitLine line).1, data := (splitLine line).2 } := by
  simp [nextToken, readLine, hm, hsrc]

theorem nextToken_pending (s : AtomicML) (hm : s.state = State.DEDENTING) :
    nextToken s = tokenOfLine s := by
  simp [nextToken, readLine, hm]

theorem nextToken_line (s : AtomicML) (line : String) (rest : List String) (c : Int)
    (r : String) (hm : s.state = State.INDENTING) (hsrc : s.source = line :: rest)
    (hl : splitLine line = (c, r)) :
    nextToken s = tokenOfLine { s with source := rest, indent := c, data := r } := by
  rw [nextToken_read s line rest hm hsrc, hl]

theorem ne_empty_of_startsWithText (t : String) (h : startsWithText t) : t ≠ "" := by
  intro e
  subst e
  exact h

theorem nextTokens_succ (n : Nat) (s s1 s2 : AtomicML) (tok : Token) (d : String)
    (rest : List (Token × String)) (h1 : nextToken s = .ok (tok, d, s1))
    (h2 : nextTokens n s1 = .ok (rest, s2)) :
    nextTokens (n + 1) s = .ok ((tok, d) :: rest, s2) := by
  simp [nextTokens, h1, h2, bind, Except.bind]

theorem nextTokens_end (n : Nat) (s : AtomicML) (hm : s.state = State.INDENTING)
    (hsrc : s.source = []) :
    nextTokens n s = .ok (List.replicate n (Token.END, ""), s) := by
  induction n with
  | zero => rfl
  | succ n ih => exact nextTokens_succ n s s s _ _ _ (nextToken_end s hm hsrc) ih

theorem tokenOfLine_ne_end (s s1 : AtomicML) (tok : Token) (d : String)
    (h : tokenOfLine s = .ok (tok, d, s1)) : tok ≠ Token.END := by
  intro e
  subst e
  unfold tokenOfLine emitLine at h
  simp only [bind, Except.bind] at h
  repeat' split at h
  all_goals simp at h

theorem nextToken_end_inv (s s1 : AtomicML) (d : String)
    (h : nextToken s = .ok (Token.END, d, s1)) :
    s.state = State.INDENTING ∧ s.source = [] ∧ d = "" ∧ s1 = s := by
  unfold nextToken at h
  split at h
  · rename_i hr
    simp at h
    unfold readLine at hr
    split at hr
    · rename_i hm
      split at hr
      · rename_i hsrc
        exact ⟨hm, hsrc, h.1.symm, h.2.symm⟩
      · simp at hr
    · simp at hr
  · exact absurd rfl (tokenOfLine_ne_end _ _ _ _ h)

/-! ### The tree builder, one round at a time -/

theorem pullToken_of_nextToken (s s1 : AtomicML) (tok : Token) (d : String)
    (h : nextToken s = .ok (tok, d, s1)) : pullToken s = onToken tok d s1 := by
  simp [pullToken, h, bind, Except.bind]

theorem parseLoop_return (f : Nat) (s : AtomicML) (r : Option Ptr × AtomicML)
    (h : pullToken s = .ok (.inr r)) : parseLoop (f + 1) s = .ok r := by
  simp [parseLoop, h]

theorem parseLoop_continue (f : Nat) (s s2 : AtomicML)
    (h : pullToken s = .ok (.inl s2)) : parseLoop (f + 1) s = parseLoop f s2 := by
  simp [parseLoop, h]

theorem parseNode_return (s : AtomicML) (r : Option Ptr × AtomicML)
    (h : pullToken s = .ok (.inr r)) : parseNode s = .ok r :=
  parseLoop_return _ s r h

theorem onToken_samedent_single (s : AtomicML) (d : String) (p : Ptr) (hn : s.nodes = [p]) :
    onToken Token.SAMEDENT d s = .ok (.inr (some p,
      { s with heap := s.heap ++ [⟨d, none, none, none⟩], nodes := [s.heap.length] })) := by
  simp [onToken, hn, Heap.alloc, back, pop_back, push_back, bind, Except.bind]

theorem onToken_indent_first (s : AtomicML) (d : String) (hn : s.nodes = []) :
    onToken Token.INDENT d s = .ok (.inl
      { s with heap := s.heap ++ [⟨d, none, none, none⟩], nodes := [s.heap.length] }) := by
  simp [onToken, hn, Heap.alloc, push_back, bind, Except.bind]

theorem onToken_end_single (s : AtomicML) (p : Ptr) (hn : s.nodes = [p]) :
    onToken Token.END "" s = .ok (.inr (some p, { s with nodes := [] })) := by
  simp [onToken, hn, at_, pop_back, bind, Except.bind]

theorem onToken_end_empty (s : AtomicML) (hn : s.nodes = []) :
    onToken Token.END "" s = .ok (.inr (none, s)) := by
  simp [onToken, hn]

/-! ### Successive calls of the tree builder -/

theorem parseNodes_some (n : Nat) (s s1 s2 : AtomicML) (p : Ptr) (t : NodeTree)
    (rest : List (Option NodeTree)) (h1 : parseNode s = .ok (some p, s1))
    (ht : treeAt s1.heap p = some t) (h2 : parseNodes n s1 = .ok (rest, s2)) :
    parseNodes (n + 1) s = .ok (some t :: rest, s2) := by
  simp [parseNodes, h1, ht, h2, bind, Except.bind]

theorem parseNodes_none (n : Nat) (s s1 s2 : AtomicML)
    (rest : List (Option NodeTree)) (h1 : parseNode s = .ok (none, s1))
    (h2 : parseNodes n s1 = .ok (rest, s2)) :
    parseNodes (n + 1) s = .ok (none :: rest, s2) := by
  simp [parseNodes, h1, h2, bind, Except.bind]

theorem parseNodes_congr (n : Nat) (s t : AtomicML) (h : parseNode s = parseNode t) :
    parseNodes (n + 1) s = parseNodes (n + 1) t := by
  simp [parseNodes, h]

theorem treeAt_leaf (h : Heap) (p : Ptr) (n : Node) (hp : h[p]? = some n)
    (hf : n.first = none) : treeAt h p = some (leaf n.data) := by
  show readNode ((2 * h.length + 1) + 1) h p = _
  simp [readNode, readChain, hp, hf, leaf]

/-! ### Lines that never indent deeper than the one before -/

theorem pullToken_first_line (line : String) (rest : List String) (indent0 : Int)
    (hr : remainderOf line ≠ "") (hpos : 0 ≤ columnOf line) :
    pullToken (AtomicML.new (line :: rest) indent0) = .ok (.inl
      ⟨[-1, columnOf line], State.INDENTING, columnOf line, remainderOf line, rest, [0],
        [⟨remainderOf line, none, none, none⟩]⟩) := by
  have hc : (-1 : Int) < columnOf line := by
    omega
  have h1 : nextToken (AtomicML.new (line :: rest) indent0)
      = .ok (Token.INDENT, remainderOf line,
          ⟨[-1, columnOf line], State.INDENTING, columnOf line, remainderOf line, rest, [], []⟩) := by
    rw [nextToken_line _ line rest (columnOf line) (remainderOf line) rfl rfl rfl]
    exact tokenOfLine_indent _ [] (-1) hr rfl hc
  rw [pullToken_of_nextToken _ _ _ _ h1]
  exact onToken_indent_first _ _ rfl

theorem pullToken_flat_line (s : AtomicML) (c : Int) (p : Ptr) (line : String)
    (rest : List String) (hs : s.stack = [-1, c]) (hm : s.state = State.INDENTING)
    (hn : s.nodes = [p]) (hsrc : s.source = line :: rest) (hr : remainderOf line ≠ "")
    (hc : columnOf line ≤ c) (hpos : 0 ≤ columnOf line) :
    pullToken s = .ok (.inr (some p,
      ⟨[-1, columnOf line], State.INDENTING, columnOf line, remainderOf line, rest,
        [s.heap.length], s.heap ++ [⟨remainderOf line, none, none, none⟩]⟩)) := by
  have h0 : (-1 : Int) < columnOf line := by
    omega
  have h1 : nextToken s = .ok (Token.SAMEDENT, remainderOf line,
      ⟨[-1, columnOf line], State.INDENTING, columnOf line, remainderOf line, rest,
        s.nodes, s.heap⟩) := by
    rw [nextToken_line s line rest (columnOf line) (remainderOf line) hm hsrc rfl]
    rcases lt_or_eq_of_le hc with hlt | heq
    · exact tokenOfLine_soft _ [] (-1) c hr hs h0 hlt
    · rw [tokenOfLine_same _ [-1] hr (by simp [hs, heq])]
      simp [hs, heq]
  rw [pullToken_of_nextToken _ _ _ _ h1]
  exact onToken_samedent_single _ _ p hn

theorem parseNode_at_end_single (s : AtomicML) (p : Ptr) (hm : s.state = State.INDENTING)
    (hsrc : s.source = []) (hn : s.nodes = [p]) :
    parseNode s = .ok (some p, { s with nodes := [] }) := by
  apply parseNode_return
  rw [pullToken_of_nextToken _ _ _ _ (nextToken_end s hm hsrc)]
  exact onToken_end_single s p hn

theorem parseNode_at_end_empty (s : AtomicML) (hm : s.state = State.INDENTING)
    (hsrc : s.source = []) (hn : s.nodes = []) :
    parseNode s = .ok (none, s) := by
  apply parseNode_return
  rw [pullToken_of_nextToken _ _ _ _ (nextToken_end s hm hsrc)]
  exact onToken_end_empty s hn

theorem getElem?_append_of_some {α : Type} (h : List α) (p : Nat) (x : α) (extra : List α)
    (hp : h[p]? = some x) : (h ++ extra)[p]? = some x := by
  have hlt : p < h.length := by
    by_contra hge
    rw [List.getElem?_eq_none (by omega)] at hp
    cases hp
  rw [List.getElem?_append_left hlt]
  exact hp

theorem parseNodes_flat_run (lines : List String) :
    ∀ (s : AtomicML) (c : Int) (p : Ptr) (label : String),
      s.stack = [-1, c] → s.state = State.INDENTING → s.nodes = [p] → s.source = lines →
      s.heap[p]? = some ⟨label, none, none, none⟩ →
      (∀ l ∈ lines, remainderOf l ≠ "") → (∀ l ∈ lines, 0 ≤ columnOf l) →
      List.Chain (fun a b => b ≤ a) c (lines.map columnOf) →
      ∃ s1, parseNodes (lines.length + 2) s
        = .ok (some (leaf label) :: (lines.map fun l => some (leaf (remainderOf l))) ++ [none],
            s1) := by
  induction lines with
  | nil =>
    intro s c p label _ hm hn hsrc hp _ _ _
    have e1 := parseNode_at_end_single s p hm hsrc hn
    have e2 := parseNode_at_end_empty { s with nodes := [] } hm hsrc rfl
    exact ⟨_, parseNodes_some 1 _ _ _ p _ _ e1 (treeAt_leaf _ p _ hp rfl)
      (parseNodes_none 0 _ _ _ _ e2 rfl)⟩
  | cons line rest ih =>
    intro s c p label hs hm hn hsrc hp hnb hpos hch
    have hr : remainderOf line ≠ "" := hnb line (List.mem_cons_self _ _)
    rw [List.map_cons, List.chain_cons] at hch
    have e1 := parseNode_return _ _ (pullToken_flat_line s c p line rest hs hm hn hsrc hr hch.1
      (hpos line (List.mem_cons_self _ _)))
    obtain ⟨s1, h1⟩ := ih
      ⟨[-1, columnOf line], State.INDENTING, columnOf line, remainderOf line, rest,
        [s.heap.length], s.heap ++ [⟨remainderOf line, none, none, none⟩]⟩
      (columnOf line) s.heap.length (remainderOf line) rfl rfl rfl rfl (by simp)
      (fun l hl => hnb l (List.mem_cons_of_mem _ hl))
      (fun l hl => hpos l (List.mem_cons_of_mem _ hl)) hch.2
    exact ⟨s1, parseNodes_some _ _ _ _ p _ _ e1
      (treeAt_leaf _ p _ (getElem?_append_of_some _ _ _ _ hp) rfl) h1⟩

theorem parseNodes_fresh_flat (line : String) (rest : List String) (indent0 : Int)
    (hnb : ∀ l ∈ line :: rest, remainderOf l ≠ "")
    (hpos : ∀ l ∈ line :: rest, 0 ≤ columnOf l)
    (hch : List.Chain (fun a b => b ≤ a) (columnOf line) (rest.map columnOf)) :
    ∃ s1, parseNodes ((line :: rest).length + 1) (AtomicML.new (line :: rest) indent0)
      = .ok (((line :: rest).map fun l => some (leaf (remainderOf l))) ++ [none], s1) := by
  have hr : remainderOf line ≠ "" := hnb line (List.mem_cons_self _ _)
  have hfirst : parseNode (AtomicML.new (line :: rest) indent0)
      = parseNode ⟨[-1, columnOf line], State.INDENTING, columnOf line, remainderOf line, rest,
          [0], [⟨remainderOf line, none, none, none⟩]⟩ :=
    parseLoop_continue _ _ _ (pullToken_first_line line rest indent0 hr
      (hpos line (List.mem_cons_self _ _)))
  obtain ⟨s1, h1⟩ := parseNodes_flat_run rest
    ⟨[-1, columnOf line], State.INDENTING, columnOf line, remainderOf line, rest,
      [0], [⟨remainderOf line, none, none, none⟩]⟩
    (columnOf line) 0 (remainderOf line) rfl rfl rfl rfl rfl
    (fun l hl => hnb l (List.mem_cons_of_mem _ hl))
    (fun l hl => hpos l (List.mem_cons_of_mem _ hl)) hch
  refine ⟨s1, ?_⟩
  rw [List.length_cons, parseNodes_congr _ _ _ hfirst, h1]
  rfl

theorem except_map_bind {ε α β γ : Type} (f : β → γ) (x : Except ε α) (g : α → Except ε β) :
    Except.map f (x >>= g) = x >>= fun a => Except.map f (g a) := by
  cases x <;> rfl

theorem except_map_ite {ε β γ : Type} (f : β → γ) (c : Prop) [Decidable c]
    (a b : Except ε β) :
    Except.map f (if c then a else b) = if c then Except.map f a else Except.map f b := by
  split <;> rfl

theorem except_map_ok {ε β γ : Type} (f : β → γ) (a : β) :
    Except.map f (Except.ok a : Except ε β) = Except.ok (f a) := rfl

theorem tokenOfLine_withSource (s : AtomicML) (x : List String) :
    tokenOfLine { s with source := x }
      = (tokenOfLine s).map (fun r => (r.1, r.2.1, { r.2.2 with source := x })) := by
  unfold tokenOfLine emitLine
  simp only [except_map_bind, except_map_ite, except_map_ok]

theorem onToken_withLine (tok : Token) (d : String) (s : AtomicML) (x : List String)
    (i : Int) (dd : String) :
    onToken tok d { s with source := x, indent := i, data := dd }
      = (onToken tok d s).map (Sum.map (fun s2 => { s2 with source := x, indent := i, data := dd })
          (fun r => (r.1, { r.2 with source := x, indent := i, data := dd }))) := by
  cases tok <;>
  · unfold onToken
    simp only [except_map_bind, except_map_ite, except_map_ok, Sum.map_inl, Sum.map_inr]

/-! ### What one tokenizer call and one switch leave untouched -/

theorem tokenOfLine_keeps (s : AtomicML) :
    (tokenOfLine s).map (fun r => (r.2.2.indent, r.2.2.data, r.2.2.source, r.2.2.nodes, r.2.2.heap))
      = (tokenOfLine s).map (fun _ => (s.indent, s.data, s.source, s.nodes, s.heap)) := by
  unfold tokenOfLine emitLine
  simp only [except_map_bind, except_map_ite, except_map_ok]

theorem onToken_keeps (tok : Token) (d : String) (s : AtomicML) :
    (onToken tok d s).map
        (Sum.elim (fun s2 => (s2.stack, s2.state, s2.indent, s2.data, s2.source))
          (fun r => (r.2.stack, r.2.state, r.2.indent, r.2.data, r.2.source)))
      = (onToken tok d s).map (fun _ => (s.stack, s.state, s.indent, s.data, s.source)) := by
  cases tok <;>
  · unfold onToken
    simp only [except_map_bind, except_map_ite, except_map_ok, Sum.elim_inl, Sum.elim_inr]

theorem onToken_end_returns (d : String) (s : AtomicML) :
    (onToken Token.END d s).map Sum.isLeft = (onToken Token.END d s).map (fun _ => false) := by
  unfold onToken
  simp only [except_map_bind, except_map_ite, except_map_ok, Sum.isLeft_inr]

theorem tokenOfLine_keeps_ok (s s1 : AtomicML) (tok : Token) (d : String)
    (h : tokenOfLine s = .ok (tok, d, s1)) :
    s1.indent = s.indent ∧ s1.data = s.data ∧ s1.source = s.source ∧ s1.nodes = s.nodes ∧
      s1.heap = s.heap := by
  have := tokenOfLine_keeps s
  rw [h] at this
  simpa [Except.map] using this

theorem onToken_keeps_inl (tok : Token) (d : String) (s s2 : AtomicML)
    (h : onToken tok d s = .ok (.inl s2)) :
    s2.stack = s.stack ∧ s2.state = s.state ∧ s2.indent = s.indent ∧ s2.data = s.data ∧
      s2.source = s.source := by
  have := onToken_keeps tok d s
  rw [h] at this
  simpa [Except.map] using this

theorem onToken_keeps_inr (tok : Token) (d : String) (s s2 : AtomicML) (p : Option Ptr)
    (h : onToken tok d s = .ok (.inr (p, s2))) :
    s2.stack = s.stack ∧ s2.state = s.state ∧ s2.indent = s.indent ∧ s2.data = s.data ∧
      s2.source = s.source := by
  have := onToken_keeps tok d s
  rw [h] at this
  simpa [Except.map] using this

theorem onToken_inl_ne_end (tok : Token) (d : String) (s s2 : AtomicML)
    (h : onToken tok d s = .ok (.inl s2)) : tok ≠ Token.END := by
  intro e
  subst e
  have := onToken_end_returns d s
  rw [h] at this
  simp [Except.map] at this

/-! ### Every token but `END` uses up budget -/

theorem tokenOfLine_weight (s s1 : AtomicML) (tok : Token) (d : String)
    (h : tokenOfLine s = .ok (tok, d, s1)) (hinv : PendingLineOk s) :
    PendingLineOk s1 ∧ lineWeight s1 ≤ s.stack.length + 1 := by
  by_cases hd : s.data = ""
  · rw [tokenOfLine_blank s hd] at h
    simp only [Except.ok.injEq, Prod.mk.injEq] at h
    obtain ⟨-, -, rfl⟩ := h
    refine ⟨hinv, ?_⟩
    have hm : s.state ≠ State.DEDENTING := fun hm => hinv hm hd
    simp [lineWeight, hm]
  · rcases List.eq_nil_or_concat s.stack with hs | ⟨pre, top, hs⟩
    · exfalso
      simp [tokenOfLine, strlen_eq_zero, hd, hs, back, bind, Except.bind] at h
    · rw [List.concat_eq_append] at hs
      rcases lt_trichotomy s.indent top with hlt | heq | hgt
      · rcases List.eq_nil_or_concat pre with hp | ⟨pre2, below, hp⟩
        · exfalso
          subst hp
          simp [tokenOfLine, strlen_eq_zero, hd, hs, back, sizeMinus, hlt, bind,
            Except.bind] at h
        · rw [List.concat_eq_append] at hp
          subst hp
          rw [List.append_assoc] at hs
          by_cases hb : below < s.indent
          · rw [tokenOfLine_soft s pre2 below top hd hs hb hlt] at h
            simp only [Except.ok.injEq, Prod.mk.injEq] at h
            obtain ⟨-, -, rfl⟩ := h
            simp [PendingLineOk, lineWeight, hs]
          · rw [tokenOfLine_dedent s pre2 below top hd hs (by omega) hlt] at h
            simp only [Except.ok.injEq, Prod.mk.injEq] at h
            obtain ⟨-, -, rfl⟩ := h
            simp [PendingLineOk, lineWeight, hs, hd]
      · subst heq
        rw [tokenOfLine_same s pre hd hs] at h
        simp only [Except.ok.injEq, Prod.mk.injEq] at h
        obtain ⟨-, -, rfl⟩ := h
        simp [PendingLineOk, lineWeight]
      · rw [tokenOfLine_indent s pre top hd hs hgt] at h
        simp only [Except.ok.injEq, Prod.mk.injEq] at h
        obtain ⟨-, -, rfl⟩ := h
        simp [PendingLineOk, lineWeight]

theorem nextToken_budget (s s1 : AtomicML) (tok : Token) (d : String)
    (h : nextToken s = .ok (tok, d, s1)) (hinv : PendingLineOk s) (hne : tok ≠ Token.END) :
    PendingLineOk s1 ∧ tokenBudget s1 < tokenBudget s := by
  cases hm : s.state with
  | INDENTING =>
    cases hsrc : s.source with
    | nil =>
      rw [nextToken_end s hm hsrc] at h
      simp only [Except.ok.injEq, Prod.mk.injEq] at h
      exact absurd h.1.symm hne
    | cons line rest =>
      rw [nextToken_read s line rest hm hsrc] at h
      obtain ⟨hi, hw⟩ := tokenOfLine_weight _ _ _ _ h (by simp [PendingLineOk, hm])
      obtain ⟨-, -, hsrc1, -, -⟩ := tokenOfLine_keeps_ok _ _ _ _ h
      refine ⟨hi, ?_⟩
      simp only [tokenBudget, hsrc1, hsrc, List.length_cons] at *
      simp [lineWeight, hm] at hw ⊢
      omega
  | DEDENTING =>
    rw [nextToken_pending s hm] at h
    obtain ⟨hi, hw⟩ := tokenOfLine_weight _ _ _ _ h hinv
    obtain ⟨-, -, hsrc1, -, -⟩ := tokenOfLine_keeps_ok _ _ _ _ h
    refine ⟨hi, ?_⟩
    simp only [tokenBudget, hsrc1]
    simp [lineWeight, hm] at hw ⊢
    omega

theorem nextToken_keeps_pendingLineOk (s s1 : AtomicML) (tok : Token) (d : String)
    (h : nextToken s = .ok (tok, d, s1)) (hinv : PendingLineOk s) : PendingLineOk s1 := by
  by_cases hne : tok = Token.END
  · subst hne
    obtain ⟨-, -, -, rfl⟩ := nextToken_end_inv s s1 d h
    exact hinv
  · exact (nextToken_budget s s1 tok d h hinv hne).1

theorem pullToken_cases (s : AtomicML) (r : AtomicML ⊕ (Option Ptr × AtomicML))
    (h : pullToken s = .ok r) :
    ∃ tok d s1, nextToken s = .ok (tok, d, s1) ∧ onToken tok d s1 = .ok r := by
  unfold pullToken at h
  cases hn : nextToken s with
  | error e => simp [hn, bind, Except.bind] at h
  | ok v =>
    obtain ⟨tok, d, s1⟩ := v
    refine ⟨tok, d, s1, rfl, ?_⟩
    simpa [hn, bind, Except.bind] using h

theorem pullToken_budget (s s2 : AtomicML) (h : pullToken s = .ok (.inl s2))
    (hinv : PendingLineOk s) : PendingLineOk s2 ∧ tokenBudget s2 < tokenBudget s := by
  obtain ⟨tok, d, s1, hn, ho⟩ := pullToken_cases s _ h
  obtain ⟨hi, hb⟩ := nextToken_budget s s1 tok d hn hinv (onToken_inl_ne_end _ _ _ _ ho)
  obtain ⟨hst, hm, -, hd, hsrc⟩ := onToken_keeps_inl _ _ _ _ ho
  constructor
  · intro hm2
    rw [hd]
    exact hi (by rw [← hm]; exact hm2)
  · simp only [tokenBudget, lineWeight, hst, hm, hsrc] at *
    exact hb

theorem pullToken_return_pendingLineOk (s s2 : AtomicML) (p : Option Ptr)
    (h : pullToken s = .ok (.inr (p, s2))) (hinv : PendingLineOk s) : PendingLineOk s2 := by
  obtain ⟨tok, d, s1, hn, ho⟩ := pullToken_cases s _ h
  have hi := nextToken_keeps_pendingLineOk s s1 tok d hn hinv
  obtain ⟨-, hm, -, hd, -⟩ := onToken_keeps_inr _ _ _ _ _ ho
  intro hm2
  rw [hd]
  exact hi (by rw [← hm]; exact hm2)

/-- Beyond the token budget the amount of fuel does not matter. -/
theorem parseLoop_fuel_irrelevant (f : Nat) :
    ∀ (g : Nat) (s : AtomicML), PendingLineOk s → tokenBudget s < f → tokenBudget s < g →
      parseLoop f s = parseLoop g s := by
  induction f with
  | zero => intro g s _ hf _; omega
  | succ f ih =>
    intro g s hinv hf hg
    cases g with
    | zero => omega
    | succ g =>
      unfold parseLoop
      cases hp : pullToken s with
      | error e => rfl
      | ok r =>
        cases r with
        | inr r => rfl
        | inl s2 =>
          obtain ⟨hi, hb⟩ := pullToken_budget s s2 hp hinv
          exact ih g s2 hi (by omega) (by omega)

theorem parseLoop_keeps_pendingLineOk (f : Nat) :
    ∀ (s s2 : AtomicML) (p : Option Ptr), PendingLineOk s → parseLoop f s = .ok (p, s2) →
      PendingLineOk s2 := by
  induction f with
  | zero => intro s s2 p _ h; simp [parseLoop] at h
  | succ f ih =>
    intro s s2 p hinv h
    unfold parseLoop at h
    cases hp : pullToken s with
    | error e => simp [hp] at h
    | ok r =>
      cases r with
      | inr r =>
        simp only [hp, Except.ok.injEq] at h
        subst h
        exact pullToken_return_pendingLineOk s s2 p hp hinv
      | inl s3 =>
        simp only [hp] at h
        exact ih s3 s2 p (pullToken_budget s s3 hp hinv).1 h

/-! ### Blank lines do not change what the tree builder returns -/

theorem pullToken_eq (s : AtomicML) :
    pullToken s = match readLine s with
      | none => onToken Token.END "" s
      | some s1 => pullLine s1 := by
  unfold pullToken nextToken pullLine
  cases readLine s <;> rfl

theorem onToken_withSource (tok : Token) (d : String) (s : AtomicML) (x : List String) :
    onToken tok d { s with source := x }
      = (onToken tok d s).map (Sum.map (fun s2 => { s2 with source := x })
          (fun r => (r.1, { r.2 with source := x }))) :=
  onToken_withLine tok d s x s.indent s.data |>.trans (by
    have h := onToken_keeps tok d s
    cases ho : onToken tok d s with
    | error e => rfl
    | ok r =>
      rw [ho] at h
      cases r with
      | inl u =>
        simp only [Except.map, Sum.elim_inl, Except.ok.injEq, Prod.mk.injEq] at h
        obtain ⟨-, -, hi, hd, -⟩ := h
        simp [Except.map, hi, hd]
      | inr r =>
        simp only [Except.map, Sum.elim_inr, Except.ok.injEq, Prod.mk.injEq] at h
        obtain ⟨-, -, hi, hd, -⟩ := h
        simp [Except.map, hi, hd])

theorem pullLine_withSource (s1 : AtomicML) (x : List String) :
    pullLine { s1 with source := x }
      = (pullLine s1).map (Sum.map (fun s2 => { s2 with source := x })
          (fun r => (r.1, { r.2 with source := x }))) := by
  unfold pullLine
  rw [tokenOfLine_withSource]
  cases tokenOfLine s1 with
  | error e => rfl
  | ok v => exact onToken_withSource v.1 v.2.1 v.2.2 x

theorem pullLine_keeps_source (s1 : AtomicML) (r : AtomicML ⊕ (Option Ptr × AtomicML))
    (h : pullLine s1 = .ok r) :
    Sum.elim (fun u => u.source) (fun q => q.2.source) r = s1.source := by
  unfold pullLine at h
  cases ht : tokenOfLine s1 with
  | error e => simp [ht, bind, Except.bind] at h
  | ok v =>
    obtain ⟨tok, d, s2⟩ := v
    have ho : onToken tok d s2 = .ok r := by simpa [ht, bind, Except.bind] using h
    obtain ⟨-, -, hsrc, -, -⟩ := tokenOfLine_keeps_ok _ _ _ _ ht
    cases r with
    | inl u => exact (onToken_keeps_inl _ _ _ _ ho).2.2.2.2.trans hsrc
    | inr q => exact (onToken_keeps_inr _ _ _ _ _ ho).2.2.2.2.trans hsrc

theorem sameUpToBlanks_withSource (u : AtomicML) :
    SameUpToBlanks u { u with source := u.source.filter (fun l => !isBlankLine l) } :=
  ⟨rfl, rfl, rfl, rfl, rfl, fun _ => ⟨rfl, rfl⟩⟩

theorem tokenBudget_le_of_same (s t : AtomicML) (h : SameUpToBlanks s t) :
    tokenBudget t ≤ tokenBudget s := by
  obtain ⟨hst, hm, -, -, hsrc, -⟩ := h
  have := List.length_filter_le (fun l => !isBlankLine l) s.source
  simp only [tokenBudget, lineWeight, hst, hm, hsrc]
  omega

theorem sameOutcome_of_withSource (f : Nat) (s t s1 : AtomicML)
    (ih : ∀ (u v : AtomicML), SameUpToBlanks u v → PendingLineOk u → PendingLineOk v →
      tokenBudget u < f → SameOutcome (parseLoop f u) (parseLoop f v))
    (hinv : PendingLineOk s) (hf : tokenBudget s < f + 1)
    (hs : pullToken s = pullLine s1)
    (ht : pullToken t
      = pullLine { s1 with source := s1.source.filter (fun l => !isBlankLine l) }) :
    SameOutcome (parseLoop (f + 1) s) (parseLoop (f + 1) t) := by
  rw [pullLine_withSource] at ht
  unfold parseLoop
  cases hp : pullLine s1 with
  | error e =>
    rw [hp] at hs ht
    simp [hs, ht, Except.map, SameOutcome]
  | ok r =>
    have hk := pullLine_keeps_source s1 r hp
    rw [hp] at hs ht
    cases r with
    | inr q =>
      obtain ⟨p, u⟩ := q
      simp only [Sum.elim_inr] at hk
      simp only [hs, ht, Except.map, Sum.map_inr, SameOutcome]
      refine ⟨trivial, ?_⟩
      rw [← hk]
      exact sameUpToBlanks_withSource u
    | inl u =>
      simp only [Sum.elim_inl] at hk
      simp only [hs, ht, Except.map, Sum.map_inl]
      obtain ⟨hi, hb⟩ := pullToken_budget s u hs hinv
      rw [← hk]
      exact ih u _ (sameUpToBlanks_withSource u) hi (fun h => hi h) (by omega)

theorem parseLoop_sameOutcome (f : Nat) :
    ∀ (s t : AtomicML), SameUpToBlanks s t → PendingLineOk s → PendingLineOk t →
      tokenBudget s < f → SameOutcome (parseLoop f s) (parseLoop f t) := by
  induction f with
  | zero => intro s t _ _ _ hf; omega
  | succ f ih =>
    intro s t hsim hinv hinvt hf
    have hle := tokenBudget_le_of_same s t hsim
    obtain ⟨hst, hmt, hn, hh, hsrc, hpend⟩ := hsim
    cases hm : s.state with
    | DEDENTING =>
      obtain ⟨hi, hd⟩ := hpend hm
      have et : t = { s with source := s.source.filter (fun l => !isBlankLine l) } := by
        cases s; cases t; simp_all
      apply sameOutcome_of_withSource f s t s ih hinv hf
      · rw [pullToken_eq]; simp [readLine, hm]
      · rw [pullToken_eq, et]; simp [readLine, hm]
    | INDENTING =>
      rw [hm] at hmt
      cases hs : s.source with
      | nil =>
        have hsrc1 : t.source = [] := by simpa [hs] using hsrc
        have ps : pullToken s = onToken Token.END "" s := by
          rw [pullToken_eq]; simp [readLine, hm, hs]
        have et : t = { s with source := s.source, indent := t.indent, data := t.data } := by
          cases s; cases t; simp_all
        have pt : pullToken t = (onToken Token.END "" s).map
            (Sum.map (fun s2 => { s2 with source := s.source, indent := t.indent, data := t.data })
              (fun r => (r.1, { r.2 with source := s.source, indent := t.indent,
                                          data := t.data }))) := by
          rw [pullToken_eq]
          simp only [readLine, hmt, hsrc1, if_true]
          rw [← onToken_withLine, ← et]
        unfold parseLoop
        cases ho : onToken Token.END "" s with
        | error e => simp [ps, pt, ho, Except.map, SameOutcome]
        | ok r =>
          cases r with
          | inl u => exact absurd rfl (onToken_inl_ne_end _ _ _ _ ho)
          | inr q =>
            obtain ⟨p, u⟩ := q
            obtain ⟨-, hmu, -, -, hsu⟩ := onToken_keeps_inr _ _ _ _ _ ho
            simp only [ps, pt, ho, Except.map, Sum.map_inr, SameOutcome]
            refine ⟨trivial, rfl, rfl, rfl, rfl, ?_, ?_⟩
            · simp [hsu, hs]
            · intro h
              rw [hmu, hm] at h
              cases h
      | cons line rest =>
        cases hb : isBlankLine line with
        | true =>
          have hr : remainderOf line = "" := (splitLine_blank line).2 hb
          have ps : pullToken s = .ok (.inl
              { s with source := rest, indent := columnOf line, data := remainderOf line }) := by
            rw [pullToken_of_nextToken s _ Token.BLANK ""
              ((nextToken_read s line rest hm hs).trans (tokenOfLine_blank _ hr))]
            rfl
          have hsim1 : SameUpToBlanks
              { s with source := rest, indent := columnOf line, data := remainderOf line } t := by
            refine ⟨hst, hmt.trans hm.symm, hn, hh, ?_, ?_⟩
            · simp [hsrc, hs, hb]
            · intro h
              rw [hm] at h
              cases h
          obtain ⟨hi1, hb1⟩ := pullToken_budget s _ ps hinv
          have hih := ih _ t hsim1 hi1 hinvt (by omega)
          have hle1 := tokenBudget_le_of_same _ t hsim1
          rw [parseLoop_continue f s _ ps,
            parseLoop_fuel_irrelevant (f + 1) f t hinvt (by omega) (by omega)]
          exact hih
        | false =>
          apply sameOutcome_of_withSource f s t
            { s with source := rest, indent := (splitLine line).1, data := (splitLine line).2 }
            ih hinv hf
          · rw [pullToken_eq]; simp [readLine, hm, hs]
          · rw [pullToken_eq]
            have : t.source = line :: rest.filter (fun l => !isBlankLine l) := by
              simp [hsrc, hs, hb]
            simp only [readLine, hmt, this, if_true, hst, hn, hh, hm]

theorem tokenBudget_lt_parseFuel (s : AtomicML) : tokenBudget s < parseFuel s := by
  unfold tokenBudget lineWeight parseFuel
  split <;> omega

/-- The fuel `parseNode` starts with is enough: any larger amount gives the
same outcome. -/
theorem parseNode_fuel_adequate (s : AtomicML) (g : Nat) (hs : PendingLineOk s)
    (hg : parseFuel s ≤ g) : parseLoop g s = parseNode s := by
  have h := tokenBudget_lt_parseFuel s
  exact parseLoop_fuel_irrelevant g (parseFuel s) s hs (by omega) h

theorem parseNode_sameOutcome (s t : AtomicML) (hsim : SameUpToBlanks s t)
    (hs : PendingLineOk s) (ht : PendingLineOk t) :
    SameOutcome (parseNode s) (parseNode t) := by
  have h1 := tokenBudget_lt_parseFuel s
  have h2 := tokenBudget_lt_parseFuel t
  have h3 := tokenBudget_le_of_same s t hsim
  unfold parseNode
  rw [parseLoop_fuel_irrelevant (parseFuel t) (parseFuel s) t ht h2 (by omega)]
  exact parseLoop_sameOutcome (parseFuel s) s t hsim hs ht h1

theorem parseNodes_sameTrees (n : Nat) :
    ∀ (s t : AtomicML), SameUpToBlanks s t → PendingLineOk s → PendingLineOk t →
      (parseNodes n s).map Prod.fst = (parseNodes n t).map Prod.fst := by
  induction n with
  | zero => intro s t _ _ _; rfl
  | succ n ih =>
    intro s t hsim hs ht
    have ho := parseNode_sameOutcome s t hsim hs ht
    unfold parseNodes
    cases hps : parseNode s with
    | error e =>
      cases hpt : parseNode t with
      | error e1 =>
        rw [hps, hpt] at ho
        simp only [SameOutcome] at ho
        subst ho
        rfl
      | ok v => rw [hps, hpt] at ho; simp [SameOutcome] at ho
    | ok v =>
      cases hpt : parseNode t with
      | error e1 => rw [hps, hpt] at ho; simp [SameOutcome] at ho
      | ok w =>
        obtain ⟨p, s1⟩ := v
        obtain ⟨q, t1⟩ := w
        rw [hps, hpt] at ho
        simp only [SameOutcome] at ho
        obtain ⟨rfl, hsim1⟩ := ho
        have hs1 := parseLoop_keeps_pendingLineOk _ s s1 p hs hps
        have ht1 := parseLoop_keeps_pendingLineOk _ t t1 p ht hpt
        have hrec := ih s1 t1 hsim1 hs1 ht1
        have hheap : t1.heap = s1.heap := hsim1.2.2.2.1
        simp only [bind, Except.bind, hheap]
        cases p with
        | none =>
          cases h1 : parseNodes n s1 <;> cases h2 : parseNodes n t1 <;>
            simp_all [Except.map]
        | some a =>
          cases htr : treeAt s1.heap a with
          | none => simp [htr, Except.map]
          | some tr =>
            simp only [htr]
            cases h1 : parseNodes n s1 <;> cases h2 : parseNodes n t1 <;>
              simp_all [Except.map]

/-- C3: blank-line transparency.  For every list of input lines and every
number `n` of successive `parseNode` calls on a fresh session, the trees
returned (and any failure) are the same as for the list with every line that is
empty or consists only of spaces and tabs deleted. -/
theorem blank_lines_are_transparent (lines : List String) (indent0 : Int) (n : Nat) :
    (parseNodes n (AtomicML.new lines indent0)).map Prod.fst
      = (parseNodes n (AtomicML.new (lines.filter fun l => !isBlankLine l) indent0)).map
          Prod.fst :=
  parseNodes_sameTrees n _ _ ⟨rfl, rfl, rfl, rfl, rfl, fun h => by cases h⟩
    (fun h => by cases h) (fun h => by cases h)

/-- C4: soft dedent.  In either mode, when the indent stack ends in `P, L` and
the line to be tokenized (the next line of the source in mode `INDENTING`, the
stored line in mode `DEDENTING`) is non-blank at a column `C` with `P < C < L`,
`nextToken` succeeds with `SAMEDENT` and the line's remainder; afterwards the
stack has the same length with `C` on top and every other entry unchanged, and
the mode is `INDENTING`. -/
theorem soft_dedent_gives_samedent (s : AtomicML) (pre : List Int) (P L C : Int) (r : String)
    (hs : s.stack = pre ++ [P, L]) (hPC : P < C) (hCL : C < L) (hr : r ≠ "")
    (hline : (s.state = State.INDENTING ∧
                ∃ line rest, s.source = line :: rest ∧ splitLine line = (C, r)) ∨
             (s.state = State.DEDENTING ∧ s.indent = C ∧ s.data = r)) :
    ∃ s1, nextToken s = .ok (Token.SAMEDENT, r, s1) ∧ s1.stack = pre ++ [P, C] ∧
      s1.stack.length = s.stack.length ∧ s1.state = State.INDENTING := by
  rcases hline with ⟨hm, line, rest, hsrc, hl⟩ | ⟨hm, hi, hd⟩
  · exact ⟨_, (nextToken_line s line rest C r hm hsrc hl).trans
      (tokenOfLine_soft _ pre P L hr hs hPC hCL), rfl, by simp [hs], rfl⟩
  · subst hi hd
    exact ⟨_, (nextToken_pending s hm).trans (tokenOfLine_soft _ pre P L hr hs hPC hCL),
      rfl, by simp [hs], rfl⟩

/-- Witness for C4: with stack `-1, 2` the line `" two"` (column 1) is a soft dedent. -/
theorem soft_dedent_gives_samedent_witness :
    ∃ s1, nextToken ⟨[-1, 2], State.INDENTING, 2, "one", [" two"], [0], []⟩
        = .ok (Token.SAMEDENT, "two", s1) ∧ s1.stack = [] ++ [-1, 1] ∧
      s1.stack.length = (⟨[-1, 2], State.INDENTING, 2, "one", [" two"], [0], []⟩ :
        AtomicML).stack.length ∧ s1.state = State.INDENTING :=
  soft_dedent_gives_samedent ⟨[-1, 2], State.INDENTING, 2, "one", [" two"], [0], []⟩
    [] (-1) 2 1 "two" rfl (by decide) (by decide) (by decide)
    (Or.inl ⟨rfl, " two", [], rfl, by decide⟩)

/-- C7 as stated fails: the single line `"one"` tokenizes to `INDENT("one")`,
`END`, so its first token is not `SAMEDENT("one")`. -/
theorem single_line_first_token_not_samedent :
    ¬ ∃ s1, nextTokens 2 (AtomicML.new ["one"] 0)
        = .ok ([(Token.SAMEDENT, "one"), (Token.END, "")], s1) := by
  have h : nextTokens 2 (AtomicML.new ["one"] 0)
      = .ok ([(Token.INDENT, "one"), (Token.END, "")],
          ⟨[-1, 0], State.INDENTING, 0, "one", [], [], []⟩) := rfl
  rintro ⟨s1, h1⟩
  rw [h] at h1
  simp at h1

/-- C7 amended: for texts `a`, `b` that are non-empty and do not start with a
space or tab, a fresh session on the single line `a` yields exactly
`INDENT(a)`, `END`, and on the two lines `a`, `b` exactly `INDENT(a)`,
`SAMEDENT(b)`, `END`. -/
theorem top_level_lines_tokens (a b : String) (indent0 : Int)
    (ha : startsWithText a) (hb : startsWithText b) :
    (∃ s1, nextTokens 2 (AtomicML.new [a] indent0)
        = .ok ([(Token.INDENT, a), (Token.END, "")], s1)) ∧
    (∃ s1, nextTokens 3 (AtomicML.new [a, b] indent0)
        = .ok ([(Token.INDENT, a), (Token.SAMEDENT, b), (Token.END, "")], s1)) := by
  have ea := splitLine_of_startsWithText a ha
  have eb := splitLine_of_startsWithText b hb
  have na := ne_empty_of_startsWithText a ha
  have nb := ne_empty_of_startsWithText b hb
  have t1 : ∀ rest, nextToken (AtomicML.new (a :: rest) indent0)
      = .ok (Token.INDENT, a, ⟨[-1, 0], State.INDENTING, 0, a, rest, [], []⟩) := by
    intro rest
    rw [nextToken_line _ a rest 0 a rfl rfl ea]
    exact tokenOfLine_indent _ [] (-1) na rfl (show (-1 : Int) < 0 by decide)
  have t2 : nextToken ⟨[-1, 0], State.INDENTING, 0, a, [b], [], []⟩
      = .ok (Token.SAMEDENT, b, ⟨[-1, 0], State.INDENTING, 0, b, [], [], []⟩) := by
    rw [nextToken_line _ b [] 0 b rfl rfl eb]
    exact tokenOfLine_same _ [-1] nb rfl
  constructor
  · exact ⟨_, nextTokens_succ 1 _ _ _ _ _ _ (t1 []) (nextTokens_end 1 _ rfl rfl)⟩
  · exact ⟨_, nextTokens_succ 2 _ _ _ _ _ _ (t1 [b])
      (nextTokens_succ 1 _ _ _ _ _ _ t2 (nextTokens_end 1 _ rfl rfl))⟩

/-- Witness for the amended C7 on the lines `"one"` and `"two"`. -/
theorem top_level_lines_tokens_witness :
    (∃ s1, nextTokens 2 (AtomicML.new ["one"] 0)
        = .ok ([(Token.INDENT, "one"), (Token.END, "")], s1)) ∧
    (∃ s1, nextTokens 3 (AtomicML.new ["one", "two"] 0)
        = .ok ([(Token.INDENT, "one"), (Token.SAMEDENT, "two"), (Token.END, "")], s1)) :=
  top_level_lines_tokens "one" "two" 0 (by decide) (by decide)

/-- C8: for a column `c > 0` and four non-blank lines at columns `0, c, c, 0`
with remainders `a, b1, b2, d`, a fresh session yields exactly `INDENT(a)`,
`INDENT(b1)`, `SAMEDENT(b2)`, `DEDENT`, `SAMEDENT(d)`, `END`. -/
theorem nested_block_tokens (c : Int) (la l1 l2 ld a b1 b2 d : String) (indent0 : Int)
    (hc : 0 < c) (ha : splitLine la = (0, a)) (h1 : splitLine l1 = (c, b1))
    (h2 : splitLine l2 = (c, b2)) (hd : splitLine ld = (0, d))
    (na : a ≠ "") (n1 : b1 ≠ "") (n2 : b2 ≠ "") (nd : d ≠ "") :
    ∃ s1, nextTokens 6 (AtomicML.new [la, l1, l2, ld] indent0)
      = .ok ([(Token.INDENT, a), (Token.INDENT, b1), (Token.SAMEDENT, b2), (Token.DEDENT, ""),
              (Token.SAMEDENT, d), (Token.END, "")], s1) := by
  have t1 : nextToken (AtomicML.new [la, l1, l2, ld] indent0)
      = .ok (Token.INDENT, a, ⟨[-1, 0], State.INDENTING, 0, a, [l1, l2, ld], [], []⟩) := by
    rw [nextToken_line _ la _ 0 a rfl rfl ha]
    exact tokenOfLine_indent _ [] (-1) na rfl (show (-1 : Int) < 0 by decide)
  have t2 : nextToken ⟨[-1, 0], State.INDENTING, 0, a, [l1, l2, ld], [], []⟩
      = .ok (Token.INDENT, b1, ⟨[-1, 0, c], State.INDENTING, c, b1, [l2, ld], [], []⟩) := by
    rw [nextToken_line _ l1 _ c b1 rfl rfl h1]
    exact tokenOfLine_indent _ [-1] 0 n1 rfl hc
  have t3 : nextToken ⟨[-1, 0, c], State.INDENTING, c, b1, [l2, ld], [], []⟩
      = .ok (Token.SAMEDENT, b2, ⟨[-1, 0, c], State.INDENTING, c, b2, [ld], [], []⟩) := by
    rw [nextToken_line _ l2 _ c b2 rfl rfl h2]
    exact tokenOfLine_same _ [-1, 0] n2 rfl
  have t4 : nextToken ⟨[-1, 0, c], State.INDENTING, c, b2, [ld], [], []⟩
      = .ok (Token.DEDENT, "", ⟨[-1, 0], State.DEDENTING, 0, d, [], [], []⟩) := by
    rw [nextToken_line _ ld _ 0 d rfl rfl hd]
    exact tokenOfLine_dedent _ [-1] 0 c nd rfl (le_refl _) hc
  have t5 : nextToken ⟨[-1, 0], State.DEDENTING, 0, d, [], [], []⟩
      = .ok (Token.SAMEDENT, d, ⟨[-1, 0], State.INDENTING, 0, d, [], [], []⟩) := by
    rw [nextToken_pending _ rfl]
    exact tokenOfLine_same _ [-1] nd rfl
  exact ⟨_, nextTokens_succ 5 _ _ _ _ _ _ t1 (nextTokens_succ 4 _ _ _ _ _ _ t2
    (nextTokens_succ 3 _ _ _ _ _ _ t3 (nextTokens_succ 2 _ _ _ _ _ _ t4
    (nextTokens_succ 1 _ _ _ _ _ _ t5 (nextTokens_end 1 _ rfl rfl)))))⟩

/-- Witness for C8: the lines `"one"`, `"  two"`, `"  three"`, `"four"`. -/
theorem nested_block_tokens_witness :
    ∃ s1, nextTokens 6 (AtomicML.new ["one", "  two", "  three", "four"] 0)
      = .ok ([(Token.INDENT, "one"), (Token.INDENT, "two"), (Token.SAMEDENT, "three"),
              (Token.DEDENT, ""), (Token.SAMEDENT, "four"), (Token.END, "")], s1) :=
  nested_block_tokens 2 "one" "  two" "  three" "four" "one" "two" "three" "four" 0
    (by decide) (by decide) (by decide) (by decide) (by decide)
    (by decide) (by decide) (by decide) (by decide)

/-- C9: on a fresh session whose source supplies no line, the first `nextToken`
call returns `END` and the first `parseNode` call returns `NULL`. -/
theorem empty_input_ends (indent0 : Int) :
    nextToken (AtomicML.new [] indent0) = .ok (Token.END, "", AtomicML.new [] indent0) ∧
    parseNode (AtomicML.new [] indent0) = .ok (none, AtomicML.new [] indent0) :=
  ⟨rfl, rfl⟩

/-- C10: once a `nextToken` call has returned `END`, its payload is empty, the
session (indent stack and mode included) is unchanged, and every later call
returns `END` with an empty payload and leaves the session unchanged. -/
theorem end_token_is_permanent (s s1 : AtomicML) (d : String)
    (h : nextToken s = .ok (Token.END, d, s1)) :
    d = "" ∧ s1 = s ∧ ∀ n, nextTokens n s1 = .ok (List.replicate n (Token.END, ""), s1) := by
  obtain ⟨hm, hsrc, hd, hs⟩ := nextToken_end_inv s s1 d h
  subst hs
  exact ⟨hd, rfl, fun n => nextTokens_end n _ hm hsrc⟩

/-- Witness for C10: the session left by tokenizing the single line `"one"`. -/
theorem end_token_is_permanent_witness :
    "" = "" ∧
    (⟨[-1, 0], State.INDENTING, 0, "one", [], [], []⟩ : AtomicML)
      = ⟨[-1, 0], State.INDENTING, 0, "one", [], [], []⟩ ∧
    ∀ n, nextTokens n ⟨[-1, 0], State.INDENTING, 0, "one", [], [], []⟩
      = .ok (List.replicate n (Token.END, ""), ⟨[-1, 0], State.INDENTING, 0, "one", [], [], []⟩) :=
  end_token_is_permanent ⟨[-1, 0], State.INDENTING, 0, "one", [], [], []⟩ _ "" rfl

theorem startsWithText_of_column_zero (line : String) (hfit : columnFits line)
    (hc : columnOf line = 0) (hb : isBlankLine line = false) : startsWithText line :=
  startsWithText_of_trueColumn_zero line (by rw [← columnOf_of_fits line hfit]; exact hc) hb

theorem remainder_ne_of_not_blank (line : String) (hb : isBlankLine line = false) :
    remainderOf line ≠ "" := by
  intro e
  have := (splitLine_blank line).1 e
  rw [hb] at this
  cases this

/-- C5, amended: for a non-empty list of non-blank lines whose columns are below
`2^31` and strictly decreasing, `lines.length + 1` successive `parseNode` calls
on a fresh session return one childless tree per line, in input order and
labelled with the line's remainder, and then `NULL`. -/
theorem decreasing_columns_give_single_nodes (lines : List String) (indent0 : Int)
    (hne : lines ≠ []) (hnb : ∀ l ∈ lines, isBlankLine l = false)
    (hfit : ∀ l ∈ lines, columnFits l)
    (hdec : List.Chain' (fun a b => b < a) (lines.map columnOf)) :
    ∃ s1, parseNodes (lines.length + 1) (AtomicML.new lines indent0)
      = .ok ((lines.map fun l => some (leaf (remainderOf l))) ++ [none], s1) := by
  cases lines with
  | nil => exact absurd rfl hne
  | cons line rest =>
    apply parseNodes_fresh_flat line rest indent0
      (fun l hl => remainder_ne_of_not_blank l (hnb l hl))
      (fun l hl => columnOf_nonneg l (hfit l hl))
    rw [List.map_cons] at hdec
    exact List.Chain.imp (fun a b h => le_of_lt h) hdec

/-- Witness for C5: the lines `"  one"`, `" one"`, `"zero"` at columns 2, 1, 0. -/
theorem decreasing_columns_give_single_nodes_witness :
    ∃ s1, parseNodes (["  one", " one", "zero"].length + 1)
        (AtomicML.new ["  one", " one", "zero"] 0)
      = .ok ((["  one", " one", "zero"].map fun l => some (leaf (remainderOf l))) ++ [none],
          s1) :=
  decreasing_columns_give_single_nodes ["  one", " one", "zero"] 0 (by decide) (by decide)
    (by decide) (List.Chain'.cons (by decide) (List.Chain'.cons (by decide) (List.chain'_singleton _)))

/-- C6: for a non-empty list of `n` non-blank lines that all start at column 0
(the column the line really has, `columnFits`, not one reached by wrapping
around), `n + 1` successive `parseNode` calls on a fresh session return `n`
childless trees, the i-th labelled with the i-th line, and then `NULL`. -/
theorem top_level_lines_give_single_nodes (lines : List String) (indent0 : Int)
    (hne : lines ≠ []) (hfit : ∀ l ∈ lines, columnFits l)
    (h0 : ∀ l ∈ lines, columnOf l = 0 ∧ isBlankLine l = false) :
    ∃ s1, parseNodes (lines.length + 1) (AtomicML.new lines indent0)
      = .ok ((lines.map fun l => some (leaf l)) ++ [none], s1) := by
  have hsplit : ∀ l ∈ lines, splitLine l = (0, l) := fun l hl =>
    splitLine_of_startsWithText l
      (startsWithText_of_column_zero l (hfit l hl) (h0 l hl).1 (h0 l hl).2)
  have hmap : (lines.map fun l => some (leaf (remainderOf l)))
      = lines.map fun l => some (leaf l) := by
    apply List.map_congr_left
    intro l hl
    simp [remainderOf, hsplit l hl]
  cases lines with
  | nil => exact absurd rfl hne
  | cons line rest =>
    rw [← hmap]
    apply parseNodes_fresh_flat line rest indent0
      (fun l hl => remainder_ne_of_not_blank l (h0 l hl).2)
      (fun l hl => by rw [(h0 l hl).1])
    have hz : ∀ (ls : List String), (∀ l ∈ ls, columnOf l = 0) →
        List.Chain (fun a b => b ≤ a) (0 : Int) (ls.map columnOf) := by
      intro ls
      induction ls with
      | nil => intro _; exact List.Chain.nil
      | cons x xs ih =>
        intro hx
        rw [List.map_cons, hx x (List.mem_cons_self _ _)]
        exact List.Chain.cons (le_refl _) (ih fun l hl => hx l (List.mem_cons_of_mem _ hl))
    rw [(h0 line (List.mem_cons_self _ _)).1]
    exact hz rest fun l hl => (h0 l (List.mem_cons_of_mem _ hl)).1

/-- Witness for C6: the lines `"one"`, `"two"`. -/
theorem top_level_lines_give_single_nodes_witness :
    ∃ s1, parseNodes (["one", "two"].length + 1) (AtomicML.new ["one", "two"] 0)
      = .ok ((["one", "two"].map fun l => some (leaf l)) ++ [none], s1) :=
  top_level_lines_give_single_nodes ["one", "two"] 0 (by decide) (by decide) (by decide)

/-- C1 at the lines `"one"`, `"  two"`, `"  three"`, `"four"`: the first
`parseNode` call returns `"one"` whose only child is `"two"`, with `"three"`
attached below `"two"`; the second call returns `"four"`, the third `NULL`.
The sibling `"three"` is therefore not a child of `"one"`. -/
theorem second_sibling_is_nested_under_first :
    (∃ s1, parseNodes 3 (AtomicML.new ["one", "  two", "  three", "four"] 0)
      = .ok ([some (NodeTree.node "one" [NodeTree.node "two" [leaf "three"]]),
              some (leaf "four"), none], s1)) ∧
    NodeTree.node "one" [NodeTree.node "two" [leaf "three"]]
      ≠ NodeTree.node "one" [leaf "two", leaf "three"] := by
  have e1 : parseNode (AtomicML.new ["one", "  two", "  three", "four"] 0)
      = .ok (some 0, ⟨[-1, 0], State.INDENTING, 0, "four", [], [3],
          [⟨"one", some 1, some 1, none⟩, ⟨"two", some 2, some 2, none⟩,
           ⟨"three", none, none, none⟩, ⟨"four", none, none, none⟩]⟩) := rfl
  have t1 : treeAt [⟨"one", some 1, some 1, none⟩, ⟨"two", some 2, some 2, none⟩,
      ⟨"three", none, none, none⟩, ⟨"four", none, none, none⟩] 0
      = some (NodeTree.node "one" [NodeTree.node "two" [leaf "three"]]) := rfl
  have e2 : parseNode ⟨[-1, 0], State.INDENTING, 0, "four", [], [3],
      [⟨"one", some 1, some 1, none⟩, ⟨"two", some 2, some 2, none⟩,
       ⟨"three", none, none, none⟩, ⟨"four", none, none, none⟩]⟩
      = .ok (some 3, ⟨[-1, 0], State.INDENTING, 0, "four", [], [],
          [⟨"one", some 1, some 1, none⟩, ⟨"two", some 2, some 2, none⟩,
           ⟨"three", none, none, none⟩, ⟨"four", none, none, none⟩]⟩) := rfl
  have t2 : treeAt [⟨"one", some 1, some 1, none⟩, ⟨"two", some 2, some 2, none⟩,
      ⟨"three", none, none, none⟩, ⟨"four", none, none, none⟩] 3 = some (leaf "four") := rfl
  have e3 := parseNode_at_end_empty ⟨[-1, 0], State.INDENTING, 0, "four", [], [],
      [⟨"one", some 1, some 1, none⟩, ⟨"two", some 2, some 2, none⟩,
       ⟨"three", none, none, none⟩, ⟨"four", none, none, none⟩]⟩ rfl rfl rfl
  refine ⟨⟨_, parseNodes_some 2 _ _ _ 0 _ _ e1 t1
    (parseNodes_some 1 _ _ _ 3 _ _ e2 t2 (parseNodes_none 0 _ _ _ _ e3 rfl))⟩, ?_⟩
  intro h
  simp [leaf] at h

/-- C2 at the lines `"one"`, `"  two"`: the `parseNode` call that pulls `END`
returns the root `"one"` but leaves it on the ancestor stack, so the next call
returns the same node again; only the third call returns `NULL`. -/
theorem nested_last_block_is_returned_twice :
    (∃ s1 s2, parseNode (AtomicML.new ["one", "  two"] 0) = .ok (some 0, s1) ∧
      s1.nodes = [0] ∧ parseNode s1 = .ok (some 0, s2) ∧ s2.nodes = []) ∧
    (∃ s3, parseNodes 3 (AtomicML.new ["one", "  two"] 0)
      = .ok ([some (NodeTree.node "one" [leaf "two"]),
              some (NodeTree.node "one" [leaf "two"]), none], s3)) := by
  have e1 : parseNode (AtomicML.new ["one", "  two"] 0)
      = .ok (some 0, ⟨[-1, 0, 2], State.INDENTING, 2, "two", [], [0],
          [⟨"one", some 1, some 1, none⟩, ⟨"two", none, none, none⟩]⟩) := rfl
  have t1 : treeAt [⟨"one", some 1, some 1, none⟩, ⟨"two", none, none, none⟩] 0
      = some (NodeTree.node "one" [leaf "two"]) := rfl
  have e2 := parseNode_at_end_single ⟨[-1, 0, 2], State.INDENTING, 2, "two", [], [0],
      [⟨"one", some 1, some 1, none⟩, ⟨"two", none, none, none⟩]⟩ 0 rfl rfl rfl
  have e3 := parseNode_at_end_empty ⟨[-1, 0, 2], State.INDENTING, 2, "two", [], [],
      [⟨"one", some 1, some 1, none⟩, ⟨"two", none, none, none⟩]⟩ rfl rfl rfl
  exact ⟨⟨_, _, e1, rfl, e2, rfl⟩, ⟨_, parseNodes_some 2 _ _ _ 0 _ _ e1 t1
    (parseNodes_some 1 _ _ _ 0 _ _ e2 t1 (parseNodes_none 0 _ _ _ _ e3 rfl))⟩⟩


/-! ### The line splitter against its reference -/

theorem splitLineLoop_blank_run (w rest : List Char) (i : Int)
    (hw : ∀ c ∈ w, c = ' ' ∨ c = '\t') (h0 : 0 ≤ i)
    (hfit : w.foldl advanceColumn i < 2147483648) :
    splitLineLoop (w ++ rest) i = splitLineLoop rest (w.foldl advanceColumn i) := by
  induction w generalizing i with
  | nil => rfl
  | cons c w ih =>
    have hc := hw c (List.mem_cons_self _ _)
    have hw1 : ∀ d ∈ w, d = ' ' ∨ d = '\t' := fun d hd => hw d (List.mem_cons_of_mem _ hd)
    rw [List.foldl_cons] at hfit
    rw [List.cons_append, List.foldl_cons]
    rcases hc with rfl | rfl
    · have hge := foldl_advance_ge w (advanceColumn i ' ')
      have hs := advanceColumn_space i
      rw [splitLineLoop_space _ i h0 (by omega), ih _ hw1 (by omega) hfit]
    · have hge := foldl_advance_ge w (advanceColumn i '\t')
      have hs := advanceColumn_tab i
      rw [splitLineLoop_tab _ i h0 (by omega), ih _ hw1 (by omega) hfit]

theorem splitLineLoop_noLeadingBlank (r : String) (i : Int) (hr : noLeadingBlank r) :
    splitLineLoop r.data i = (i, r) := by
  cases r with
  | mk d =>
    cases d with
    | nil => rfl
    | cons c cs =>
      simp only [noLeadingBlank] at hr
      simp [splitLineLoop, hr.1, hr.2]

theorem remainderOf_eq_reference (line : String) :
    remainderOf line = (referenceSplit line).2 :=
  splitLineLoop_remainder line.data 0

/-! ### A line of `2^28` tabs -/

theorem splitLineLoop_tabs (k : Nat) :
    ∀ (rest : List Char) (i : Int), 0 ≤ i → i % 8 = 0 → i + 8 * k < 2147483648 →
      splitLineLoop (List.replicate k '\t' ++ rest) i = splitLineLoop rest (i + 8 * k) := by
  induction k with
  | zero =>
    intro rest i _ _ _
    simp
  | succ k ih =>
    intro rest i h0 h8 hfit
    rw [List.replicate_succ, List.cons_append,
      splitLineLoop_tab _ i h0 (by omega), advanceColumn_tab,
      ih rest _ (by omega) (by omega) (by omega)]
    congr 1
    push_cast
    omega

theorem foldl_advance_tabs (k : Nat) :
    ∀ i : Int, i % 8 = 0 → (List.replicate k '\t').foldl advanceColumn i = i + 8 * k := by
  induction k with
  | zero =>
    intro i _
    simp
  | succ k ih =>
    intro i h8
    rw [List.replicate_succ, List.foldl_cons, advanceColumn_tab, ih _ (by omega)]
    push_cast
    omega

theorem takeWhile_tabs (k : Nat) (c : Char) (rest : List Char) (hc : isBlankChar c = false) :
    (List.replicate k '\t' ++ c :: rest).takeWhile isBlankChar = List.replicate k '\t' := by
  induction k with
  | zero => simp [hc]
  | succ k ih =>
    rw [List.replicate_succ, List.cons_append, List.takeWhile_cons]
    simp [isBlankChar, ih]

theorem dropWhile_tabs (k : Nat) (c : Char) (rest : List Char) (hc : isBlankChar c = false) :
    (List.replicate k '\t' ++ c :: rest).dropWhile isBlankChar = c :: rest := by
  induction k with
  | zero => simp [hc]
  | succ k ih =>
    rw [List.replicate_succ, List.cons_append, List.dropWhile_cons]
    simp [isBlankChar, ih]

theorem splitLine_tabs_wrap (r : String) (hr : startsWithText r) :
    splitLine (tabsLine 268435456 r) = (-2147483648, r) := by
  cases r with
  | mk d =>
    cases d with
    | nil => simp [startsWithText] at hr
    | cons c rest =>
      simp only [startsWithText] at hr
      have e : (268435456 : Nat) = 268435455 + 1 := rfl
      unfold splitLine tabsLine
      show splitLineLoop (List.replicate 268435456 '\t' ++ c :: rest) 0 = _
      rw [e, List.replicate_succ', List.append_assoc, List.singleton_append,
        splitLineLoop_tabs 268435455 _ 0 (le_refl _) (by decide) (by decide)]
      rw [splitLineLoop, if_neg (by decide), if_pos rfl, splitLineLoop, if_neg hr.1,
        if_neg hr.2]
      rfl

theorem referenceSplit_tabs (k : Nat) (r : String) (hr : startsWithText r) :
    referenceSplit (tabsLine k r) = (8 * (k : Int), r) := by
  cases r with
  | mk d =>
    cases d with
    | nil => simp [startsWithText] at hr
    | cons c rest =>
      simp only [startsWithText] at hr
      have hc : isBlankChar c = false := by simp [isBlankChar, hr.1, hr.2]
      have e1 := takeWhile_tabs k c rest hc
      have e2 := dropWhile_tabs k c rest hc
      have e3 := foldl_advance_tabs k 0 (by decide)
      unfold referenceSplit tabsLine
      simp only [e1, e2, e3]
      simp

theorem trueColumn_tabs (k : Nat) (r : String) (hr : startsWithText r) :
    trueColumn (tabsLine k r) = 8 * (k : Int) := by
  unfold trueColumn
  rw [referenceSplit_tabs k r hr]

theorem isBlankLine_tabsLine (k : Nat) (r : String) (hr : startsWithText r) :
    isBlankLine (tabsLine k r) = false := by
  cases hb : isBlankLine (tabsLine k r) with
  | false => rfl
  | true =>
    have h1 := (splitLine_blank (tabsLine k r)).2 hb
    have h2 : remainderOf (tabsLine k r) = r := by
      rw [remainderOf_eq_reference, referenceSplit_tabs k r hr]
    have h3 : r = "" := by
      rw [← h2]
      exact h1
    subst h3
    simp [startsWithText] at hr

theorem foldl_advance_spaces (k : Nat) (i : Int) :
    (List.replicate k ' ').foldl advanceColumn i = i + k := by
  induction k generalizing i with
  | zero => simp
  | succ k ih =>
    rw [List.replicate_succ, List.foldl_cons, ih]
    simp [advanceColumn]
    omega

theorem takeWhile_blank_run (w : List Char) (r : String)
    (hw : ∀ c ∈ w, c = ' ' ∨ c = '\t') (hr : noLeadingBlank r) :
    (w ++ r.data).takeWhile isBlankChar = w := by
  induction w with
  | nil =>
    cases r with
    | mk d =>
      cases d with
      | nil => rfl
      | cons c cs =>
        simp only [noLeadingBlank] at hr
        simp [isBlankChar, hr.1, hr.2]
  | cons c w ih =>
    have hc := hw c (List.mem_cons_self _ _)
    have hb : isBlankChar c = true := by
      rcases hc with rfl | rfl <;> rfl
    rw [List.cons_append, List.takeWhile_cons, hb, if_pos rfl,
      ih (fun d hd => hw d (List.mem_cons_of_mem _ hd))]

theorem trueColumn_blank_run (w : List Char) (r : String)
    (hw : ∀ c ∈ w, c = ' ' ∨ c = '\t') (hr : noLeadingBlank r) :
    trueColumn (String.mk (w ++ r.data)) = w.foldl advanceColumn 0 := by
  unfold trueColumn referenceSplit
  show ((w ++ r.data).takeWhile isBlankChar).foldl advanceColumn 0 = _
  rw [takeWhile_blank_run w r hw hr]

theorem columnOf_blank_run (w : List Char) (r : String)
    (hw : ∀ c ∈ w, c = ' ' ∨ c = '\t') (hr : noLeadingBlank r)
    (hfit : columnFits (String.mk (w ++ r.data))) :
    columnOf (String.mk (w ++ r.data)) = w.foldl advanceColumn 0 := by
  rw [columnOf_of_fits _ hfit, trueColumn_blank_run w r hw hr]

theorem columnFits_blank_run (w : List Char) (r : String)
    (hw : ∀ c ∈ w, c = ' ' ∨ c = '\t') (hr : noLeadingBlank r)
    (h : w.foldl advanceColumn 0 < 2147483648) : columnFits (String.mk (w ++ r.data)) := by
  unfold columnFits
  rw [trueColumn_blank_run w r hw hr]
  exact h

/-- C13, amended: tab expansion.  For a remainder `r` that does not start with a
space or tab: a tab before `r` gives column 8, a tab and a space column 9,
`k ≤ 7` spaces and a tab column 8, and after any run of spaces and tabs that
ends in a tab and whose column is below `2^31`, the column is a positive
multiple of 8. -/
theorem tab_expansion (r : String) (hr : noLeadingBlank r) :
    columnOf (String.mk ('\t' :: r.data)) = 8 ∧
    columnOf (String.mk ('\t' :: ' ' :: r.data)) = 9 ∧
    (∀ k : Nat, k ≤ 7 →
      columnOf (String.mk (List.replicate k ' ' ++ '\t' :: r.data)) = 8) ∧
    (∀ w : List Char, (∀ c ∈ w, c = ' ' ∨ c = '\t') →
      columnFits (String.mk (w ++ '\t' :: r.data)) →
      0 < columnOf (String.mk (w ++ '\t' :: r.data)) ∧
      columnOf (String.mk (w ++ '\t' :: r.data)) % 8 = 0) := by
  have hw1 : ∀ w : List Char, (∀ c ∈ w, c = ' ' ∨ c = '\t') →
      ∀ c ∈ w ++ ['\t'], c = ' ' ∨ c = '\t' := by
    intro w hw c hc
    rcases List.mem_append.1 hc with h | h
    · exact hw c h
    · right
      simpa using h
  have hfold : ∀ w : List Char, (w ++ ['\t']).foldl advanceColumn 0
      = w.foldl advanceColumn 0 + 8 - w.foldl advanceColumn 0 % 8 := by
    intro w
    rw [List.foldl_append]
    simp [advanceColumn]
  have key : ∀ w : List Char, (∀ c ∈ w, c = ' ' ∨ c = '\t') →
      columnFits (String.mk (w ++ '\t' :: r.data)) →
      columnOf (String.mk (w ++ '\t' :: r.data))
        = w.foldl advanceColumn 0 + 8 - w.foldl advanceColumn 0 % 8 := by
    intro w hw hfit
    have e : w ++ '\t' :: r.data = (w ++ ['\t']) ++ r.data := by simp
    rw [e] at hfit ⊢
    rw [columnOf_blank_run (w ++ ['\t']) r (hw1 w hw) hr hfit, hfold]
  have small : ∀ w : List Char, (∀ c ∈ w, c = ' ' ∨ c = '\t') →
      w.foldl advanceColumn 0 < 2147483640 →
      columnFits (String.mk (w ++ '\t' :: r.data)) := by
    intro w hw hlt
    have e : w ++ '\t' :: r.data = (w ++ ['\t']) ++ r.data := by simp
    rw [e]
    apply columnFits_blank_run (w ++ ['\t']) r (hw1 w hw) hr
    rw [hfold]
    have := foldl_advance_nonneg w 0 (le_refl _)
    omega
  refine ⟨?_, ?_, ?_, ?_⟩
  · have := key [] (by simp) (small [] (by simp) (by simp))
    simpa using this
  · have hfit : columnFits (String.mk (['\t', ' '] ++ r.data)) :=
      columnFits_blank_run ['\t', ' '] r (by simp) hr (by simp [advanceColumn])
    have h := columnOf_blank_run ['\t', ' '] r (by simp) hr hfit
    simpa [advanceColumn] using h
  · intro k hk
    have hsp : ∀ c ∈ List.replicate k ' ', c = ' ' ∨ c = '\t' := by
      intro c hc
      left
      exact List.eq_of_mem_replicate hc
    rw [key _ hsp (small _ hsp (by rw [foldl_advance_spaces]; omega)), foldl_advance_spaces]
    omega
  · intro w hw hfit
    have hn := foldl_advance_nonneg w 0 (le_refl _)
    rw [key w hw hfit]
    constructor <;> omega

/-- Witness for C13: the remainder `"x"`. -/
theorem tab_expansion_witness :
    columnOf (String.mk ('\t' :: "x".data)) = 8 ∧
    columnOf (String.mk ('\t' :: ' ' :: "x".data)) = 9 ∧
    (∀ k : Nat, k ≤ 7 →
      columnOf (String.mk (List.replicate k ' ' ++ '\t' :: "x".data)) = 8) ∧
    (∀ w : List Char, (∀ c ∈ w, c = ' ' ∨ c = '\t') →
      columnFits (String.mk (w ++ '\t' :: "x".data)) →
      0 < columnOf (String.mk (w ++ '\t' :: "x".data)) ∧
      columnOf (String.mk (w ++ '\t' :: "x".data)) % 8 = 0) :=
  tab_expansion "x" (by decide)


theorem columnOf_of_split (line : String) (c : Int) (r : String)
    (h : splitLine line = (c, r)) : columnOf line = c := by
  unfold columnOf
  rw [h]

theorem remainderOf_of_split (line : String) (c : Int) (r : String)
    (h : splitLine line = (c, r)) : remainderOf line = r := by
  unfold remainderOf
  rw [h]

theorem tabsLine_succ (k : Nat) (r : String) :
    tabsLine (k + 1) r = String.mk (List.replicate k '\t' ++ '\t' :: r.data) := by
  unfold tabsLine
  rw [List.replicate_succ', List.append_assoc, List.singleton_append]

/-- C13 as stated fails after `2^28` tabs: the run of spaces and tabs ends in a
tab, the text `x` follows, and the column `splitLine` returns is `-2^31`, which
is not positive. -/
theorem tab_run_gives_negative_column :
    (∀ c ∈ List.replicate 268435455 '\t', c = ' ' ∨ c = '\t') ∧ noLeadingBlank "x" ∧
    columnOf (String.mk (List.replicate 268435455 '\t' ++ '\t' :: "x".data)) = -2147483648 ∧
    ¬ 0 < columnOf (String.mk (List.replicate 268435455 '\t' ++ '\t' :: "x".data)) := by
  have hcol : columnOf (String.mk (List.replicate 268435455 '\t' ++ '\t' :: "x".data))
      = -2147483648 := by
    have h := splitLine_tabs_wrap "x" (by decide)
    have e : tabsLine 268435456 "x" = tabsLine (268435455 + 1) "x" := rfl
    rw [e, tabsLine_succ] at h
    exact columnOf_of_split _ _ _ h
  refine ⟨fun c hc => Or.inr (List.eq_of_mem_replicate hc), by decide, hcol, ?_⟩
  rw [hcol]
  decide

/-! ### Every outcome of the tokenizer on a stored line -/

theorem tokenOfLine_shape (s s1 : AtomicML) (tok : Token) (d : String) (hd : s.data ≠ "")
    (h : tokenOfLine s = .ok (tok, d, s1)) :
    (∃ pre, s.stack = pre ++ [s.indent] ∧ tok = Token.SAMEDENT ∧ d = s.data ∧
      s1 = { s with state := State.INDENTING }) ∨
    (∃ pre top, s.stack = pre ++ [top] ∧ top < s.indent ∧ tok = Token.INDENT ∧ d = s.data ∧
      s1 = { s with state := State.INDENTING, stack := s.stack ++ [s.indent] }) ∨
    (∃ pre below top, s.stack = pre ++ [below, top] ∧ below < s.indent ∧ s.indent < top ∧
      tok = Token.SAMEDENT ∧ d = s.data ∧
      s1 = { s with state := State.INDENTING, stack := pre ++ [below, s.indent] }) ∨
    (∃ pre below top, s.stack = pre ++ [below, top] ∧ s.indent ≤ below ∧ s.indent < top ∧
      tok = Token.DEDENT ∧ d = "" ∧
      s1 = { s with state := State.DEDENTING, stack := pre ++ [below] }) := by
  rcases List.eq_nil_or_concat s.stack with hs | ⟨pre, top, hs⟩
  · exfalso
    simp [tokenOfLine, strlen_eq_zero, hd, hs, back, bind, Except.bind] at h
  · rw [List.concat_eq_append] at hs
    rcases lt_trichotomy s.indent top with hlt | heq | hgt
    · rcases List.eq_nil_or_concat pre with hp | ⟨pre2, below, hp⟩
      · exfalso
        subst hp
        simp [tokenOfLine, strlen_eq_zero, hd, hs, back, sizeMinus, hlt, bind,
          Except.bind] at h
      · rw [List.concat_eq_append] at hp
        subst hp
        rw [List.append_assoc] at hs
        by_cases hb : below < s.indent
        · rw [tokenOfLine_soft s pre2 below top hd hs hb hlt] at h
          simp only [Except.ok.injEq, Prod.mk.injEq] at h
          obtain ⟨rfl, rfl, rfl⟩ := h
          exact Or.inr (Or.inr (Or.inl ⟨pre2, below, top, hs, hb, hlt, rfl, rfl, rfl⟩))
        · rw [tokenOfLine_dedent s pre2 below top hd hs (by omega) hlt] at h
          simp only [Except.ok.injEq, Prod.mk.injEq] at h
          obtain ⟨rfl, rfl, rfl⟩ := h
          exact Or.inr (Or.inr (Or.inr ⟨pre2, below, top, hs, by omega, hlt, rfl, rfl, rfl⟩))
    · subst heq
      rw [tokenOfLine_same s pre hd hs] at h
      simp only [Except.ok.injEq, Prod.mk.injEq] at h
      obtain ⟨rfl, rfl, rfl⟩ := h
      exact Or.inl ⟨pre, hs, rfl, rfl, rfl⟩
    · rw [tokenOfLine_indent s pre top hd hs hgt] at h
      simp only [Except.ok.injEq, Prod.mk.injEq] at h
      obtain ⟨rfl, rfl, rfl⟩ := h
      exact Or.inr (Or.inl ⟨pre, top, hs, hgt, rfl, rfl, rfl⟩)

/-! ### The indent-stack invariant -/

theorem stackOk_initial : StackOk (push_back [] (-1)) := by
  simp [StackOk, push_back]

theorem stackOk_push (pre : List Int) (top c : Int) (h : StackOk (pre ++ [top])) (hc : top < c) :
    StackOk ((pre ++ [top]) ++ [c]) := by
  obtain ⟨hh, hp⟩ := h
  refine ⟨?_, ?_⟩
  · cases pre <;> simpa using hh
  · rw [List.pairwise_append] at hp ⊢
    refine ⟨List.pairwise_append.2 hp, by simp, ?_⟩
    intro a ha b hb
    simp only [List.mem_singleton] at hb
    subst hb
    rcases List.mem_append.1 ha with h1 | h1
    · have := hp.2.2 a h1 top (by simp)
      omega
    · simp only [List.mem_singleton] at h1
      omega

theorem stackOk_pop (pre : List Int) (below top : Int) (h : StackOk (pre ++ [below, top])) :
    StackOk (pre ++ [below]) := by
  obtain ⟨hh, hp⟩ := h
  refine ⟨?_, ?_⟩
  · cases pre <;> simpa using hh
  · rw [List.pairwise_append] at hp ⊢
    refine ⟨hp.1, by simp, ?_⟩
    intro a ha b hb
    simp only [List.mem_singleton] at hb
    subst hb
    exact hp.2.2 a ha b (by simp)

theorem stackOk_replace (pre : List Int) (below top c : Int)
    (h : StackOk (pre ++ [below, top])) (hc : below < c) :
    StackOk (pre ++ [below, c]) := by
  have h1 := stackOk_push pre below c (stackOk_pop pre below top h) hc
  simpa using h1

theorem stackOk_lt_top (pre : List Int) (top : Int) (h : StackOk (pre ++ [top])) :
    ∀ a ∈ pre, a < top := by
  intro a ha
  exact (List.pairwise_append.1 h.2).2.2 a ha top (by simp)

theorem stackOk_bottom (pre : List Int) (top : Int) (h : StackOk (pre ++ [top]))
    (hpos : 0 ≤ top) : ∃ rest, pre = -1 :: rest := by
  cases pre with
  | nil =>
    have := h.1
    simp at this
    omega
  | cons a rest =>
    have := h.1
    simp at this
    exact ⟨rest, by rw [this]⟩

theorem stackOk_entries (st : List Int) (h : StackOk st) :
    st ≠ [] ∧ st.head? = some (-1) ∧ (∀ x ∈ st.tail, 0 ≤ x) ∧ st.Pairwise (· < ·) := by
  obtain ⟨hh, hp⟩ := h
  cases st with
  | nil => simp at hh
  | cons a rest =>
    simp only [List.head?_cons, Option.some.injEq] at hh
    subst hh
    refine ⟨by simp, rfl, ?_, hp⟩
    intro x hx
    have := (List.pairwise_cons.1 hp).1 x hx
    omega

theorem not_blank_of_remainder_ne (line : String) (hd : (splitLine line).2 ≠ "") :
    isBlankLine line = false := by
  cases hb : isBlankLine line with
  | false => rfl
  | true => exact absurd ((splitLine_blank line).2 hb) hd

theorem tokenOfLine_stackOk (u s1 : AtomicML) (tok : Token) (d : String)
    (hst : StackOk u.stack) (hd : u.data ≠ "")
    (h : tokenOfLine u = .ok (tok, d, s1)) : StackOk s1.stack := by
  rcases tokenOfLine_shape u s1 tok d hd h with
    ⟨pre, hs, -, -, rfl⟩ | ⟨pre, top, hs, hlt, -, -, rfl⟩ |
    ⟨pre, below, top, hs, hb, hlt, -, -, rfl⟩ | ⟨pre, below, top, hs, hb, hlt, -, -, rfl⟩
  · exact hst
  · show StackOk (u.stack ++ [u.indent])
    rw [hs] at hst ⊢
    exact stackOk_push pre top _ hst hlt
  · show StackOk (pre ++ [below, u.indent])
    rw [hs] at hst
    exact stackOk_replace pre below top _ hst hb
  · show StackOk (pre ++ [below])
    rw [hs] at hst
    exact stackOk_pop pre below top hst

theorem tokenOfLine_tokenizerOk (u s1 : AtomicML) (tok : Token) (d : String)
    (hst : StackOk u.stack) (hd : u.data ≠ "") (hi : 0 ≤ u.indent)
    (hsrc : ∀ l ∈ u.source, isBlankLine l = false → columnFits l)
    (h : tokenOfLine u = .ok (tok, d, s1)) : TokenizerOk s1 := by
  have hstack := tokenOfLine_stackOk u s1 tok d hst hd h
  obtain ⟨h1, h2, h3, -, -⟩ := tokenOfLine_keeps_ok u s1 tok d h
  refine ⟨hstack, fun _ => ?_, ?_⟩
  · rw [h1, h2]
    exact ⟨hd, hi⟩
  · rw [h3]
    exact hsrc

theorem tokenOfLine_total (u : AtomicML) (hst : StackOk u.stack) (hi : 0 ≤ u.indent) :
    ∃ r, tokenOfLine u = .ok r := by
  by_cases hd : u.data = ""
  · exact ⟨_, tokenOfLine_blank u hd⟩
  · rcases List.eq_nil_or_concat u.stack with hs | ⟨pre, top, hs⟩
    · have := hst.1
      simp [hs] at this
    · rw [List.concat_eq_append] at hs
      rcases lt_trichotomy u.indent top with hlt | heq | hgt
      · rcases List.eq_nil_or_concat pre with hp | ⟨pre2, below, hp⟩
        · exfalso
          subst hp
          have := hst.1
          simp [hs] at this
          omega
        · rw [List.concat_eq_append] at hp
          subst hp
          rw [List.append_assoc] at hs
          by_cases hb : below < u.indent
          · exact ⟨_, tokenOfLine_soft u pre2 below top hd hs hb hlt⟩
          · exact ⟨_, tokenOfLine_dedent u pre2 below top hd hs (by omega) hlt⟩
      · subst heq
        exact ⟨_, tokenOfLine_same u pre hd hs⟩
      · exact ⟨_, tokenOfLine_indent u pre top hd hs hgt⟩

theorem nextToken_stackOk (s s1 : AtomicML) (tok : Token) (d : String)
    (hst : StackOk s.stack) (h : nextToken s = .ok (tok, d, s1)) : StackOk s1.stack := by
  have key : ∀ u : AtomicML, u.stack = s.stack → tokenOfLine u = .ok (tok, d, s1) →
      StackOk s1.stack := by
    intro u hus ht
    by_cases hd : u.data = ""
    · rw [tokenOfLine_blank u hd] at ht
      simp only [Except.ok.injEq, Prod.mk.injEq] at ht
      obtain ⟨-, -, rfl⟩ := ht
      rw [hus]
      exact hst
    · exact tokenOfLine_stackOk u s1 tok d (by rw [hus]; exact hst) hd ht
  cases hm : s.state with
  | INDENTING =>
    cases hsrc : s.source with
    | nil =>
      rw [nextToken_end s hm hsrc] at h
      simp only [Except.ok.injEq, Prod.mk.injEq] at h
      obtain ⟨-, -, rfl⟩ := h
      exact hst
    | cons line rest =>
      rw [nextToken_read s line rest hm hsrc] at h
      exact key
        { s with source := rest, indent := (splitLine line).1, data := (splitLine line).2 }
        rfl h
  | DEDENTING =>
    rw [nextToken_pending s hm] at h
    exact key s rfl h

theorem nextToken_tokenizerOk (s s1 : AtomicML) (tok : Token) (d : String)
    (hinv : TokenizerOk s) (h : nextToken s = .ok (tok, d, s1)) : TokenizerOk s1 := by
  cases hm : s.state with
  | INDENTING =>
    cases hsrc : s.source with
    | nil =>
      rw [nextToken_end s hm hsrc] at h
      simp only [Except.ok.injEq, Prod.mk.injEq] at h
      obtain ⟨-, -, rfl⟩ := h
      exact hinv
    | cons line rest =>
      have hrest : ∀ l ∈ rest, isBlankLine l = false → columnFits l := fun l hl =>
        hinv.2.2 l (by rw [hsrc]; exact List.mem_cons_of_mem _ hl)
      have hline : (splitLine line).2 ≠ "" → columnFits line := fun hd =>
        hinv.2.2 line (by rw [hsrc]; exact List.mem_cons_self _ _)
          (not_blank_of_remainder_ne line hd)
      rw [nextToken_read s line rest hm hsrc] at h
      by_cases hd : (splitLine line).2 = ""
      · rw [tokenOfLine_blank _ hd] at h
        simp only [Except.ok.injEq, Prod.mk.injEq] at h
        obtain ⟨-, -, rfl⟩ := h
        exact ⟨hinv.1, (fun h => by rw [hm] at h; cases h), hrest⟩
      · exact tokenOfLine_tokenizerOk
          { s with source := rest, indent := (splitLine line).1, data := (splitLine line).2 }
          s1 tok d hinv.1 hd (splitLine_nonneg line (hline hd)) hrest h
  | DEDENTING =>
    rw [nextToken_pending s hm] at h
    obtain ⟨hd, hi⟩ := hinv.2.1 hm
    exact tokenOfLine_tokenizerOk s s1 tok d hinv.1 hd hi hinv.2.2 h

theorem nextToken_total (s : AtomicML) (hinv : TokenizerOk s) : ∃ r, nextToken s = .ok r := by
  cases hm : s.state with
  | INDENTING =>
    cases hsrc : s.source with
    | nil => exact ⟨_, nextToken_end s hm hsrc⟩
    | cons line rest =>
      rw [nextToken_read s line rest hm hsrc]
      by_cases hd : (splitLine line).2 = ""
      · exact ⟨_, tokenOfLine_blank _ hd⟩
      · exact tokenOfLine_total
          { s with source := rest, indent := (splitLine line).1, data := (splitLine line).2 }
          hinv.1 (splitLine_nonneg line
            (hinv.2.2 line (by rw [hsrc]; exact List.mem_cons_self _ _)
              (not_blank_of_remainder_ne line hd)))
  | DEDENTING =>
    rw [nextToken_pending s hm]
    exact tokenOfLine_total s hinv.1 (hinv.2.1 hm).2

theorem tokenizerOk_new (lines : List String) (indent0 : Int)
    (hfit : ∀ l ∈ lines, isBlankLine l = false → columnFits l) :
    TokenizerOk (AtomicML.new lines indent0) :=
  ⟨stackOk_initial, (fun h => by cases h), hfit⟩

theorem nextTokens_tokenizerOk (n : Nat) :
    ∀ (s s1 : AtomicML) (toks : List (Token × String)), TokenizerOk s →
      nextTokens n s = .ok (toks, s1) → TokenizerOk s1 := by
  induction n with
  | zero =>
    intro s s1 toks hinv h
    simp only [nextTokens, Except.ok.injEq, Prod.mk.injEq] at h
    rw [← h.2]
    exact hinv
  | succ n ih =>
    intro s s1 toks hinv h
    obtain ⟨⟨tok, d, s2⟩, h1⟩ := nextToken_total s hinv
    have hinv2 := nextToken_tokenizerOk s s2 tok d hinv h1
    cases h2 : nextTokens n s2 with
    | error e => simp [nextTokens, h1, h2, bind, Except.bind] at h
    | ok v =>
      obtain ⟨rest, s3⟩ := v
      rw [nextTokens_succ n s s2 s3 tok d rest h1 h2] at h
      simp only [Except.ok.injEq, Prod.mk.injEq] at h
      rw [← h.2]
      exact ih s2 s3 rest hinv2 h2

theorem nextTokens_stackOk (n : Nat) :
    ∀ (s s1 : AtomicML) (toks : List (Token × String)), StackOk s.stack →
      nextTokens n s = .ok (toks, s1) → StackOk s1.stack := by
  induction n with
  | zero =>
    intro s s1 toks hinv h
    simp only [nextTokens, Except.ok.injEq, Prod.mk.injEq] at h
    rw [← h.2]
    exact hinv
  | succ n ih =>
    intro s s1 toks hinv h
    cases h1 : nextToken s with
    | error e => simp [nextTokens, h1, bind, Except.bind] at h
    | ok v1 =>
      obtain ⟨tok, d, s2⟩ := v1
      have hinv2 := nextToken_stackOk s s2 tok d hinv h1
      cases h2 : nextTokens n s2 with
      | error e => simp [nextTokens, h1, h2, bind, Except.bind] at h
      | ok v =>
        obtain ⟨rest, s3⟩ := v
        rw [nextTokens_succ n s s2 s3 tok d rest h1 h2] at h
        simp only [Except.ok.injEq, Prod.mk.injEq] at h
        rw [← h.2]
        exact ih s2 s3 rest hinv2 h2

theorem nextTokens_total (n : Nat) :
    ∀ s : AtomicML, TokenizerOk s → ∃ toks s1, nextTokens n s = .ok (toks, s1) := by
  induction n with
  | zero => intro s _; exact ⟨[], s, rfl⟩
  | succ n ih =>
    intro s hinv
    obtain ⟨⟨tok, d, s2⟩, h1⟩ := nextToken_total s hinv
    obtain ⟨rest, s3, h2⟩ := ih s2 (nextToken_tokenizerOk s s2 tok d hinv h1)
    exact ⟨_, _, nextTokens_succ n s s2 s3 tok d rest h1 h2⟩

/-! ### Dedent runs -/

theorem filter_ge_of_all_lt (pre : List Int) (c : Int) (h : ∀ a ∈ pre, a < c) :
    pre.filter (fun x => decide (c ≤ x)) = [] := by
  rw [List.filter_eq_nil_iff]
  intro a ha
  have := h a ha
  simp
  omega

theorem filter_lt_of_all_lt (pre : List Int) (c : Int) (h : ∀ a ∈ pre, a < c) :
    pre.filter (fun x => decide (x < c)) = pre := by
  rw [List.filter_eq_self]
  intro a ha
  simpa using h a ha

theorem dedent_run_from (st : List Int) :
    ∀ (v u : AtomicML), nextToken v = tokenOfLine u → u.stack = st → StackOk st →
      u.data ≠ "" → 0 ≤ u.indent → (∃ pre top, st = pre ++ [top] ∧ u.indent ≤ top) →
      ∃ s1, nextTokens ((st.filter (fun x => decide (u.indent ≤ x))).length - 1 + 1) v
          = .ok (List.replicate ((st.filter (fun x => decide (u.indent ≤ x))).length - 1)
                  (Token.DEDENT, "") ++ [(Token.SAMEDENT, u.data)], s1) ∧
        s1.stack = st.filter (fun x => decide (x < u.indent)) ++ [u.indent] ∧
        s1.source = u.source ∧ s1.state = State.INDENTING := by
  induction st using List.reverseRecOn with
  | nil =>
    intro v u _ _ _ _ _ h
    obtain ⟨pre, top, h, _⟩ := h
    simp at h
  | append_singleton pre top ih =>
    intro v u hv hs hst hd hi hle
    obtain ⟨pre1, topx, he, hle⟩ := hle
    obtain ⟨hp1, ht1⟩ := List.append_inj' he rfl
    have ht2 : top = topx := by simp at ht1; exact ht1
    subst hp1
    subst ht2
    have hpre := stackOk_lt_top pre top hst
    rcases lt_or_eq_of_le hle with hlt | heq
    · -- the line is left of the top entry
      obtain ⟨rest, hbot⟩ := stackOk_bottom pre top hst (by omega)
      rcases List.eq_nil_or_concat pre with hp | ⟨pre2, below, hp⟩
      · rw [hp] at hbot; cases hbot
      · rw [List.concat_eq_append] at hp
        subst hp
        have hs2 : u.stack = pre2 ++ [below, top] := by rw [hs, List.append_assoc]; rfl
        have hftop : (pre2 ++ [below] ++ [top]).filter (fun x => decide (u.indent ≤ x))
            = (pre2 ++ [below]).filter (fun x => decide (u.indent ≤ x)) ++ [top] := by
          rw [List.filter_append]
          simp [hle]
        have hltop : (pre2 ++ [below] ++ [top]).filter (fun x => decide (x < u.indent))
            = (pre2 ++ [below]).filter (fun x => decide (x < u.indent)) := by
          rw [List.filter_append]
          simp
          omega
        by_cases hb : below < u.indent
        · have hall : ∀ a ∈ pre2 ++ [below], a < u.indent := by
            intro a ha
            rcases List.mem_append.1 ha with h1 | h1
            · have := stackOk_lt_top (pre2) below (stackOk_pop pre2 below top
                (by rw [List.append_assoc] at hst; exact hst)) a h1
              omega
            · simp only [List.mem_singleton] at h1
              omega
          rw [hftop, hltop, filter_ge_of_all_lt _ _ hall, filter_lt_of_all_lt _ _ hall]
          have t1 := hv.trans (tokenOfLine_soft u pre2 below top hd hs2 hb hlt)
          refine ⟨_, nextTokens_succ 0 _ _ _ _ _ _ t1 rfl, ?_, rfl, rfl⟩
          simp
        · have t1 := hv.trans (tokenOfLine_dedent u pre2 below top hd hs2 (by omega) hlt)
          have hst2 : StackOk (pre2 ++ [below]) :=
            stackOk_pop pre2 below top (by rw [List.append_assoc] at hst; exact hst)
          obtain ⟨s1, hrun, hstack, hsrc, hmode⟩ := ih
            { u with state := State.DEDENTING, stack := pre2 ++ [below] }
            { u with state := State.DEDENTING, stack := pre2 ++ [below] }
            (nextToken_pending _ rfl) rfl hst2 hd hi ⟨pre2, below, rfl, by simp; omega⟩
          have hpos : 0 < ((pre2 ++ [below]).filter (fun x => decide (u.indent ≤ x))).length := by
            rw [List.filter_append]
            have : decide (u.indent ≤ below) = true := by simp; omega
            simp [this]
          simp only [] at hrun hstack hsrc
          rw [hftop, hltop]
          refine ⟨s1, ?_, hstack, hsrc, hmode⟩
          have hlen : ((pre2 ++ [below]).filter (fun x => decide (u.indent ≤ x)) ++ [top]).length
              - 1 = ((pre2 ++ [below]).filter (fun x => decide (u.indent ≤ x))).length - 1 + 1 := by
            rw [List.length_append, List.length_singleton]
            omega
          rw [hlen]
          exact nextTokens_succ _ _ _ _ _ _ _ t1 hrun
    · -- the line is exactly at the top entry
      subst heq
      have hf1 : (pre ++ [u.indent]).filter (fun x => decide (u.indent ≤ x)) = [u.indent] := by
        rw [List.filter_append, filter_ge_of_all_lt _ _ hpre]
        simp
      have hf2 : (pre ++ [u.indent]).filter (fun x => decide (x < u.indent)) = pre := by
        rw [List.filter_append, filter_lt_of_all_lt _ _ hpre]
        simp
      rw [hf1, hf2]
      have t1 := hv.trans (tokenOfLine_same u pre hd hs)
      exact ⟨_, nextTokens_succ 0 _ _ _ _ _ _ t1 rfl, hs, rfl, rfl⟩

theorem snoc_of_back {α : Type} (v : List α) (x : α) (h : back v = .ok x) :
    ∃ pre, v = pre ++ [x] := by
  rcases List.eq_nil_or_concat v with hv | ⟨pre, y, hv⟩
  · simp [hv, back] at h
  · rw [List.concat_eq_append] at hv
    rw [hv, back_snoc] at h
    simp only [Except.ok.injEq] at h
    exact ⟨pre, by rw [hv, h]⟩

theorem stackOk_of_reachable (s : AtomicML) (h : Reachable s) : StackOk s.stack := by
  obtain ⟨lines, indent0, n, toks, hn⟩ := h
  exact nextTokens_stackOk n _ s toks stackOk_initial hn

/-- C18: dedent run.  In a reachable state in mode `INDENTING`, when the next
line is non-blank at a column `c` strictly below the top of the indent stack
(the column the line really has, `columnFits`, not one reached by wrapping
around), the next calls return exactly `k` `DEDENT` tokens with empty payload and then
`SAMEDENT` with the line's remainder, where `k` is the number of stack entries
`≥ c` minus one; only that one line is read, and the resulting stack is the
entries `< c` in order with `c` on top. -/
theorem dedent_run (s : AtomicML) (line : String) (rest : List String) (top : Int)
    (hreach : Reachable s) (hm : s.state = State.INDENTING) (hsrc : s.source = line :: rest)
    (hnb : isBlankLine line = false) (hfit : columnFits line)
    (htop : back s.stack = .ok top) (hc : columnOf line < top) :
    ∃ s1, nextTokens ((s.stack.filter (fun x => decide (columnOf line ≤ x))).length - 1 + 1) s
        = .ok (List.replicate ((s.stack.filter (fun x => decide (columnOf line ≤ x))).length - 1)
                (Token.DEDENT, "") ++ [(Token.SAMEDENT, remainderOf line)], s1) ∧
      s1.stack = s.stack.filter (fun x => decide (x < columnOf line)) ++ [columnOf line] ∧
      s1.source = rest ∧ s1.state = State.INDENTING := by
  obtain ⟨pre, hpre⟩ := snoc_of_back s.stack top htop
  exact dedent_run_from s.stack s
    { s with source := rest, indent := columnOf line, data := remainderOf line }
    (nextToken_read s line rest hm hsrc) rfl (stackOk_of_reachable s hreach)
    (remainder_ne_of_not_blank line hnb) (splitLine_nonneg line hfit)
    ⟨pre, top, hpre, le_of_lt hc⟩

/-- Witness for C18: after `"one"`, `"  two"` the line `"four"` at column 0. -/
theorem dedent_run_witness :
    ∃ s1, nextTokens
        (((⟨[-1, 0, 2], State.INDENTING, 2, "two", ["four"], [], []⟩ : AtomicML).stack.filter
            (fun x => decide (columnOf "four" ≤ x))).length - 1 + 1)
        ⟨[-1, 0, 2], State.INDENTING, 2, "two", ["four"], [], []⟩
        = .ok (List.replicate
                (((⟨[-1, 0, 2], State.INDENTING, 2, "two", ["four"], [], []⟩ :
                    AtomicML).stack.filter
                  (fun x => decide (columnOf "four" ≤ x))).length - 1)
                (Token.DEDENT, "") ++ [(Token.SAMEDENT, remainderOf "four")], s1) ∧
      s1.stack = (⟨[-1, 0, 2], State.INDENTING, 2, "two", ["four"], [], []⟩ :
          AtomicML).stack.filter (fun x => decide (x < columnOf "four")) ++ [columnOf "four"] ∧
      s1.source = [] ∧ s1.state = State.INDENTING :=
  dedent_run ⟨[-1, 0, 2], State.INDENTING, 2, "two", ["four"], [], []⟩ "four" [] 2
    ⟨["one", "  two", "four"], 0, 2, [(Token.INDENT, "one"), (Token.INDENT, "two")], rfl⟩
    rfl rfl (by decide) (by decide) rfl (by decide)

/-! ### Tokens and the length of the indent stack -/

theorem tokenOfLine_lengths (u s1 : AtomicML) (tok : Token) (d : String)
    (hst : StackOk u.stack) (hd : u.data ≠ "") (hi : 0 ≤ u.indent)
    (h : tokenOfLine u = .ok (tok, d, s1)) :
    (tok = Token.INDENT ∧ s1.stack.length = u.stack.length + 1) ∨
    (tok = Token.SAMEDENT ∧ s1.stack.length = u.stack.length ∧ 2 ≤ u.stack.length) ∨
    (tok = Token.DEDENT ∧ s1.stack.length + 1 = u.stack.length ∧ 2 ≤ s1.stack.length) := by
  rcases tokenOfLine_shape u s1 tok d hd h with
    ⟨pre, hs, rfl, -, rfl⟩ | ⟨pre, top, hs, hlt, rfl, -, rfl⟩ |
    ⟨pre, below, top, hs, hb, hlt, rfl, -, rfl⟩ | ⟨pre, below, top, hs, hb, hlt, rfl, -, rfl⟩
  · right; left
    rw [hs] at hst
    obtain ⟨rest, hr⟩ := stackOk_bottom pre _ hst hi
    refine ⟨rfl, rfl, ?_⟩
    simp [hs, hr]
  · left
    exact ⟨rfl, by simp⟩
  · right; left
    refine ⟨rfl, ?_, ?_⟩ <;> simp [hs]
  · right; right
    rw [hs] at hst
    obtain ⟨rest, hr⟩ := stackOk_bottom pre below (stackOk_pop pre below top hst) (by omega)
    refine ⟨rfl, ?_, ?_⟩ <;> simp [hs, hr]

theorem nextToken_lengths (s s1 : AtomicML) (tok : Token) (d : String) (hinv : TokenizerOk s)
    (h : nextToken s = .ok (tok, d, s1)) :
    s1.nodes = s.nodes ∧ s1.heap = s.heap ∧
    ((tok = Token.END ∧ s1 = s ∧ Ended s) ∨
     (tok = Token.BLANK ∧ s1.stack = s.stack) ∨
     (tok = Token.INDENT ∧ s1.stack.length = s.stack.length + 1) ∨
     (tok = Token.SAMEDENT ∧ s1.stack.length = s.stack.length ∧ 2 ≤ s.stack.length) ∨
     (tok = Token.DEDENT ∧ s1.stack.length + 1 = s.stack.length ∧ 2 ≤ s1.stack.length)) := by
  have key : ∀ u : AtomicML, u.stack = s.stack → u.nodes = s.nodes → u.heap = s.heap →
      (u.data ≠ "" → 0 ≤ u.indent) →
      tokenOfLine u = .ok (tok, d, s1) →
      s1.nodes = s.nodes ∧ s1.heap = s.heap ∧
      ((tok = Token.END ∧ s1 = s ∧ Ended s) ∨
       (tok = Token.BLANK ∧ s1.stack = s.stack) ∨
       (tok = Token.INDENT ∧ s1.stack.length = s.stack.length + 1) ∨
       (tok = Token.SAMEDENT ∧ s1.stack.length = s.stack.length ∧ 2 ≤ s.stack.length) ∨
       (tok = Token.DEDENT ∧ s1.stack.length + 1 = s.stack.length ∧ 2 ≤ s1.stack.length)) := by
    intro u hus hun huh hui ht
    obtain ⟨-, -, -, hn, hh⟩ := tokenOfLine_keeps_ok u s1 tok d ht
    refine ⟨hn.trans hun, hh.trans huh, ?_⟩
    by_cases hd : u.data = ""
    · rw [tokenOfLine_blank u hd] at ht
      simp only [Except.ok.injEq, Prod.mk.injEq] at ht
      obtain ⟨rfl, -, rfl⟩ := ht
      exact Or.inr (Or.inl ⟨rfl, hus⟩)
    · have := tokenOfLine_lengths u s1 tok d (by rw [hus]; exact hinv.1) hd (hui hd) ht
      rw [hus] at this
      rcases this with h1 | h1 | h1
      · exact Or.inr (Or.inr (Or.inl h1))
      · exact Or.inr (Or.inr (Or.inr (Or.inl h1)))
      · exact Or.inr (Or.inr (Or.inr (Or.inr h1)))
  cases hm : s.state with
  | INDENTING =>
    cases hsrc : s.source with
    | nil =>
      rw [nextToken_end s hm hsrc] at h
      simp only [Except.ok.injEq, Prod.mk.injEq] at h
      obtain ⟨rfl, -, rfl⟩ := h
      exact ⟨rfl, rfl, Or.inl ⟨rfl, rfl, hm, hsrc⟩⟩
    | cons line rest =>
      rw [nextToken_read s line rest hm hsrc] at h
      exact key
        { s with source := rest, indent := (splitLine line).1, data := (splitLine line).2 }
        rfl rfl rfl (fun hd => splitLine_nonneg line
          (hinv.2.2 line (by rw [hsrc]; exact List.mem_cons_self _ _)
            (not_blank_of_remainder_ne line hd))) h
  | DEDENTING =>
    rw [nextToken_pending s hm] at h
    exact key s rfl rfl rfl (fun _ => (hinv.2.1 hm).2) h

/-! ### Node pointers stay valid -/

theorem read_of_lt (h : Heap) (p : Ptr) (hp : p < h.length) : h.read p = .ok h[p] := by
  simp [Heap.read, List.getElem?_eq_getElem hp]

theorem addChild_total (h : Heap) (self child : Ptr) (hs : self < h.length)
    (hc : child < h.length) (hl : ∀ c ∈ h, ∀ l, c.last = some l → l < h.length) :
    ∃ h2, addChild h self child = .ok h2 ∧ h2.length = h.length ∧
      (∀ c ∈ h2, ∀ l, c.last = some l → l < h2.length) := by
  unfold addChild
  rw [read_of_lt h self hs]
  simp only [bind, Except.bind]
  cases hlast : (h[self]).last with
  | none =>
    simp only [Heap.write, hs, if_true]
    refine ⟨_, rfl, by simp, ?_⟩
    intro c hc2 l hcl
    rw [List.length_set]
    rcases List.mem_or_eq_of_mem_set hc2 with h1 | h1
    · exact hl c h1 l hcl
    · subst h1
      simp only [Option.some.injEq] at hcl
      exact hcl ▸ hc
  | some l0 =>
    have hl0 : l0 < h.length := hl _ (List.getElem_mem hs) l0 hlast
    have hs1 : self < (h.set l0 { h[l0] with next := some child }).length := by
      rw [List.length_set]; exact hs
    simp only [read_of_lt h l0 hl0, Heap.write, hl0, if_true, read_of_lt _ self hs1, hs1]
    refine ⟨_, rfl, by simp, ?_⟩
    intro c hc2 l hcl
    simp only [List.length_set]
    rcases List.mem_or_eq_of_mem_set hc2 with h1 | h1
    · rcases List.mem_or_eq_of_mem_set h1 with h2 | h2
      · exact hl c h2 l hcl
      · subst h2
        exact hl _ (List.getElem_mem hl0) l hcl
    · subst h1
      simp only [Option.some.injEq] at hcl
      exact hcl ▸ hc

theorem heapLast_alloc (h : Heap) (d : String)
    (hl : ∀ c ∈ h, ∀ l, c.last = some l → l < h.length) :
    ∀ c ∈ h ++ [(⟨d, none, none, none⟩ : Node)], ∀ l, c.last = some l →
      l < (h ++ [(⟨d, none, none, none⟩ : Node)]).length := by
  intro c hc l hcl
  rw [List.length_append, List.length_singleton]
  rcases List.mem_append.1 hc with h1 | h1
  · exact Nat.lt_succ_of_lt (hl c h1 l hcl)
  · simp only [List.mem_singleton] at h1
    subst h1
    cases hcl

/-! ### The switch of `parseNode` under the session invariant -/

theorem onToken_indent_total (d : String) (s : AtomicML) (hh : HeapOk s) :
    ∃ s2, onToken Token.INDENT d s = .ok (.inl s2) ∧ HeapOk s2 ∧
      s2.nodes.length = s.nodes.length + 1 := by
  have hlast := heapLast_alloc s.heap d hh.2
  rcases List.eq_nil_or_concat s.nodes with hn | ⟨pre, b, hn⟩
  · refine ⟨_, onToken_indent_first s d hn, ⟨?_, hlast⟩, by simp [hn]⟩
    intro p hp
    simp only [List.mem_singleton] at hp
    subst hp
    simp
  · rw [List.concat_eq_append] at hn
    have hb : b < (s.heap ++ [(⟨d, none, none, none⟩ : Node)]).length := by
      have := hh.1 b (by simp [hn])
      simp
      exact Nat.lt_succ_of_lt this
    obtain ⟨h2, hadd, hlen, hl2⟩ := addChild_total _ b s.heap.length hb (by simp) hlast
    refine ⟨{ s with heap := h2, nodes := push_back s.nodes s.heap.length }, ?_, ⟨?_, hl2⟩, ?_⟩
    · simp [onToken, Heap.alloc, hn, back_snoc, hadd, bind, Except.bind]
    · intro p hp
      show p < h2.length
      rw [hlen, List.length_append, List.length_singleton]
      simp only [push_back] at hp
      rcases List.mem_append.1 hp with h1 | h1
      · exact Nat.lt_succ_of_lt (hh.1 p h1)
      · simp only [List.mem_singleton] at h1
        subst h1
        exact Nat.lt_succ_self _
    · simp [push_back]

theorem onToken_dedent_total (d : String) (s : AtomicML) (hh : HeapOk s) (hne : s.nodes ≠ []) :
    ∃ s2, onToken Token.DEDENT d s = .ok (.inl s2) ∧ HeapOk s2 ∧
      s2.nodes.length + 1 = s.nodes.length := by
  rcases List.eq_nil_or_concat s.nodes with hn | ⟨pre, b, hn⟩
  · exact absurd hn hne
  · rw [List.concat_eq_append] at hn
    refine ⟨{ s with nodes := pre }, ?_, ⟨?_, hh.2⟩, by simp [hn]⟩
    · simp [onToken, hn, pop_back_snoc, bind, Except.bind]
    · intro p hp
      exact hh.1 p (by simp [hn, hp])

theorem onToken_samedent_total (d : String) (s : AtomicML) (hh : HeapOk s)
    (hne : s.nodes ≠ []) :
    ∃ r, onToken Token.SAMEDENT d s = .ok r ∧ HeapOk (sessionAfter r) ∧
      (sessionAfter r).nodes.length = s.nodes.length := by
  have hlast := heapLast_alloc s.heap d hh.2
  rcases List.eq_nil_or_concat s.nodes with hn | ⟨pre, b, hn⟩
  · exact absurd hn hne
  · rw [List.concat_eq_append] at hn
    rcases List.eq_nil_or_concat pre with hp | ⟨pre2, a, hp⟩
    · subst hp
      rw [List.nil_append] at hn
      refine ⟨_, onToken_samedent_single s d b hn, ⟨?_, hlast⟩, by simp [sessionAfter, hn]⟩
      intro p hp
      simp only [sessionAfter, List.mem_singleton] at hp
      subst hp
      simp [sessionAfter]
    · rw [List.concat_eq_append] at hp
      subst hp
      rw [List.append_assoc] at hn
      have hn2 : s.nodes = pre2 ++ [a, b] := hn
      have hb : b < (s.heap ++ [(⟨d, none, none, none⟩ : Node)]).length := by
        have := hh.1 b (by simp [hn])
        simp
        exact Nat.lt_succ_of_lt this
      obtain ⟨h2, hadd, hlen, hl2⟩ := addChild_total _ b s.heap.length hb (by simp) hlast
      have hlen2 : ¬ (pre2.length + 2 = 1) := by omega
      have hat : at_ (pre2 ++ [a, b]) (pre2.length + 1) = .ok b := by
        have := at_snoc2 (pre2 ++ [a]) b b
        have e : at_ ((pre2 ++ [a]) ++ [b]) (pre2 ++ [a]).length = .ok b := by
          unfold at_
          rw [List.getElem?_append_right (le_refl _)]
          simp
        simpa using e
      refine ⟨.inl { s with heap := h2, nodes := push_back (pre2 ++ [a]) s.heap.length },
        ?_, ⟨?_, hl2⟩, ?_⟩
      · simp [onToken, Heap.alloc, hn2, hlen2, sizeMinus_one_snoc2, hat, hadd,
          pop_back_snoc2, bind, Except.bind]
      · intro p hp
        show p < h2.length
        rw [hlen, List.length_append, List.length_singleton]
        simp only [sessionAfter, push_back] at hp
        rcases List.mem_append.1 hp with h1 | h1
        · exact Nat.lt_succ_of_lt (hh.1 p (by
            rw [hn2]
            rcases List.mem_append.1 h1 with h3 | h3
            · exact List.mem_append_left _ h3
            · simp only [List.mem_singleton] at h3
              subst h3
              simp))
        · simp only [List.mem_singleton] at h1
          subst h1
          exact Nat.lt_succ_self _
      · simp [sessionAfter, push_back, hn2]

theorem onToken_end_total (d : String) (s : AtomicML) (hh : HeapOk s) :
    ∃ r, onToken Token.END d s = .ok (.inr r) ∧ HeapOk r.2 ∧
      r.2.nodes.length ≤ s.nodes.length ∧ (r.1 = none ↔ s.nodes = []) ∧
      (s.nodes = [] → r.2 = s) := by
  cases hn : s.nodes with
  | nil =>
    refine ⟨(none, s), by simp [onToken, hn], hh, by simp [hn], by simp, fun _ => rfl⟩
  | cons a rest =>
    refine ⟨(some a, { s with nodes := (a :: rest).dropLast }), ?_, ⟨?_, hh.2⟩, ?_, by simp,
      by simp⟩
    · simp [onToken, hn, at_, pop_back, bind, Except.bind]
    · intro p hp
      exact hh.1 p (by rw [hn]; exact List.dropLast_subset _ hp)
    · simp

/-! ### One round of the loop keeps the session invariant -/

theorem onToken_keeps_after (tok : Token) (d : String) (s1 : AtomicML)
    (r : AtomicML ⊕ (Option Ptr × AtomicML)) (h : onToken tok d s1 = .ok r) :
    (sessionAfter r).stack = s1.stack ∧ (sessionAfter r).state = s1.state ∧
      (sessionAfter r).indent = s1.indent ∧ (sessionAfter r).data = s1.data ∧
      (sessionAfter r).source = s1.source := by
  cases r with
  | inl s2 => exact onToken_keeps_inl tok d s1 s2 h
  | inr q => exact onToken_keeps_inr tok d s1 q.2 q.1 h

theorem tokenizerOk_of_eq (s t : AtomicML) (h1 : t.stack = s.stack) (h2 : t.state = s.state)
    (h3 : t.indent = s.indent) (h4 : t.data = s.data) (h5 : t.source = s.source)
    (h : TokenizerOk s) : TokenizerOk t := by
  unfold TokenizerOk at *
  rw [h1, h2, h3, h4, h5]
  exact h

theorem round_sessionOk (s : AtomicML) (h : SessionOk s) :
    ∃ tok d s1 r, nextToken s = .ok (tok, d, s1) ∧ onToken tok d s1 = .ok r ∧
      SessionOk (sessionAfter r) ∧
      (tok ≠ Token.END → Lockstep s → Lockstep (sessionAfter r)) ∧
      (tok ≠ Token.END → Lockstep s) ∧
      (tok = Token.END → Ended s ∧ ∃ q, r = .inr q) := by
  obtain ⟨htk, hh, hlock⟩ := h
  obtain ⟨⟨tok, d, s1⟩, hn⟩ := nextToken_total s htk
  have htk1 := nextToken_tokenizerOk s s1 tok d htk hn
  obtain ⟨hnodes, hheap, hcases⟩ := nextToken_lengths s s1 tok d htk hn
  have hh1 : HeapOk s1 := by
    unfold HeapOk
    rw [hnodes, hheap]
    exact hh
  have hnotEnded : tok ≠ Token.END → Lockstep s := by
    intro hne
    rcases hlock with hl | ⟨⟨hm, hsrc⟩, -⟩
    · exact hl
    · rw [nextToken_end s hm hsrc] at hn
      simp only [Except.ok.injEq, Prod.mk.injEq] at hn
      exact absurd hn.1.symm hne
  have finish : ∀ r, onToken tok d s1 = .ok r → HeapOk (sessionAfter r) →
      (tok ≠ Token.END → (sessionAfter r).nodes.length + 1 = s1.stack.length) →
      (tok = Token.END → Ended s ∧ (sessionAfter r).nodes.length ≤ s.nodes.length ∧
        s1 = s ∧ ∃ q, r = .inr q) →
      ∃ tok d s1 r, nextToken s = .ok (tok, d, s1) ∧ onToken tok d s1 = .ok r ∧
        SessionOk (sessionAfter r) ∧
        (tok ≠ Token.END → Lockstep s → Lockstep (sessionAfter r)) ∧
        (tok ≠ Token.END → Lockstep s) ∧
        (tok = Token.END → Ended s ∧ ∃ q, r = .inr q) := by
    intro r ho hhr hlen hend
    obtain ⟨k1, k2, k3, k4, k5⟩ := onToken_keeps_after tok d s1 r ho
    refine ⟨tok, d, s1, r, hn, ho, ⟨tokenizerOk_of_eq s1 _ k1 k2 k3 k4 k5 htk1, hhr, ?_⟩, ?_,
      hnotEnded, fun he => ⟨(hend he).1, (hend he).2.2.2⟩⟩
    · by_cases he : tok = Token.END
      · obtain ⟨hE, hle, hs1, -⟩ := hend he
        right
        subst hs1
        refine ⟨⟨k2.trans hE.1, k5.trans hE.2⟩, ?_⟩
        rw [k1]
        rcases hlock with hl | ⟨-, hl⟩
        · unfold Lockstep at hl
          omega
        · omega
      · left
        unfold Lockstep
        rw [k1]
        exact hlen he
    · intro hne _
      unfold Lockstep
      rw [k1]
      exact hlen hne
  rcases hcases with ⟨rfl, hs1, hE⟩ | ⟨rfl, hst⟩ | ⟨rfl, hst⟩ | ⟨rfl, hst, h2⟩ | ⟨rfl, hst, h2⟩
  · obtain ⟨q, ho, hhq, hle, -, -⟩ := onToken_end_total d s1 hh1
    refine finish (.inr q) ho hhq (fun h => absurd rfl h) (fun _ => ⟨hE, ?_, hs1, q, rfl⟩)
    rw [hs1] at hle
    exact hle
  · have hl := hnotEnded (by decide)
    refine finish (.inl s1) (by simp [onToken]) hh1 (fun _ => ?_) (fun h => by cases h)
    show s1.nodes.length + 1 = s1.stack.length
    rw [hnodes, hst]
    exact hl
  · have hl := hnotEnded (by decide)
    obtain ⟨s2, ho, hh2, hlen⟩ := onToken_indent_total d s1 hh1
    refine finish (.inl s2) ho hh2 (fun _ => ?_) (fun h => by cases h)
    show s2.nodes.length + 1 = s1.stack.length
    unfold Lockstep at hl
    rw [hlen, hnodes, hst]
    omega
  · have hl := hnotEnded (by decide)
    unfold Lockstep at hl
    have hne : s1.nodes ≠ [] := by
      rw [hnodes]
      intro e
      rw [e] at hl
      simp at hl
      omega
    obtain ⟨r, ho, hhr, hlen⟩ := onToken_samedent_total d s1 hh1 hne
    refine finish r ho hhr (fun _ => ?_) (fun h => by cases h)
    rw [hlen, hnodes, hst]
    exact hl
  · have hl := hnotEnded (by decide)
    unfold Lockstep at hl
    have hne : s1.nodes ≠ [] := by
      rw [hnodes]
      intro e
      rw [e] at hl
      simp at hl
      omega
    obtain ⟨s2, ho, hh2, hlen⟩ := onToken_dedent_total d s1 hh1 hne
    refine finish (.inl s2) ho hh2 (fun _ => ?_) (fun h => by cases h)
    show s2.nodes.length + 1 = s1.stack.length
    rw [hnodes] at hlen
    omega

theorem sessionOk_new (lines : List String) (indent0 : Int)
    (hfit : ∀ l ∈ lines, isBlankLine l = false → columnFits l) :
    SessionOk (AtomicML.new lines indent0) := by
  refine ⟨tokenizerOk_new lines indent0 hfit, ?_, Or.inl rfl⟩
  constructor
  · intro p hp
    cases hp
  · intro c hc
    cases hc

/-! ### Calls of `parseNode` never fail -/

theorem pendingLineOk_of_tokenizerOk (s : AtomicML) (h : TokenizerOk s) : PendingLineOk s :=
  fun hm => (h.2.1 hm).1

theorem parseLoop_total (f : Nat) :
    ∀ s : AtomicML, SessionOk s → tokenBudget s < f →
      ∃ p s1, parseLoop f s = .ok (p, s1) ∧ SessionOk s1 := by
  induction f with
  | zero => intro s _ hf; omega
  | succ f ih =>
    intro s hs hf
    obtain ⟨tok, d, s1, r, hn, ho, hr, -, -, -⟩ := round_sessionOk s hs
    have hp : pullToken s = .ok r := (pullToken_of_nextToken s s1 tok d hn).trans ho
    cases r with
    | inr q => exact ⟨q.1, q.2, parseLoop_return f s q hp, hr⟩
    | inl s2 =>
      obtain ⟨-, hb⟩ := pullToken_budget s s2 hp (pendingLineOk_of_tokenizerOk s hs.1)
      obtain ⟨p, s3, h3, hs3⟩ := ih s2 hr (by omega)
      exact ⟨p, s3, (parseLoop_continue f s s2 hp).trans h3, hs3⟩

theorem parseNode_total (s : AtomicML) (hs : SessionOk s) :
    ∃ p s1, parseNode s = .ok (p, s1) ∧ SessionOk s1 :=
  parseLoop_total (parseFuel s) s hs (tokenBudget_lt_parseFuel s)

theorem parseCalls_total (n : Nat) :
    ∀ s : AtomicML, SessionOk s → ∃ outs s1, parseCalls n s = .ok (outs, s1) ∧ SessionOk s1 := by
  induction n with
  | zero => intro s hs; exact ⟨[], s, rfl, hs⟩
  | succ n ih =>
    intro s hs
    obtain ⟨p, s1, h1, hs1⟩ := parseNode_total s hs
    obtain ⟨outs, s2, h2, hs2⟩ := ih s1 hs1
    exact ⟨p :: outs, s2, by simp [parseCalls, h1, h2, bind, Except.bind], hs2⟩


/-! ### A line whose column wraps around -/

theorem nextTokens_fails (n : Nat) (s : AtomicML) (e : Fault) (h : nextToken s = .error e) :
    nextTokens (n + 1) s = .error e := by
  simp [nextTokens, h, bind, Except.bind]

theorem pullToken_fails (s : AtomicML) (e : Fault) (h : nextToken s = .error e) :
    pullToken s = .error e := by
  simp [pullToken, h, bind, Except.bind]

theorem parseLoop_fails (f : Nat) (s : AtomicML) (e : Fault) (h : pullToken s = .error e) :
    parseLoop (f + 1) s = .error e := by
  simp [parseLoop, h]

theorem parseNode_fails (s : AtomicML) (e : Fault) (h : pullToken s = .error e) :
    parseNode s = .error e :=
  parseLoop_fails _ s e h

theorem parseCalls_fails (n : Nat) (s : AtomicML) (e : Fault) (h : parseNode s = .error e) :
    parseCalls (n + 1) s = .error e := by
  simp [parseCalls, h, bind, Except.bind]

theorem parseNodes_fails (n : Nat) (s : AtomicML) (e : Fault) (h : parseNode s = .error e) :
    parseNodes (n + 1) s = .error e := by
  simp [parseNodes, h, bind, Except.bind]

theorem pullRounds_fails (n : Nat) (s : AtomicML) (e : Fault) (h : nextToken s = .error e) :
    pullRounds (n + 1) s = .error e := by
  simp [pullRounds, h, bind, Except.bind]

theorem tokenOfLine_below_sentinel (s : AtomicML) (c : Int) (hs : s.stack = [-1])
    (hd : s.data ≠ "") (hi : s.indent = c) (hc : c < -1) :
    tokenOfLine s = .error .outOfRange := by
  have hlen : ¬ s.data.length = 0 := fun h => hd ((strlen_eq_zero _).1 h)
  have hlt : s.indent < -1 := by omega
  simp only [tokenOfLine, hlen, if_false, hs, back, sizeMinus, bind, Except.bind]
  simp [hlt]

theorem nextToken_wrapped_line (rest : List String) (indent0 : Int) :
    nextToken (AtomicML.new (tabsLine 268435456 "x" :: rest) indent0) = .error .outOfRange := by
  rw [nextToken_line _ (tabsLine 268435456 "x") rest (-2147483648) "x" rfl rfl
    (splitLine_tabs_wrap "x" (by decide))]
  exact tokenOfLine_below_sentinel _ (-2147483648) rfl (show "x" ≠ "" by decide) rfl
    (by decide)

theorem parseNode_wrapped_line (rest : List String) (indent0 : Int) :
    parseNode (AtomicML.new (tabsLine 268435456 "x" :: rest) indent0) = .error .outOfRange :=
  parseNode_fails _ _ (pullToken_fails _ _ (nextToken_wrapped_line rest indent0))

theorem columnFits_tabsLine_iff (k : Nat) (r : String) (hr : startsWithText r) :
    columnFits (tabsLine k r) ↔ k < 268435456 := by
  unfold columnFits
  rw [trueColumn_tabs k r hr]
  omega


/-- C5 as stated fails at the single line of `2^28` tabs followed by `x`, a
non-blank line (a list of one line has strictly decreasing columns): the column
wraps around to `-2^31` and the first `parseNode` call fails, so no tree is
returned for the line. -/
theorem wrapped_column_gives_no_node :
    isBlankLine (tabsLine 268435456 "x") = false ∧
    trueColumn (tabsLine 268435456 "x") = 2147483648 ∧
    parseNodes 2 (AtomicML.new [tabsLine 268435456 "x"] 0) = .error .outOfRange :=
  ⟨isBlankLine_tabsLine _ "x" (by decide), trueColumn_tabs 268435456 "x" (by decide),
    parseNodes_fails 1 _ _ (parseNode_wrapped_line [] 0)⟩


/-- C15, amended: no input whose non-blank lines have columns below `2^31` makes
the session fail.  For every such list of input lines and every number `n` of calls
on a fresh session, `n` successive `nextToken` calls all return a token, and `n`
successive `parseNode` calls all return: no read of the top or of the
second-from-top entry of the indent stack, and no pop or read of the ancestor
stack, is out of range, and the loop of `parseNode` ends. -/
theorem session_never_fails (lines : List String) (indent0 : Int) (n : Nat)
    (hfit : ∀ l ∈ lines, isBlankLine l = false → columnFits l) :
    (∃ toks s, nextTokens n (AtomicML.new lines indent0) = .ok (toks, s)) ∧
    (∃ outs s, parseCalls n (AtomicML.new lines indent0) = .ok (outs, s)) := by
  refine ⟨nextTokens_total n _ (tokenizerOk_new lines indent0 hfit), ?_⟩
  obtain ⟨outs, s, h, -⟩ := parseCalls_total n _ (sessionOk_new lines indent0 hfit)
  exact ⟨outs, s, h⟩

/-- Witness for C15: four calls on the lines `"one"`, `"  two"`, `"four"`. -/
theorem session_never_fails_witness :
    (∃ toks s, nextTokens 4 (AtomicML.new ["one", "  two", "four"] 0) = .ok (toks, s)) ∧
    (∃ outs s, parseCalls 4 (AtomicML.new ["one", "  two", "four"] 0) = .ok (outs, s)) :=
  session_never_fails ["one", "  two", "four"] 0 4 (by decide)

/-- C15 as stated fails at the single line of `2^28` tabs followed by `x`: its
column wraps around to `-2^31`, below the sentinel, and the first `nextToken`
call reads the second-from-top entry of an indent stack that has one entry; so
does the first `parseNode` call. -/
theorem session_fails_on_wrapped_column :
    (AtomicML.new [tabsLine 268435456 "x"] 0).stack.length = 1 ∧
    nextTokens 1 (AtomicML.new [tabsLine 268435456 "x"] 0) = .error .outOfRange ∧
    parseCalls 1 (AtomicML.new [tabsLine 268435456 "x"] 0) = .error .outOfRange :=
  ⟨rfl, nextTokens_fails 0 _ _ (nextToken_wrapped_line [] 0),
    parseCalls_fails 0 _ _ (parseNode_wrapped_line [] 0)⟩


/-- C16, amended: the indent-stack invariant.  On every input whose non-blank
lines have columns below `2^31`, any number `n` of `nextToken` calls on a fresh session
reaches a state, and in it the indent stack is non-empty, its bottom entry is
the sentinel `-1`, every other entry is at least 0, and the entries are
strictly increasing from bottom to top. -/
theorem indent_stack_invariant (lines : List String) (indent0 : Int) (n : Nat)
    (hfit : ∀ l ∈ lines, isBlankLine l = false → columnFits l) :
    ∃ toks s, nextTokens n (AtomicML.new lines indent0) = .ok (toks, s) ∧
      s.stack ≠ [] ∧ s.stack.head? = some (-1) ∧ (∀ x ∈ s.stack.tail, 0 ≤ x) ∧
      s.stack.Pairwise (· < ·) := by
  have hinv := tokenizerOk_new lines indent0 hfit
  obtain ⟨toks, s, h⟩ := nextTokens_total n _ hinv
  exact ⟨toks, s, h, stackOk_entries s.stack (nextTokens_tokenizerOk n _ s toks hinv h).1⟩

/-- Witness for C16: three calls on the lines `"one"`, `"  two"`, `"four"`. -/
theorem indent_stack_invariant_witness :
    ∃ toks s, nextTokens 3 (AtomicML.new ["one", "  two", "four"] 0) = .ok (toks, s) ∧
      s.stack ≠ [] ∧ s.stack.head? = some (-1) ∧ (∀ x ∈ s.stack.tail, 0 ≤ x) ∧
      s.stack.Pairwise (· < ·) :=
  indent_stack_invariant ["one", "  two", "four"] 0 3 (by decide)

/-- C16 as stated fails at the single line of `2^28` tabs followed by `x`: the
column `splitLine` returns is `-2^31`, below the sentinel `-1` that is the only
entry of the indent stack, so the first `nextToken` call looks for an entry
under the sentinel and reaches no state. -/
theorem sentinel_is_undercut_by_wrapped_column :
    splitLine (tabsLine 268435456 "x") = (-2147483648, "x") ∧
    (AtomicML.new [tabsLine 268435456 "x"] 0).stack = [-1] ∧
    nextToken (AtomicML.new [tabsLine 268435456 "x"] 0) = .error .outOfRange :=
  ⟨splitLine_tabs_wrap "x" (by decide), rfl, nextToken_wrapped_line [] 0⟩

/-! ### Rounds of the loop across calls -/

theorem pullRounds_succ (n : Nat) (s s1 s2 : AtomicML) (tok : Token) (d : String)
    (r : AtomicML ⊕ (Option Ptr × AtomicML)) (toks : List Token)
    (h1 : nextToken s = .ok (tok, d, s1)) (h2 : onToken tok d s1 = .ok r)
    (h3 : pullRounds n (sessionAfter r) = .ok (toks, s2)) :
    pullRounds (n + 1) s = .ok (tok :: toks, s2) := by
  simp [pullRounds, h1, h2, h3, bind, Except.bind]

theorem pullRounds_succ_inv (n : Nat) (s s2 : AtomicML) (toks : List Token)
    (h : pullRounds (n + 1) s = .ok (toks, s2)) :
    ∃ tok d s1 r rest, nextToken s = .ok (tok, d, s1) ∧ onToken tok d s1 = .ok r ∧
      pullRounds n (sessionAfter r) = .ok (rest, s2) ∧ toks = tok :: rest := by
  unfold pullRounds at h
  cases h1 : nextToken s with
  | error e => simp [h1, bind, Except.bind] at h
  | ok v =>
    obtain ⟨tok, d, s1⟩ := v
    cases h2 : onToken tok d s1 with
    | error e => simp [h1, h2, bind, Except.bind] at h
    | ok r =>
      cases h3 : pullRounds n (sessionAfter r) with
      | error e => simp [h1, h2, h3, bind, Except.bind] at h
      | ok w =>
        obtain ⟨rest, s3⟩ := w
        simp only [h1, h2, h3, bind, Except.bind, Except.ok.injEq, Prod.mk.injEq] at h
        exact ⟨tok, d, s1, r, rest, rfl, h2, by rw [h3, h.2], h.1.symm⟩

theorem pullRounds_append (n : Nat) :
    ∀ (m : Nat) (s s1 s2 : AtomicML) (t1 t2 : List Token),
      pullRounds n s = .ok (t1, s1) → pullRounds m s1 = .ok (t2, s2) →
      pullRounds (n + m) s = .ok (t1 ++ t2, s2) := by
  induction n with
  | zero =>
    intro m s s1 s2 t1 t2 h1 h2
    simp only [pullRounds, Except.ok.injEq, Prod.mk.injEq] at h1
    obtain ⟨rfl, rfl⟩ := h1
    simpa using h2
  | succ n ih =>
    intro m s s1 s2 t1 t2 h1 h2
    obtain ⟨tok, d, u, r, rest, hn, ho, hr, rfl⟩ := pullRounds_succ_inv n s s1 t1 h1
    have := ih m _ s1 s2 rest t2 hr h2
    rw [show n + 1 + m = (n + m) + 1 by omega]
    exact pullRounds_succ (n + m) s u s2 tok d r (rest ++ t2) hn ho this

theorem pullRounds_lockstep (n : Nat) :
    ∀ (s s1 : AtomicML) (toks : List Token), SessionOk s → Lockstep s →
      pullRounds n s = .ok (toks, s1) → Token.END ∉ toks → SessionOk s1 ∧ Lockstep s1 := by
  induction n with
  | zero =>
    intro s s1 toks hs hl h _
    simp only [pullRounds, Except.ok.injEq, Prod.mk.injEq] at h
    rw [← h.2]
    exact ⟨hs, hl⟩
  | succ n ih =>
    intro s s1 toks hs hl h hne
    obtain ⟨tok, d, u, r, rest, hn, ho, hr, rfl⟩ := pullRounds_succ_inv n s s1 toks h
    obtain ⟨tok1, d1, u1, r1, hn1, ho1, hs1, hl1, -, -⟩ := round_sessionOk s hs
    rw [hn] at hn1
    simp only [Except.ok.injEq, Prod.mk.injEq] at hn1
    obtain ⟨rfl, rfl, rfl⟩ := hn1
    rw [ho] at ho1
    simp only [Except.ok.injEq] at ho1
    subst ho1
    have hne1 : tok ≠ Token.END := fun e => hne (by simp [e])
    exact ih _ s1 rest hs1 (hl1 hne1 hl) hr (fun hmem => hne (List.mem_cons_of_mem _ hmem))

theorem parseLoop_is_rounds (f : Nat) :
    ∀ (s s1 : AtomicML) (p : Option Ptr), parseLoop f s = .ok (p, s1) →
      ∃ n toks, pullRounds (n + 1) s = .ok (toks, s1) := by
  induction f with
  | zero => intro s s1 p h; simp [parseLoop] at h
  | succ f ih =>
    intro s s1 p h
    unfold parseLoop at h
    cases hp : pullToken s with
    | error e => simp [hp] at h
    | ok r =>
      obtain ⟨tok, d, u, hn, ho⟩ := pullToken_cases s r hp
      cases r with
      | inr q =>
        simp only [hp, Except.ok.injEq] at h
        subst h
        exact ⟨0, [tok], pullRounds_succ 0 s u _ tok d _ [] hn ho rfl⟩
      | inl s2 =>
        simp only [hp] at h
        obtain ⟨n, toks, hr⟩ := ih s2 s1 p h
        exact ⟨n + 1, tok :: toks, pullRounds_succ (n + 1) s u s1 tok d _ toks hn ho hr⟩

theorem pullRounds_total (n : Nat) :
    ∀ s : AtomicML, SessionOk s → ∃ toks s1, pullRounds n s = .ok (toks, s1) := by
  induction n with
  | zero => intro s _; exact ⟨[], s, rfl⟩
  | succ n ih =>
    intro s hs
    obtain ⟨tok, d, s1, r, hn, ho, hr, -, -, -⟩ := round_sessionOk s hs
    obtain ⟨toks, s2, h2⟩ := ih (sessionAfter r) hr
    exact ⟨tok :: toks, s2, pullRounds_succ n s s1 s2 tok d r toks hn ho h2⟩

/-- C17, amended: the lockstep invariant.  In a session driven only through
`parseNode` on an input whose non-blank lines have columns below `2^31`, any number of
rounds of its loop can be run, and after any number of rounds in which no `END`
has been pulled, the ancestor stack has one entry less than the indent stack
(`nodes.size() + 1 = stack.size()`).  In particular a `parseNode` call started
there returns, it is a run of such rounds, and when it pulls no `END` the
invariant holds at its return. -/
theorem lockstep_invariant (lines : List String) (indent0 : Int) (n : Nat)
    (hfit : ∀ l ∈ lines, isBlankLine l = false → columnFits l) :
    (∃ toks s, pullRounds n (AtomicML.new lines indent0) = .ok (toks, s)) ∧
    ∀ toks s, pullRounds n (AtomicML.new lines indent0) = .ok (toks, s) →
      Token.END ∉ toks →
      s.nodes.length + 1 = s.stack.length ∧
      (∃ p s1, parseNode s = .ok (p, s1)) ∧
      ∀ p s1, parseNode s = .ok (p, s1) →
        ∃ m toks1, pullRounds (m + 1) s = .ok (toks1, s1) ∧
          (Token.END ∉ toks1 → s1.nodes.length + 1 = s1.stack.length) := by
  have hnew := sessionOk_new lines indent0 hfit
  refine ⟨pullRounds_total n _ hnew, ?_⟩
  intro toks s h hne
  obtain ⟨hs, hl⟩ := pullRounds_lockstep n _ s toks hnew rfl h hne
  refine ⟨hl, ?_, ?_⟩
  · obtain ⟨p, s1, hp, -⟩ := parseNode_total s hs
    exact ⟨p, s1, hp⟩
  · intro p s1 hp
    obtain ⟨m, toks1, hr⟩ := parseLoop_is_rounds _ s s1 p hp
    exact ⟨m, toks1, hr, fun hne1 => (pullRounds_lockstep (m + 1) s s1 toks1 hs hl hr hne1).2⟩

/-- Witness for C17: two rounds on the lines `"one"`, `"  two"`, `"three"`. -/
theorem lockstep_invariant_witness :
    (∃ toks s, pullRounds 2 (AtomicML.new ["one", "  two", "three"] 0) = .ok (toks, s)) ∧
    ∀ toks s, pullRounds 2 (AtomicML.new ["one", "  two", "three"] 0) = .ok (toks, s) →
      Token.END ∉ toks →
      s.nodes.length + 1 = s.stack.length ∧
      (∃ p s1, parseNode s = .ok (p, s1)) ∧
      ∀ p s1, parseNode s = .ok (p, s1) →
        ∃ m toks1, pullRounds (m + 1) s = .ok (toks1, s1) ∧
          (Token.END ∉ toks1 → s1.nodes.length + 1 = s1.stack.length) :=
  lockstep_invariant ["one", "  two", "three"] 0 2 (by decide)

/-- C17 as stated fails at the single line of `2^28` tabs followed by `x`: the
first token `parseNode` pulls is never processed, since `nextToken` reads below
the only entry of the indent stack; no round of the loop is completed and the
call fails. -/
theorem no_round_on_wrapped_column :
    pullRounds 1 (AtomicML.new [tabsLine 268435456 "x"] 0) = .error .outOfRange ∧
    parseNode (AtomicML.new [tabsLine 268435456 "x"] 0) = .error .outOfRange :=
  ⟨pullRounds_fails 0 _ _ (nextToken_wrapped_line [] 0), parseNode_wrapped_line [] 0⟩

/-! ### `NULL` is returned only at the end, and for good -/

theorem onToken_returned_pointer (tok : Token) (d : String) (s : AtomicML)
    (hne : tok ≠ Token.END) :
    (onToken tok d s).map (Sum.elim (fun _ => true) (fun q => q.1.isSome))
      = (onToken tok d s).map (fun _ => true) := by
  cases tok
  case END => exact absurd rfl hne
  all_goals
    unfold onToken
    simp only [except_map_bind, except_map_ite, except_map_ok, Sum.elim_inl, Sum.elim_inr,
      Option.isSome_some]

theorem onToken_null_inv (tok : Token) (d : String) (u s1 : AtomicML)
    (h : onToken tok d u = .ok (.inr (none, s1))) :
    tok = Token.END ∧ u.nodes = [] ∧ s1 = u := by
  by_cases he : tok = Token.END
  · subst he
    cases hn : u.nodes with
    | nil =>
      simp only [onToken, hn, List.length_nil, ne_eq, not_true_eq_false, if_false,
        Except.ok.injEq, Sum.inr.injEq, Prod.mk.injEq, true_and] at h
      exact ⟨rfl, rfl, h.symm⟩
    | cons a rest =>
      simp [onToken, hn, at_, pop_back, bind, Except.bind] at h
  · have := onToken_returned_pointer tok d u he
    rw [h] at this
    simp [Except.map] at this

theorem parseLoop_null_inv (f : Nat) :
    ∀ (s s1 : AtomicML), parseLoop f s = .ok (none, s1) →
      nextToken s1 = .ok (Token.END, "", s1) ∧ s1.nodes = [] := by
  induction f with
  | zero => intro s s1 h; simp [parseLoop] at h
  | succ f ih =>
    intro s s1 h
    unfold parseLoop at h
    cases hp : pullToken s with
    | error e => simp [hp] at h
    | ok r =>
      cases r with
      | inl s2 =>
        simp only [hp] at h
        exact ih s2 s1 h
      | inr q =>
        simp only [hp, Except.ok.injEq] at h
        subst h
        obtain ⟨tok, d, u, hn, ho⟩ := pullToken_cases s _ hp
        obtain ⟨rfl, hnodes, rfl⟩ := onToken_null_inv tok d u s1 ho
        obtain ⟨hm, hsrc, -, hu⟩ := nextToken_end_inv s s1 d hn
        subst hu
        exact ⟨nextToken_end s1 hm hsrc, hnodes⟩

theorem parseNode_of_end_empty (s : AtomicML) (h : nextToken s = .ok (Token.END, "", s))
    (hn : s.nodes = []) : parseNode s = .ok (none, s) := by
  obtain ⟨hm, hsrc, -, -⟩ := nextToken_end_inv s s "" h
  exact parseNode_at_end_empty s hm hsrc hn

/-- C11: `NULL` is permanent.  When a `parseNode` call returns `NULL`, the
session it leaves is one in which `nextToken` returns `END` and the ancestor
stack is empty (so `NULL` is returned only on `END` with an empty ancestor
stack), and every later `parseNode` call returns `NULL` again and leaves the
session unchanged. -/
theorem null_is_permanent (s s1 : AtomicML) (h : parseNode s = .ok (none, s1)) :
    nextToken s1 = .ok (Token.END, "", s1) ∧ s1.nodes = [] ∧
    (∀ n, parseCalls n s1 = .ok (List.replicate n none, s1)) ∧
    (∀ n, parseNodes n s1 = .ok (List.replicate n none, s1)) := by
  obtain ⟨he, hn⟩ := parseLoop_null_inv _ s s1 h
  have hp := parseNode_of_end_empty s1 he hn
  refine ⟨he, hn, ?_, ?_⟩
  · intro n
    induction n with
    | zero => rfl
    | succ n ih => simp [parseCalls, hp, ih, bind, Except.bind, List.replicate_succ]
  · intro n
    induction n with
    | zero => rfl
    | succ n ih => exact parseNodes_none n s1 s1 s1 _ hp ih

/-- Witness for C11: the session left by the second call on the line `"one"`. -/
theorem null_is_permanent_witness :
    nextToken ⟨[-1, 0], State.INDENTING, 0, "one", [], [], [⟨"one", none, none, none⟩]⟩
      = .ok (Token.END, "", ⟨[-1, 0], State.INDENTING, 0, "one", [], [],
          [⟨"one", none, none, none⟩]⟩) ∧
    (⟨[-1, 0], State.INDENTING, 0, "one", [], [], [⟨"one", none, none, none⟩]⟩ :
      AtomicML).nodes = [] ∧
    (∀ n, parseCalls n ⟨[-1, 0], State.INDENTING, 0, "one", [], [], [⟨"one", none, none, none⟩]⟩
      = .ok (List.replicate n none, ⟨[-1, 0], State.INDENTING, 0, "one", [], [],
          [⟨"one", none, none, none⟩]⟩)) ∧
    (∀ n, parseNodes n ⟨[-1, 0], State.INDENTING, 0, "one", [], [], [⟨"one", none, none, none⟩]⟩
      = .ok (List.replicate n none, ⟨[-1, 0], State.INDENTING, 0, "one", [], [],
          [⟨"one", none, none, none⟩]⟩)) :=
  null_is_permanent ⟨[-1, 0], State.INDENTING, 0, "one", [], [], [⟨"one", none, none, none⟩]⟩
    _ rfl

/-! ### Rendering -/

theorem toString_of_read (f : Nat) :
    (∀ (h : Heap) (p : Ptr) (t : NodeTree) (pre : String), readNode f h p = some t →
      Node.toString f h p pre = .ok (render pre t)) ∧
    (∀ (h : Heap) (o : Option Ptr) (cs : List NodeTree) (pre2 out : String),
      readChain f h o = some cs →
      Node.toStringLoop f h o pre2 out = .ok (out ++ renderChildren pre2 cs)) := by
  induction f with
  | zero =>
    constructor
    · intro h p t pre hr; simp [readNode] at hr
    · intro h o cs pre2 out hr; simp [readChain] at hr
  | succ f ih =>
    obtain ⟨ih1, ih2⟩ := ih
    constructor
    · intro h p t pre hr
      unfold readNode at hr
      cases hp : h[p]? with
      | none => simp [hp] at hr
      | some n =>
        cases hc : readChain f h n.first with
        | none => simp [hp, hc] at hr
        | some cs =>
          simp only [hp, hc, Option.some.injEq] at hr
          subst hr
          unfold Node.toString
          simp only [Heap.read, hp, bind, Except.bind]
          rw [ih2 h n.first cs _ _ hc]
          simp [render, String.append_assoc]
    · intro h o cs pre2 out hr
      cases o with
      | none =>
        simp only [readChain, Option.some.injEq] at hr
        subst hr
        simp [Node.toStringLoop, renderChildren]
      | some c =>
        unfold readChain at hr
        cases hn : readNode f h c with
        | none => simp [hn] at hr
        | some t =>
          cases hp : h[c]? with
          | none => simp [hn, hp] at hr
          | some n =>
            cases hc : readChain f h n.next with
            | none => simp [hn, hp, hc] at hr
            | some ts =>
              simp only [hn, hp, hc, Option.some.injEq] at hr
              subst hr
              unfold Node.toStringLoop
              simp only [ih1 h c t pre2 hn, Heap.read, hp, bind, Except.bind]
              rw [ih2 h n.next ts _ _ hc]
              simp [renderChildren, String.append_assoc]

theorem joinLines_cons (a : String) (ls : List String) :
    joinLines (a :: ls) = a ++ prefixedLines ls := by
  induction ls generalizing a with
  | nil => simp [joinLines, prefixedLines]
  | cons b rest ih =>
    rw [joinLines, ih b]
    simp [prefixedLines, String.append_assoc]
    intro h
    cases h

theorem prefixedLines_append (xs ys : List String) :
    prefixedLines (xs ++ ys) = prefixedLines xs ++ prefixedLines ys := by
  induction xs with
  | nil => simp [prefixedLines]
  | cons a rest ih => simp [prefixedLines, ih, String.append_assoc]

theorem spaces_succ (d : Nat) :
    String.mk (List.replicate (2 * d) ' ') ++ "  "
      = String.mk (List.replicate (2 * (d + 1)) ' ') := by
  apply String.ext
  rw [String.data_append]
  show List.replicate (2 * d) ' ' ++ [' ', ' '] = List.replicate (2 * (d + 1)) ' '
  rw [show 2 * (d + 1) = 2 * d + 2 by ring, List.replicate_add]
  rfl

mutual
theorem render_lines : ∀ (t : NodeTree) (pre : String) (d : Nat),
    render (pre ++ String.mk (List.replicate (2 * d) ' ')) t
      = joinLines ((depthLabels d t).map (lineOf pre))
  | .node label children, pre, d => by
    have e : pre ++ String.mk (List.replicate (2 * d) ' ') ++ "  "
        = pre ++ String.mk (List.replicate (2 * (d + 1)) ' ') := by
      rw [String.append_assoc, spaces_succ]
    rw [depthLabels, List.map_cons, joinLines_cons, render, e,
      renderChildren_lines children pre (d + 1)]
    rfl
theorem renderChildren_lines : ∀ (cs : List NodeTree) (pre : String) (d : Nat),
    renderChildren (pre ++ String.mk (List.replicate (2 * d) ' ')) cs
      = prefixedLines ((depthLabelsList d cs).map (lineOf pre))
  | [], _, _ => rfl
  | c :: cs, pre, d => by
    rw [renderChildren, depthLabelsList, List.map_append, prefixedLines_append,
      render_lines c pre d, renderChildren_lines cs pre d]
    cases c with
    | node label children =>
      rw [depthLabels, List.map_cons, joinLines_cons]
      simp [prefixedLines, String.append_assoc]
end

mutual
theorem depthLabels_labels : ∀ (t : NodeTree) (d : Nat),
    (depthLabels d t).map Prod.snd = preorder t
  | .node label children, d => by
    rw [depthLabels, preorder, List.map_cons, depthLabelsList_labels children (d + 1)]
theorem depthLabelsList_labels : ∀ (cs : List NodeTree) (d : Nat),
    (depthLabelsList d cs).map Prod.snd = preorderList cs
  | [], _ => rfl
  | c :: cs, d => by
    rw [depthLabelsList, preorderList, List.map_append, depthLabels_labels c d,
      depthLabelsList_labels cs d]
end

theorem render_eq_joinLines (t : NodeTree) (pre : String) :
    render pre t = joinLines ((depthLabels 0 t).map (lineOf pre)) := by
  have h := render_lines t pre 0
  have e : pre ++ String.mk (List.replicate (2 * 0) ' ') = pre := by
    apply String.ext
    simp [String.data_append]
  rw [e] at h
  exact h

theorem lineOf_no_newline (pre : String) (e : Nat × String) (hp : '\n' ∉ pre.data)
    (he : '\n' ∉ e.2.data) : '\n' ∉ (lineOf pre e).data := by
  unfold lineOf
  rw [String.data_append, String.data_append]
  intro h
  rcases List.mem_append.1 h with h1 | h1
  · rcases List.mem_append.1 h1 with h2 | h2
    · exact hp h2
    · have := List.eq_of_mem_replicate h2
      exact absurd this (by decide)
  · exact he h1

/-! ### Sibling chains and `addChild` -/

theorem childPtrs_cons_inv (f : Nat) (h : Heap) (o : Option Ptr) (a : Ptr) (rest : List Ptr)
    (hc : childPtrs f h o = some (a :: rest)) :
    ∃ g n, f = g + 1 ∧ o = some a ∧ h[a]? = some n ∧ childPtrs g h n.next = some rest := by
  cases f with
  | zero => simp [childPtrs] at hc
  | succ g =>
    cases o with
    | none => simp [childPtrs] at hc
    | some c =>
      unfold childPtrs at hc
      cases hn : h[c]? with
      | none => simp [hn] at hc
      | some n =>
        cases hr : childPtrs g h n.next with
        | none => simp [hn, hr] at hc
        | some r =>
          simp only [hn, hr, Option.some.injEq, List.cons.injEq] at hc
          obtain ⟨rfl, rfl⟩ := hc
          exact ⟨g, n, rfl, rfl, hn, hr⟩

theorem childPtrs_nil_inv (f : Nat) (h : Heap) (o : Option Ptr)
    (hc : childPtrs f h o = some []) : ∃ g, f = g + 1 ∧ o = none := by
  cases f with
  | zero => simp [childPtrs] at hc
  | succ g =>
    cases o with
    | none => exact ⟨g, rfl, rfl⟩
    | some c =>
      unfold childPtrs at hc
      cases hn : h[c]? with
      | none => simp [hn] at hc
      | some n =>
        cases hr : childPtrs g h n.next with
        | none => simp [hn, hr] at hc
        | some r => simp [hn, hr] at hc

theorem childPtrs_agree (f : Nat) :
    ∀ (g : Nat) (h : Heap) (o : Option Ptr) (x y : List Ptr),
      childPtrs f h o = some x → childPtrs g h o = some y → x = y := by
  induction f with
  | zero => intro g h o x y hx; simp [childPtrs] at hx
  | succ f ih =>
    intro g h o x y hx hy
    cases x with
    | nil =>
      obtain ⟨_, _, rfl⟩ := childPtrs_nil_inv _ h o hx
      cases y with
      | nil => rfl
      | cons b r =>
        obtain ⟨_, _, _, ho, _⟩ := childPtrs_cons_inv _ h _ b r hy
        cases ho
    | cons a rest =>
      obtain ⟨f1, n, hf, rfl, hn, hr⟩ := childPtrs_cons_inv _ h o a rest hx
      cases y with
      | nil =>
        obtain ⟨_, _, ho⟩ := childPtrs_nil_inv _ h _ hy
        cases ho
      | cons b r =>
        obtain ⟨g1, n1, hg, ho, hn1, hr1⟩ := childPtrs_cons_inv _ h _ b r hy
        simp only [Option.some.injEq] at ho
        subst ho
        rw [hn] at hn1
        simp only [Option.some.injEq] at hn1
        subst hn1
        have hf1 : f1 = f := by omega
        subst hf1
        rw [ih g1 h n.next rest r hr hr1]

theorem childPtrs_suffix (A : List Ptr) :
    ∀ (f : Nat) (h : Heap) (o : Option Ptr) (p : Ptr) (B : List Ptr),
      childPtrs f h o = some (A ++ p :: B) → ∃ g, childPtrs g h (some p) = some (p :: B) := by
  induction A with
  | nil => intro f h o p B hc; obtain ⟨_, _, _, rfl, _, _⟩ := childPtrs_cons_inv f h o p B hc
           exact ⟨f, hc⟩
  | cons a A ih =>
    intro f h o p B hc
    obtain ⟨g, n, _, _, _, hr⟩ := childPtrs_cons_inv f h o a (A ++ p :: B) hc
    exact ih g h n.next p B hr

theorem childPtrs_nodup (f : Nat) :
    ∀ (h : Heap) (o : Option Ptr) (cs : List Ptr), childPtrs f h o = some cs → cs.Nodup := by
  induction f with
  | zero => intro h o cs hc; simp [childPtrs] at hc
  | succ f ih =>
    intro h o cs hc
    cases cs with
    | nil => exact List.nodup_nil
    | cons a rest =>
      obtain ⟨g, n, hg, rfl, hn, hr⟩ := childPtrs_cons_inv _ h o a rest hc
      have hfg : g = f := by omega
      subst hfg
      refine List.nodup_cons.2 ⟨?_, ih h n.next rest hr⟩
      intro hmem
      obtain ⟨A, B, hAB⟩ := List.append_of_mem hmem
      rw [hAB] at hr
      obtain ⟨g2, h2⟩ := childPtrs_suffix A g h n.next a B hr
      have := childPtrs_agree _ _ h (some a) _ _ hc h2
      simp only [List.cons.injEq, true_and] at this
      have hlen := congrArg List.length hAB
      rw [this] at hlen
      simp at hlen
      omega

theorem childPtrs_after_link (h h2 : Heap) (l child : Ptr) (m2 : Node)
    (hsame : ∀ c n, c ≠ l → h[c]? = some n → ∃ n2, h2[c]? = some n2 ∧ n2.next = n.next)
    (hl : ∃ n2, h2[l]? = some n2 ∧ n2.next = some child)
    (hchild : h2[child]? = some m2) (hnext : m2.next = none) (init : List Ptr) :
    ∀ (f : Nat) (o : Option Ptr), childPtrs f h o = some (init ++ [l]) → l ∉ init →
      childPtrs (f + 1) h2 o = some (init ++ [l, child]) := by
  induction init with
  | nil =>
    intro f o hc _
    obtain ⟨g, n, rfl, rfl, hn, hr⟩ := childPtrs_cons_inv f h o l [] hc
    obtain ⟨g1, rfl, _⟩ := childPtrs_nil_inv g h n.next hr
    obtain ⟨n2, hn2, hnx⟩ := hl
    simp [childPtrs, hn2, hnx, hchild, hnext]
  | cons a init ih =>
    intro f o hc hnot
    obtain ⟨g, n, rfl, rfl, hn, hr⟩ := childPtrs_cons_inv f h o a (init ++ [l]) hc
    have hal : a ≠ l := fun e => hnot (by simp [e])
    obtain ⟨n2, hn2, hnx⟩ := hsame a n hal hn
    have := ih g n.next hr (fun hm => hnot (List.mem_cons_of_mem _ hm))
    rw [childPtrs, hn2]
    simp only [hnx, this, List.cons_append]

/-- The method `addChild` appends to the sibling chain of the node it is called
on: when the chain of `self` is `cs`, its `last` link is the end of that chain
and `child` is a node outside the chain with no next sibling, the chain
afterwards is `cs` followed by `child`, and `last` is `child`. -/
theorem addChild_appends (h : Heap) (self child : Ptr) (f : Nat) (n m : Node) (cs : List Ptr)
    (hn : h[self]? = some n) (hcs : childPtrs f h n.first = some cs)
    (hlast : n.last = cs.getLast?) (hm : h[child]? = some m) (hnext : m.next = none)
    (hnot : child ∉ cs) :
    ∃ h2 n2, addChild h self child = .ok h2 ∧ h2[self]? = some n2 ∧ n2.data = n.data ∧
      n2.last = some child ∧ childPtrs (f + 1) h2 n2.first = some (cs ++ [child]) := by
  have hself : self < h.length := (List.getElem?_eq_some.1 hn).1
  have hchild : child < h.length := (List.getElem?_eq_some.1 hm).1
  rcases List.eq_nil_or_concat cs with hnil | ⟨init, l, hcons⟩
  · -- no child yet
    subst hnil
    obtain ⟨g, rfl, hfirst⟩ := childPtrs_nil_inv f h n.first hcs
    simp only [List.getLast?_nil] at hlast
    refine ⟨h.set self { n with first := some child, last := some child }, _, ?_,
      List.getElem?_set_self hself, rfl, rfl, ?_⟩
    · simp [addChild, Heap.read, Heap.write, hn, hlast, hself, bind, Except.bind]
    · by_cases e : self = child
      · subst e
        rw [hn] at hm
        simp only [Option.some.injEq] at hm
        subst hm
        simp [childPtrs, List.getElem?_set_self hself, hnext]
      · simp [childPtrs, List.getElem?_set_ne e, hm, hnext]
  · -- link behind the last child
    rw [List.concat_eq_append] at hcons
    subst hcons
    have hnd := childPtrs_nodup f h n.first _ hcs
    have hlinit : l ∉ init := by
      intro hmem
      have := List.nodup_append.1 hnd
      exact this.2.2 hmem (by simp)
    have hcl : child ≠ l := fun e => hnot (by simp [e])
    replace hlast : n.last = some l := by rw [hlast]; simp
    obtain ⟨gl, hgl⟩ := childPtrs_suffix init f h n.first l [] hcs
    obtain ⟨_, ln, _, _, hln, _⟩ := childPtrs_cons_inv gl h (some l) l [] hgl
    have hl : l < h.length := (List.getElem?_eq_some.1 hln).1
    have hself1 : self < (h.set l { ln with next := some child }).length := by
      rw [List.length_set]; exact hself
    -- the node read back at `self` after the first store
    obtain ⟨n1, hn1, hn1d, hn1f, hn1n⟩ : ∃ n1, (h.set l { ln with next := some child })[self]?
        = some n1 ∧ n1.data = n.data ∧ n1.first = n.first ∧
          (self ≠ l → n1.next = n.next) := by
      by_cases e : l = self
      · subst e
        rw [hn] at hln
        simp only [Option.some.injEq] at hln
        subst hln
        exact ⟨_, List.getElem?_set_self hl, rfl, rfl, fun h => absurd rfl h⟩
      · exact ⟨n, by rw [List.getElem?_set_ne e]; exact hn, rfl, rfl, fun _ => rfl⟩
    have hfinal : ∀ c : Ptr, c ≠ self → c ≠ l →
        ((h.set l { ln with next := some child }).set self { n1 with last := some child })[c]?
          = h[c]? := by
      intro c h1 h2
      rw [List.getElem?_set_ne (Ne.symm h1), List.getElem?_set_ne (Ne.symm h2)]
    have hatself :
        ((h.set l { ln with next := some child }).set self { n1 with last := some child })[self]?
          = some { n1 with last := some child } := List.getElem?_set_self hself1
    refine ⟨(h.set l { ln with next := some child }).set self { n1 with last := some child },
      _, ?_, hatself, hn1d, rfl, ?_⟩
    · simp [addChild, Heap.read, Heap.write, hn, hlast, hln, hl, hn1, hself, bind,
        Except.bind]
    · have key : childPtrs (f + 1)
          ((h.set l { ln with next := some child }).set self { n1 with last := some child })
          n.first = some (init ++ [l, child]) := ?_
      · simpa [hn1f] using key
      refine childPtrs_after_link h
        ((h.set l { ln with next := some child }).set self { n1 with last := some child })
        l child
        (if child = self then { n1 with last := some child } else m) ?_ ?_ ?_ ?_ init f n.first
        hcs hlinit
      · intro c nc hc1 hc2
        by_cases e : c = self
        · subst e
          rw [hn] at hc2
          simp only [Option.some.injEq] at hc2
          subst hc2
          exact ⟨_, hatself, hn1n hc1⟩
        · refine ⟨nc, ?_, rfl⟩
          rw [hfinal c e hc1]
          exact hc2
      · by_cases e : l = self
        · subst e
          refine ⟨_, hatself, ?_⟩
          rw [hn] at hln
          simp only [Option.some.injEq] at hln
          subst hln
          rw [List.getElem?_set_self hl] at hn1
          simp only [Option.some.injEq] at hn1
          subst hn1
          rfl
        · refine ⟨{ ln with next := some child }, ?_, rfl⟩
          rw [List.getElem?_set_ne (Ne.symm e), List.getElem?_set_self hl]
      · by_cases e : child = self
        · subst e
          rw [if_pos rfl]
          exact hatself
        · rw [if_neg e, hfinal child e hcl]
          exact hm
      · by_cases e : child = self
        · subst e
          rw [if_pos rfl]
          show n1.next = none
          rw [hn1n hcl, ← hnext]
          rw [hn] at hm
          simp only [Option.some.injEq] at hm
          rw [hm]
        · rw [if_neg e]
          exact hnext

theorem readChain_children (f : Nat) :
    ∀ (h : Heap) (o : Option Ptr) (ts : List NodeTree), readChain f h o = some ts →
      ∃ cs, childPtrs f h o = some cs ∧
        List.Forall₂ (fun c t => ∃ k, readNode k h c = some t) cs ts := by
  induction f with
  | zero => intro h o ts hr; simp [readChain] at hr
  | succ f ih =>
    intro h o ts hr
    cases o with
    | none =>
      simp only [readChain, Option.some.injEq] at hr
      subst hr
      exact ⟨[], rfl, List.Forall₂.nil⟩
    | some c =>
      unfold readChain at hr
      cases hn : readNode f h c with
      | none => simp [hn] at hr
      | some t =>
        cases hp : h[c]? with
        | none => simp [hn, hp] at hr
        | some n =>
          cases hc : readChain f h n.next with
          | none => simp [hn, hp, hc] at hr
          | some rest =>
            simp only [hn, hp, hc, Option.some.injEq] at hr
            subst hr
            obtain ⟨cs, hcs, hall⟩ := ih h n.next rest hc
            exact ⟨c :: cs, by simp [childPtrs, hp, hcs], List.Forall₂.cons ⟨f, hn⟩ hall⟩

theorem readNode_inv (f : Nat) (h : Heap) (p : Ptr) (label : String)
    (children : List NodeTree) (hr : readNode f h p = some (.node label children)) :
    ∃ g n, f = g + 1 ∧ h[p]? = some n ∧ n.data = label ∧
      readChain g h n.first = some children := by
  cases f with
  | zero => simp [readNode] at hr
  | succ g =>
    unfold readNode at hr
    cases hp : h[p]? with
    | none => simp [hp] at hr
    | some n =>
      cases hc : readChain g h n.first with
      | none => simp [hp, hc] at hr
      | some cs =>
        simp only [hp, hc, Option.some.injEq, NodeTree.node.injEq] at hr
        obtain ⟨rfl, rfl⟩ := hr
        exact ⟨g, n, rfl, rfl, rfl, hc⟩

/-- C14: node rendering.  For a node at `p` whose subtree reads as the tree
`label`/`children`, `toString(pre)` is `pre ++ label` followed, for each child
in order, by a newline and that child's `toString(pre ++ "  ")`; the children
are the nodes of the sibling chain of `p` in chain order, and `addChild`
appends to that chain.  Hence the rendering is the lines of the nodes in
preorder joined by newlines, the node at depth `d` on the line
`pre ++ (2*d spaces) ++ label`, and no such line contains a newline when the
prefix and the labels contain none. -/
theorem node_rendering (f : Nat) (h : Heap) (p : Ptr) (label : String)
    (children : List NodeTree) (pre : String)
    (hread : readNode f h p = some (.node label children)) :
    Node.toString f h p pre = .ok (pre ++ label ++ renderChildren (pre ++ "  ") children) ∧
    (∃ n cs g, h[p]? = some n ∧ n.data = label ∧ childPtrs g h n.first = some cs ∧
      List.Forall₂ (fun c t => ∃ k, readNode k h c = some t ∧
        ∀ q, Node.toString k h c q = .ok (render q t)) cs children ∧
      ∀ child m, n.last = cs.getLast? → h[child]? = some m → m.next = none → child ∉ cs →
        ∃ h2 n2, addChild h p child = .ok h2 ∧ h2[p]? = some n2 ∧ n2.data = label ∧
          n2.last = some child ∧ childPtrs (g + 1) h2 n2.first = some (cs ++ [child])) ∧
    render pre (.node label children)
      = joinLines ((depthLabels 0 (.node label children)).map (lineOf pre)) ∧
    (depthLabels 0 (.node label children)).map Prod.snd = preorder (.node label children) ∧
    ('\n' ∉ pre.data → (∀ l ∈ preorder (.node label children), '\n' ∉ l.data) →
      ∀ line ∈ (depthLabels 0 (.node label children)).map (lineOf pre), '\n' ∉ line.data) := by
  obtain ⟨g, n, rfl, hn, hd, hc⟩ := readNode_inv f h p label children hread
  obtain ⟨cs, hcs, hall⟩ := readChain_children g h n.first children hc
  refine ⟨?_, ⟨n, cs, g, hn, hd, hcs, ?_, ?_⟩, render_eq_joinLines _ pre,
    depthLabels_labels _ 0, ?_⟩
  · have := (toString_of_read (g + 1)).1 h p _ pre hread
    simpa [render] using this
  · exact hall.imp fun c t ⟨k, hk⟩ => ⟨k, hk, fun q => (toString_of_read k).1 h c t q hk⟩
  · intro child m hlast hm hnext hnot
    obtain ⟨h2, n2, ha, hs, hd2, hl2, hc2⟩ :=
      addChild_appends h p child g n m cs hn hcs hlast hm hnext hnot
    exact ⟨h2, n2, ha, hs, hd2.trans hd, hl2, hc2⟩
  · intro hp hl line hline
    obtain ⟨e, he, rfl⟩ := List.mem_map.1 hline
    refine lineOf_no_newline pre e hp (hl e.2 ?_)
    rw [← depthLabels_labels _ 0]
    exact List.mem_map.2 ⟨e, he, rfl⟩

/-- Witness for C14: the node `"one"` with the single child `"two"`, as built
by `new Node("one")`, `new Node("two")`, `one->addChild(two)`, renders with the
prefix `""` as `"one\n  two"`. -/
theorem node_rendering_witness :
    Node.toString 4 [⟨"one", some 1, some 1, none⟩, ⟨"two", none, none, none⟩] 0 ""
      = .ok ("" ++ "one" ++ renderChildren ("" ++ "  ") [.node "two" []]) ∧
    (∃ n cs g, ([⟨"one", some 1, some 1, none⟩, ⟨"two", none, none, none⟩] : Heap)[0]? = some n ∧
      n.data = "one" ∧
      childPtrs g [⟨"one", some 1, some 1, none⟩, ⟨"two", none, none, none⟩] n.first = some cs ∧
      List.Forall₂ (fun c t => ∃ k,
        readNode k [⟨"one", some 1, some 1, none⟩, ⟨"two", none, none, none⟩] c = some t ∧
        ∀ q, Node.toString k [⟨"one", some 1, some 1, none⟩, ⟨"two", none, none, none⟩] c q
          = .ok (render q t)) cs [.node "two" []] ∧
      ∀ child m, n.last = cs.getLast? →
        ([⟨"one", some 1, some 1, none⟩, ⟨"two", none, none, none⟩] : Heap)[child]? = some m →
        m.next = none → child ∉ cs →
        ∃ h2 n2, addChild [⟨"one", some 1, some 1, none⟩, ⟨"two", none, none, none⟩] 0 child
            = .ok h2 ∧ h2[0]? = some n2 ∧ n2.data = "one" ∧
          n2.last = some child ∧ childPtrs (g + 1) h2 n2.first = some (cs ++ [child])) ∧
    render "" (.node "one" [.node "two" []])
      = joinLines ((depthLabels 0 (.node "one" [.node "two" []])).map (lineOf "")) ∧
    (depthLabels 0 (.node "one" [.node "two" []])).map Prod.snd
      = preorder (.node "one" [.node "two" []]) ∧
    ('\n' ∉ "".data → (∀ l ∈ preorder (.node "one" [.node "two" []]), '\n' ∉ l.data) →
      ∀ line ∈ (depthLabels 0 (.node "one" [.node "two" []])).map (lineOf ""),
        '\n' ∉ line.data) :=
  node_rendering 4 [⟨"one", some 1, some 1, none⟩, ⟨"two", none, none, none⟩] 0 "one"
    [.node "two" []] "" rfl

theorem testNode_renders :
    addChild [⟨"one", none, none, none⟩, ⟨"two", none, none, none⟩] 0 1
      = .ok [⟨"one", some 1, some 1, none⟩, ⟨"two", none, none, none⟩] ∧
    Node.toString 4 [⟨"one", some 1, some 1, none⟩, ⟨"two", none, none, none⟩] 0 ""
      = .ok "one\n  two" :=
  ⟨rfl, rfl⟩

/-! ### Laid-out trees: sizes and reading back -/

theorem size_pos (t : NodeTree) : 0 < size t := by
  cases t with
  | node label children => rw [size]; omega

theorem sizeList_append (xs ys : List NodeTree) :
    sizeList (xs ++ ys) = sizeList xs + sizeList ys := by
  induction xs with
  | nil => simp [sizeList]
  | cons c cs ih => simp [sizeList, ih]; omega

mutual
theorem length_layout : ∀ (t : NodeTree) (a : Nat) (nxt : Option Ptr),
    (layout a nxt t).length = size t
  | .node label children, a, nxt => by
    rw [layout, size, List.length_cons, length_layoutList children (a + 1) none]
    omega
theorem length_layoutList : ∀ (cs : List NodeTree) (a : Nat) (nxt : Option Ptr),
    (layoutList a nxt cs).length = sizeList cs
  | [], _, _ => rfl
  | c :: cs, a, nxt => by
    rw [layoutList, sizeList, List.length_append, length_layout c, length_layoutList cs]
end

theorem getElem?_mid {α : Type} (P X Q : List α) (x : α) :
    (P ++ (x :: X) ++ Q)[P.length]? = some x := by
  rw [List.append_assoc, List.getElem?_append_right (le_refl _)]
  simp

theorem layout_root (t : NodeTree) (a : Nat) (nxt : Option Ptr) :
    ∃ n X, layout a nxt t = n :: X ∧ n.next = nxt := by
  cases t with
  | node label children => exact ⟨_, _, by rw [layout], rfl⟩

mutual
theorem read_layout : ∀ (t : NodeTree) (P Q : List Node) (nxt : Option Ptr) (f : Nat),
    2 * size t ≤ f → readNode f (P ++ layout P.length nxt t ++ Q) P.length = some t
  | .node label children, P, Q, nxt, f, hf => by
    rw [size] at hf
    obtain ⟨g, rfl⟩ : ∃ g, f = g + 1 := ⟨f - 1, by omega⟩
    have hr := read_layoutList children (P ++ [(⟨label, linkOf children none (P.length + 1),
      linkOf children none (P.length + 1 + sizeList children.dropLast), nxt⟩ : Node)]) Q g
      (by omega)
    rw [layout, readNode, getElem?_mid]
    simp only [List.length_append, List.length_singleton, List.append_assoc,
      List.singleton_append] at hr
    simp only [List.append_assoc, List.cons_append] at hr ⊢
    rw [hr]
theorem read_layoutList : ∀ (cs : List NodeTree) (P Q : List Node) (f : Nat),
    2 * sizeList cs + 1 ≤ f →
    readChain f (P ++ layoutList P.length none cs ++ Q) (linkOf cs none P.length) = some cs
  | [], P, Q, f, hf => by
    obtain ⟨g, rfl⟩ : ∃ g, f = g + 1 := ⟨f - 1, by omega⟩
    simp [linkOf, readChain]
  | c :: cs, P, Q, f, hf => by
    rw [sizeList] at hf
    have hc := size_pos c
    obtain ⟨g, rfl⟩ : ∃ g, f = g + 1 := ⟨f - 1, by omega⟩
    have h1 := read_layout c P (layoutList (P.length + size c) none cs ++ Q)
      (linkOf cs none (P.length + size c)) g (by omega)
    have h2 := read_layoutList cs (P ++ layout P.length (linkOf cs none (P.length + size c)) c)
      Q g (by omega)
    rw [List.length_append, length_layout] at h2
    obtain ⟨n, X, hX, hnx⟩ := layout_root c P.length (linkOf cs none (P.length + size c))
    have hcell : (P ++ layoutList P.length none (c :: cs) ++ Q)[P.length]? = some n := by
      rw [layoutList, hX]
      simp only [List.cons_append, List.append_assoc]
      rw [List.getElem?_append_right (le_refl _)]
      simp
    have hheap : P ++ layoutList P.length none (c :: cs) ++ Q
        = P ++ layout P.length (linkOf cs none (P.length + size c)) c
            ++ (layoutList (P.length + size c) none cs ++ Q) := by
      rw [layoutList]
      simp only [List.append_assoc]
    show readChain (g + 1) _ (some P.length) = _
    rw [readChain, hcell]
    simp only [hnx]
    rw [hheap, h1]
    simp only [List.append_assoc] at h2 ⊢
    rw [h2]
end

theorem treeAt_layout (t : NodeTree) (P Q : List Node) :
    treeAt (P ++ layout P.length none t ++ Q) P.length = some t := by
  apply read_layout t P Q none
  simp only [List.length_append, length_layout]
  omega

/-! ### Attaching a node on the rightmost path -/

theorem attachLast_single (j : Nat) (d : String) (c : NodeTree) :
    attachLast j d [c] = [attach j d c] := by
  rw [attachLast]

theorem attachLast_cons2 (j : Nat) (d : String) (c c2 : NodeTree) (rest : List NodeTree) :
    attachLast j d (c :: c2 :: rest) = c :: attachLast j d (c2 :: rest) := by
  rw [attachLast]

theorem spineLenLast_single (c : NodeTree) : spineLenLast [c] = 1 + spineLen c := by
  rw [spineLenLast]

theorem spineLenLast_cons2 (c c2 : NodeTree) (rest : List NodeTree) :
    spineLenLast (c :: c2 :: rest) = spineLenLast (c2 :: rest) := by
  rw [spineLenLast]

theorem pathAddrLast_single (a j : Nat) (c : NodeTree) :
    pathAddrLast a j [c] = pathAddr a j c := by
  rw [pathAddrLast]

theorem pathAddrLast_cons2 (a j : Nat) (c c2 : NodeTree) (rest : List NodeTree) :
    pathAddrLast a j (c :: c2 :: rest) = pathAddrLast (a + size c) j (c2 :: rest) := by
  rw [pathAddrLast]

theorem attachLast_ne_nil (j : Nat) (d : String) (c : NodeTree) (cs : List NodeTree) :
    ∃ c1 cs1, attachLast j d (c :: cs) = c1 :: cs1 := by
  cases cs with
  | nil => exact ⟨_, _, attachLast_single j d c⟩
  | cons c2 rest => exact ⟨_, _, attachLast_cons2 j d c c2 rest⟩

mutual
theorem size_attach : ∀ (t : NodeTree) (j : Nat) (d : String), j ≤ spineLen t →
    size (attach j d t) = size t + 1
  | .node label children, 0, d, _ => by
    rw [attach, size, size, sizeList_append]
    simp [sizeList, size]
    omega
  | .node label children, j + 1, d, h => by
    rw [spineLen] at h
    rw [attach, size, size, sizeList_attachLast children j d h]
    omega
theorem sizeList_attachLast : ∀ (cs : List NodeTree) (j : Nat) (d : String),
    j + 1 ≤ spineLenLast cs → sizeList (attachLast j d cs) = sizeList cs + 1
  | [], j, d, h => by simp [spineLenLast] at h
  | [c], j, d, h => by
    rw [spineLenLast_single] at h
    rw [attachLast_single, sizeList, sizeList, size_attach c j d (by omega)]
    simp [sizeList]
  | c :: c2 :: rest, j, d, h => by
    rw [spineLenLast_cons2] at h
    rw [attachLast_cons2, sizeList, sizeList_attachLast (c2 :: rest) j d h]
    simp only [sizeList]
    omega
end

mutual
theorem preorder_attach : ∀ (t : NodeTree) (j : Nat) (d : String), j ≤ spineLen t →
    preorder (attach j d t) = preorder t ++ [d]
  | .node label children, 0, d, _ => by
    have : ∀ xs : List NodeTree, preorderList (xs ++ [.node d []]) = preorderList xs ++ [d] := by
      intro xs
      induction xs with
      | nil => simp [preorderList, preorder]
      | cons x xs ih => simp [preorderList, ih]
    rw [attach, preorder, preorder, this]
    rfl
  | .node label children, j + 1, d, h => by
    rw [spineLen] at h
    rw [attach, preorder, preorder, preorderList_attachLast children j d h]
    rfl
theorem preorderList_attachLast : ∀ (cs : List NodeTree) (j : Nat) (d : String),
    j + 1 ≤ spineLenLast cs → preorderList (attachLast j d cs) = preorderList cs ++ [d]
  | [], j, d, h => by simp [spineLenLast] at h
  | [c], j, d, h => by
    rw [spineLenLast_single] at h
    rw [attachLast_single, preorderList, preorderList, preorder_attach c j d (by omega)]
    simp [preorderList]
  | c :: c2 :: rest, j, d, h => by
    rw [spineLenLast_cons2] at h
    rw [attachLast_cons2, preorderList, preorderList_attachLast (c2 :: rest) j d h]
    simp [preorderList]
end

mutual
theorem spineLen_attach : ∀ (t : NodeTree) (j : Nat) (d : String), j ≤ spineLen t →
    spineLen (attach j d t) = j + 1
  | .node label children, 0, d, _ => by
    have : ∀ xs : List NodeTree, spineLenLast (xs ++ [.node d []]) = 1 := by
      intro xs
      induction xs with
      | nil => simp [spineLenLast, spineLen]
      | cons x xs ih =>
        cases xs with
        | nil => simpa [spineLenLast] using ih
        | cons y ys => rw [List.cons_append, List.cons_append, spineLenLast_cons2]; exact ih
    rw [attach, spineLen, this]
  | .node label children, j + 1, d, h => by
    rw [spineLen] at h
    rw [attach, spineLen, spineLenLast_attachLast children j d h]
theorem spineLenLast_attachLast : ∀ (cs : List NodeTree) (j : Nat) (d : String),
    j + 1 ≤ spineLenLast cs → spineLenLast (attachLast j d cs) = j + 2
  | [], j, d, h => by simp [spineLenLast] at h
  | [c], j, d, h => by
    rw [spineLenLast_single] at h
    rw [attachLast_single, spineLenLast_single, spineLen_attach c j d (by omega)]
    omega
  | c :: c2 :: rest, j, d, h => by
    rw [spineLenLast_cons2] at h
    obtain ⟨c1, cs1, e⟩ := attachLast_ne_nil j d c2 rest
    rw [attachLast_cons2, e, spineLenLast_cons2, ← e,
      spineLenLast_attachLast (c2 :: rest) j d h]
end

mutual
theorem pathAddr_attach_le : ∀ (t : NodeTree) (a i j : Nat) (d : String), i ≤ j →
    j ≤ spineLen t → pathAddr a i (attach j d t) = pathAddr a i t
  | .node label children, a, 0, 0, d, _, _ => by
    rw [attach, pathAddr, pathAddr]
  | .node label children, a, 0, j + 1, d, _, _ => by
    rw [attach, pathAddr, pathAddr]
  | .node label children, a, i + 1, 0, d, h, _ => by omega
  | .node label children, a, i + 1, j + 1, d, h, hj => by
    rw [spineLen] at hj
    rw [attach, pathAddr, pathAddr,
      pathAddrLast_attachLast_le children (a + 1) i j d (by omega) hj]
theorem pathAddrLast_attachLast_le : ∀ (cs : List NodeTree) (a i j : Nat) (d : String), i ≤ j →
    j + 1 ≤ spineLenLast cs → pathAddrLast a i (attachLast j d cs) = pathAddrLast a i cs
  | [], a, i, j, d, _, h => by simp [spineLenLast] at h
  | [c], a, i, j, d, hi, h => by
    rw [spineLenLast_single] at h
    rw [attachLast_single, pathAddrLast_single, pathAddrLast_single,
      pathAddr_attach_le c a i j d hi (by omega)]
  | c :: c2 :: rest, a, i, j, d, hi, h => by
    rw [spineLenLast_cons2] at h
    obtain ⟨c1, cs1, e⟩ := attachLast_ne_nil j d c2 rest
    rw [attachLast_cons2, e, pathAddrLast_cons2, ← e, pathAddrLast_cons2,
      pathAddrLast_attachLast_le (c2 :: rest) (a + size c) i j d hi h]
end

theorem pathAddrLast_zero_snoc (xs : List NodeTree) (a : Nat) (x : NodeTree) :
    pathAddrLast a 0 (xs ++ [x]) = a + sizeList xs := by
  induction xs generalizing a with
  | nil =>
    cases x with
    | node l ch => simp [pathAddrLast, pathAddr, sizeList]
  | cons y ys ih =>
    cases ys with
    | nil =>
      have := ih (a + size y)
      simp only [List.nil_append] at this
      rw [List.cons_append, List.nil_append, pathAddrLast_cons2, this]
      simp [sizeList]
    | cons z zs =>
      rw [List.cons_append, List.cons_append, pathAddrLast_cons2, ← List.cons_append, ih]
      simp only [sizeList]
      omega

mutual
theorem pathAddr_attach_new : ∀ (t : NodeTree) (a j : Nat) (d : String), j ≤ spineLen t →
    pathAddr a (j + 1) (attach j d t) = a + size t
  | .node label children, a, 0, d, _ => by
    rw [attach, pathAddr, pathAddrLast_zero_snoc, size]
    omega
  | .node label children, a, j + 1, d, h => by
    rw [spineLen] at h
    rw [attach, pathAddr, pathAddrLast_attachLast_new children (a + 1) j d h, size]
    omega
theorem pathAddrLast_attachLast_new : ∀ (cs : List NodeTree) (a j : Nat) (d : String),
    j + 1 ≤ spineLenLast cs → pathAddrLast a (j + 1) (attachLast j d cs) = a + sizeList cs
  | [], a, j, d, h => by simp [spineLenLast] at h
  | [c], a, j, d, h => by
    rw [spineLenLast_single] at h
    rw [attachLast_single, pathAddrLast_single, pathAddr_attach_new c a j d (by omega)]
    simp [sizeList]
  | c :: c2 :: rest, a, j, d, h => by
    rw [spineLenLast_cons2] at h
    obtain ⟨c1, cs1, e⟩ := attachLast_ne_nil j d c2 rest
    rw [attachLast_cons2, e, pathAddrLast_cons2, ← e,
      pathAddrLast_attachLast_new (c2 :: rest) (a + size c) j d h]
    simp only [sizeList]
    omega
end

theorem dropLast_attachLast : ∀ (cs : List NodeTree) (j : Nat) (d : String),
    j + 1 ≤ spineLenLast cs → (attachLast j d cs).dropLast = cs.dropLast
  | [], j, d, h => by simp [spineLenLast] at h
  | [c], j, d, _ => by rw [attachLast_single]; rfl
  | c :: c2 :: rest, j, d, h => by
    rw [spineLenLast_cons2] at h
    obtain ⟨c1, cs1, e⟩ := attachLast_ne_nil j d c2 rest
    rw [attachLast_cons2, e, List.dropLast_cons₂, ← e, dropLast_attachLast (c2 :: rest) j d h]
    rfl

theorem linkOf_attachLast (cs : List NodeTree) (j : Nat) (d : String) (nxt : Option Ptr)
    (y : Ptr) (h : j + 1 ≤ spineLenLast cs) :
    linkOf (attachLast j d cs) nxt y = linkOf cs nxt y := by
  cases cs with
  | nil => simp [spineLenLast] at h
  | cons c rest =>
    obtain ⟨c1, cs1, e⟩ := attachLast_ne_nil j d c rest
    rw [e]
    rfl

/-! ### `addChild` on a laid-out tree -/

theorem mid_get {α : Type} (P K Q : List α) (r : α) (i : Nat) (hi : i < K.length) :
    (P ++ (r :: K) ++ Q)[P.length + 1 + i]? = K[i]? := by
  rw [List.append_assoc, List.getElem?_append_right (by omega)]
  have e : P.length + 1 + i - P.length = i + 1 := by omega
  rw [e, List.cons_append, List.getElem?_cons_succ, List.getElem?_append_left hi]

theorem mid_set {α : Type} (P K Q : List α) (r x : α) (i : Nat) (hi : i < K.length) :
    (P ++ (r :: K) ++ Q).set (P.length + 1 + i) x = P ++ (r :: K.set i x) ++ Q := by
  rw [List.append_assoc, List.set_append_right _ _ (by omega)]
  have e : P.length + 1 + i - P.length = i + 1 := by omega
  rw [e, List.cons_append, List.set_cons_succ, List.set_append_left _ _ hi]
  simp

theorem root_set {α : Type} (P K Q : List α) (r x : α) :
    (P ++ (r :: K) ++ Q).set P.length x = P ++ (x :: K) ++ Q := by
  rw [List.append_assoc, List.set_append_right _ _ (le_refl _)]
  simp

theorem layout_next (t : NodeTree) (a : Nat) (y : Ptr) :
    ∃ n X, layout a none t = n :: X ∧ layout a (some y) t = { n with next := some y } :: X := by
  cases t with
  | node label children => exact ⟨_, _, by rw [layout], by rw [layout]⟩

theorem layoutList_cons2 (c c2 : NodeTree) (rest : List NodeTree) (a : Nat) (nxt : Option Ptr) :
    layoutList a nxt (c :: c2 :: rest)
      = layout a (some (a + size c)) c ++ layoutList (a + size c) nxt (c2 :: rest) := by
  rw [layoutList]
  rfl

theorem layoutList_snoc : ∀ (cs : List NodeTree) (a : Nat) (x : NodeTree), cs ≠ [] →
    layoutList a none (cs ++ [x])
      = layoutList a (some (a + sizeList cs)) cs ++ layout (a + sizeList cs) none x
  | [], _, _, h => absurd rfl h
  | [c], a, x, _ => by
    simp [layoutList, linkOf, sizeList]
  | c :: c2 :: rest, a, x, _ => by
    have ih := layoutList_snoc (c2 :: rest) (a + size c) x (by simp)
    have e : a + size c + sizeList (c2 :: rest) = a + sizeList (c :: c2 :: rest) := by
      simp only [sizeList]; omega
    rw [e] at ih
    rw [List.cons_append, List.cons_append, layoutList_cons2, ← List.cons_append, ih,
      layoutList_cons2, List.append_assoc]

theorem layoutList_set_next : ∀ (cs : List NodeTree) (b : Nat) (y : Ptr), cs ≠ [] →
    ∃ ln, (layoutList b none cs)[sizeList cs.dropLast]? = some ln ∧ ln.next = none ∧
      layoutList b (some y) cs
        = (layoutList b none cs).set (sizeList cs.dropLast) { ln with next := some y }
  | [], _, _, h => absurd rfl h
  | [c], b, y, _ => by
    obtain ⟨n, X, h1, h2⟩ := layout_next c b y
    obtain ⟨n0, X0, h3, h4⟩ := layout_root c b none
    rw [h1] at h3
    simp only [List.cons.injEq] at h3
    refine ⟨n, ?_, by rw [h3.1]; exact h4, ?_⟩
    · simp [layoutList, linkOf, sizeList, h1]
    · simp [layoutList, linkOf, sizeList, h1, h2]
  | c :: c2 :: rest, b, y, _ => by
    obtain ⟨ln, hg, hn, hs⟩ := layoutList_set_next (c2 :: rest) (b + size c) y (by simp)
    refine ⟨ln, ?_, hn, ?_⟩
    · rw [layoutList_cons2, List.dropLast_cons₂, sizeList]
      rw [List.getElem?_append_right (by rw [length_layout]; omega), length_layout]
      have e : size c + sizeList (c2 :: rest).dropLast - size c
          = sizeList (c2 :: rest).dropLast := by omega
      rw [e]
      exact hg
    · rw [layoutList_cons2, layoutList_cons2, hs, List.dropLast_cons₂, sizeList]
      rw [List.set_append_right _ _ (by rw [length_layout]; omega), length_layout]
      have e : size c + sizeList (c2 :: rest).dropLast - size c
          = sizeList (c2 :: rest).dropLast := by omega
      rw [e]

theorem addChild_none (h : Heap) (self child : Ptr) (n : Node) (hn : h[self]? = some n)
    (hl : n.last = none) :
    addChild h self child
      = .ok (h.set self { n with first := some child, last := some child }) := by
  have hs : self < h.length := (List.getElem?_eq_some.1 hn).1
  simp only [addChild, Heap.read, hn, bind, Except.bind, hl, Heap.write, hs, if_true]

theorem addChild_some (h : Heap) (self child l : Ptr) (n ln : Node) (hn : h[self]? = some n)
    (hl : n.last = some l) (hln : h[l]? = some ln) (hne : l ≠ self) :
    addChild h self child
      = .ok ((h.set l { ln with next := some child }).set self { n with last := some child }) := by
  have hs : self < h.length := (List.getElem?_eq_some.1 hn).1
  have hlt : l < h.length := (List.getElem?_eq_some.1 hln).1
  have h1 : (h.set l { ln with next := some child })[self]? = some n := by
    rw [List.getElem?_set_ne hne]
    exact hn
  simp only [addChild, Heap.read, hn, bind, Except.bind, hl, hln, Heap.write, hlt, if_true, h1,
    List.length_set, hs]

theorem linkOf_ne_nil (cs : List NodeTree) (nxt : Option Ptr) (y : Ptr) (h : cs ≠ []) :
    linkOf cs nxt y = some y := by
  cases cs with
  | nil => exact absurd rfl h
  | cons c rest => rfl

theorem layout_leaf (a : Nat) (nxt : Option Ptr) (d : String) :
    layout a nxt (.node d []) = [⟨d, none, none, nxt⟩] := by
  rw [layout]
  rfl

theorem addChild_layout_zero (label d : String) (children : List NodeTree) (P : List Node)
    (nxt : Option Ptr) :
    addChild (P ++ layout P.length nxt (.node label children) ++ [⟨d, none, none, none⟩])
        P.length (P.length + size (.node label children))
      = .ok (P ++ layout P.length nxt (attach 0 d (.node label children))) := by
  rcases List.eq_nil_or_concat children with hnil | ⟨init, x, hcons⟩
  · subst hnil
    have e1 : layout P.length nxt (.node label []) = [⟨label, none, none, nxt⟩] :=
      layout_leaf _ _ _
    have e2 : attach 0 d (.node label []) = .node label [.node d []] := by
      rw [attach]
      rfl
    have e3 : layout P.length nxt (.node label [.node d []])
        = [⟨label, some (P.length + 1), some (P.length + 1), nxt⟩, ⟨d, none, none, none⟩] := by
      rw [layout, layoutList, layout_leaf]
      rfl
    have e4 : size (.node label []) = 1 := by
      rw [size]
      rfl
    rw [e1, e2, e3, e4, addChild_none _ _ _ _ (getElem?_mid P [] _ _) rfl, root_set]
    simp
  · have hne : children ≠ [] := by
      rw [hcons]
      simp
    have e1 : layout P.length nxt (.node label children)
        = ⟨label, some (P.length + 1), some (P.length + 1 + sizeList children.dropLast), nxt⟩
            :: layoutList (P.length + 1) none children := by
      rw [layout, linkOf_ne_nil _ _ _ hne, linkOf_ne_nil _ _ _ hne]
    have e2 : attach 0 d (.node label children) = .node label (children ++ [.node d []]) := by
      rw [attach]
    have e4 : P.length + size (.node label children) = P.length + 1 + sizeList children := by
      rw [size]
      omega
    have e3 : layout P.length nxt (.node label (children ++ [.node d []]))
        = ⟨label, some (P.length + 1), some (P.length + 1 + sizeList children), nxt⟩
            :: (layoutList (P.length + 1) (some (P.length + 1 + sizeList children)) children
                ++ [⟨d, none, none, none⟩]) := by
      rw [layout, linkOf_ne_nil _ _ _ (by simp), linkOf_ne_nil _ _ _ (by simp),
        List.dropLast_concat, layoutList_snoc _ _ _ hne, layout_leaf]
    obtain ⟨ln, hg, -, hs⟩ :=
      layoutList_set_next children (P.length + 1) (P.length + 1 + sizeList children) hne
    have hi : sizeList children.dropLast < (layoutList (P.length + 1) none children).length :=
      (List.getElem?_eq_some.1 hg).1
    rw [e1, e2, e3, e4,
      addChild_some _ _ _ (P.length + 1 + sizeList children.dropLast) _ ln
        (getElem?_mid P _ _ _) rfl ((mid_get P _ _ _ _ hi).trans hg)
        (Nat.ne_of_gt (Nat.lt_of_lt_of_le (Nat.lt_succ_self _) (Nat.le_add_right _ _))),
      mid_set _ _ _ _ _ _ hi, root_set, ← hs]
    simp

mutual
theorem addChild_layout : ∀ (t : NodeTree) (P : List Node) (nxt : Option Ptr) (j : Nat)
    (d : String), j ≤ spineLen t →
    addChild (P ++ layout P.length nxt t ++ [⟨d, none, none, none⟩])
        (pathAddr P.length j t) (P.length + size t)
      = .ok (P ++ layout P.length nxt (attach j d t))
  | .node label children, P, nxt, 0, d, _ => by
    rw [pathAddr]
    exact addChild_layout_zero label d children P nxt
  | .node label children, P, nxt, j + 1, d, h => by
    rw [spineLen] at h
    have ih := addChild_layoutList children
      (P ++ [⟨label, linkOf children none (P.length + 1),
        linkOf children none (P.length + 1 + sizeList children.dropLast), nxt⟩]) none j d h
    rw [List.length_append, List.length_singleton] at ih
    have e : P.length + 1 + sizeList children = P.length + size (.node label children) := by
      rw [size]
      omega
    rw [e] at ih
    rw [pathAddr, attach, layout, layout, linkOf_attachLast _ _ _ _ _ h,
      linkOf_attachLast _ _ _ _ _ h, dropLast_attachLast _ _ _ h]
    simpa using ih
theorem addChild_layoutList : ∀ (cs : List NodeTree) (P : List Node) (nxt : Option Ptr)
    (j : Nat) (d : String), j + 1 ≤ spineLenLast cs →
    addChild (P ++ layoutList P.length nxt cs ++ [⟨d, none, none, none⟩])
        (pathAddrLast P.length j cs) (P.length + sizeList cs)
      = .ok (P ++ layoutList P.length nxt (attachLast j d cs))
  | [], _, _, j, d, h => by simp [spineLenLast] at h
  | [c], P, nxt, j, d, h => by
    rw [spineLenLast_single] at h
    have ih := addChild_layout c P nxt j d (by omega)
    rw [pathAddrLast_single, attachLast_single]
    simpa [layoutList, linkOf, sizeList] using ih
  | c :: c2 :: rest, P, nxt, j, d, h => by
    rw [spineLenLast_cons2] at h
    have ih := addChild_layoutList (c2 :: rest) (P ++ layout P.length (some (P.length + size c)) c)
      nxt j d h
    rw [List.length_append, length_layout] at ih
    obtain ⟨c1, cs1, e⟩ := attachLast_ne_nil j d c2 rest
    have e2 : P.length + size c + sizeList (c2 :: rest) = P.length + sizeList (c :: c2 :: rest) := by
      simp only [sizeList]; omega
    rw [e2] at ih
    rw [pathAddrLast_cons2, attachLast_cons2, layoutList_cons2, e, layoutList_cons2, ← e]
    simpa using ih
end

/-! ### One token on an open block -/

theorem parseLoopEnd_is_parseLoop (f : Nat) :
    ∀ s : AtomicML, (parseLoopEnd f s).map (fun r => r.2) = parseLoop f s := by
  induction f with
  | zero => intro s; rfl
  | succ f ih =>
    intro s
    unfold parseLoopEnd parseLoop pullToken
    cases h1 : nextToken s with
    | error e => rfl
    | ok r1 =>
      obtain ⟨tok, d, s1⟩ := r1
      simp only [bind, Except.bind]
      cases h2 : onToken tok d s1 with
      | error e => rfl
      | ok r =>
        cases r with
        | inl s2 => exact ih s2
        | inr q => rfl

theorem blockOk_snoc (h : Heap) (nodes : List Ptr) (P : List Node) (T : NodeTree)
    (ds : List Nat) (hb : BlockOk h nodes P T ds) :
    ∃ pre jb, ds = pre ++ [jb] ∧ (∀ i ∈ pre, i < jb) ∧ jb ≤ spineLen T ∧
      nodes = pre.map (fun j => pathAddr P.length j T) ++ [pathAddr P.length jb T] ∧
      (pre = [] → jb = 0) ∧ (pre ≠ [] → pre.head? = some 0) ∧ pre.Pairwise (· < ·) := by
  obtain ⟨-, hn, hh, hp, hs⟩ := hb
  rcases List.eq_nil_or_concat ds with hnil | ⟨pre, jb, hcons⟩
  · subst hnil
    simp at hh
  · rw [List.concat_eq_append] at hcons
    subst hcons
    rw [List.pairwise_append] at hp
    refine ⟨pre, jb, rfl, fun i hi => hp.2.2 i hi jb (by simp), hs jb (by simp), ?_, ?_, ?_, hp.1⟩
    · rw [hn]
      simp
    · intro e
      subst e
      simpa using hh
    · intro e
      cases pre with
      | nil => exact absurd rfl e
      | cons x xs => simpa using hh

theorem attach_step (P : List Node) (T : NodeTree) (pre : List Nat) (jb : Nat) (d : String)
    (hlt : ∀ i ∈ pre, i < jb) (hjb : jb ≤ spineLen T) :
    addChild (P ++ layout P.length none T ++ [⟨d, none, none, none⟩])
        (pathAddr P.length jb T) (P.length + size T)
      = .ok (P ++ layout P.length none (attach jb d T)) ∧
    pre.map (fun j => pathAddr P.length j T)
      = pre.map (fun j => pathAddr P.length j (attach jb d T)) ∧
    pathAddr P.length jb T = pathAddr P.length jb (attach jb d T) ∧
    P.length + size T = pathAddr P.length (jb + 1) (attach jb d T) ∧
    spineLen (attach jb d T) = jb + 1 ∧
    preorder (attach jb d T) = preorder T ++ [d] := by
  refine ⟨addChild_layout T P none jb d hjb, ?_, ?_, ?_, spineLen_attach T jb d hjb,
    preorder_attach T jb d hjb⟩
  · apply List.map_congr_left
    intro i hi
    exact (pathAddr_attach_le T P.length i jb d (Nat.le_of_lt (hlt i hi)) hjb).symm
  · exact (pathAddr_attach_le T P.length jb jb d (le_refl _) hjb).symm
  · exact (pathAddr_attach_new T P.length jb d hjb).symm

theorem blockOk_heap_length (h : Heap) (nodes : List Ptr) (P : List Node) (T : NodeTree)
    (ds : List Nat) (hb : BlockOk h nodes P T ds) : h.length = P.length + size T := by
  rw [hb.1, List.length_append, length_layout]

theorem blockOk_attach (P : List Node) (T : NodeTree) (pre : List Nat) (jb : Nat) (d : String)
    (keep : List Nat) (hkeep : keep = pre ∨ keep = pre ++ [jb])
    (hlt : ∀ i ∈ pre, i < jb) (hjb : jb ≤ spineLen T) (hpw : pre.Pairwise (· < ·))
    (hhead : keep.head? = some 0) :
    BlockOk (P ++ layout P.length none (attach jb d T))
      (keep.map (fun j => pathAddr P.length j T) ++ [P.length + size T]) P (attach jb d T)
      (keep ++ [jb + 1]) := by
  obtain ⟨-, -, -, hnew, hsp, -⟩ := attach_step P T pre jb d hlt hjb
  have hle : ∀ i ∈ keep, i ≤ jb := by
    intro i hi
    rcases hkeep with e | e
    · rw [e] at hi
      exact Nat.le_of_lt (hlt i hi)
    · rw [e, List.mem_append, List.mem_singleton] at hi
      rcases hi with hi | hi
      · exact Nat.le_of_lt (hlt i hi)
      · exact Nat.le_of_eq hi
  have hkpw : keep.Pairwise (· < ·) := by
    rcases hkeep with e | e
    · rw [e]
      exact hpw
    · rw [e, List.pairwise_append]
      refine ⟨hpw, List.pairwise_singleton _ _, ?_⟩
      intro a ha b hb
      rw [List.mem_singleton] at hb
      rw [hb]
      exact hlt a ha
  refine ⟨rfl, ?_, ?_, ?_, ?_⟩
  · rw [List.map_append, List.map_singleton, ← hnew]
    congr 1
    apply List.map_congr_left
    intro i hi
    exact (pathAddr_attach_le T P.length i jb d (hle i hi) hjb).symm
  · cases keep with
    | nil => simp at hhead
    | cons x xs => simpa using hhead
  · rw [List.pairwise_append]
    refine ⟨hkpw, List.pairwise_singleton _ _, ?_⟩
    intro a ha b hb
    rw [List.mem_singleton] at hb
    rw [hb]
    exact Nat.lt_succ_of_le (hle a ha)
  · intro j hj
    rw [hsp]
    rw [List.mem_append, List.mem_singleton] at hj
    rcases hj with hj | hj
    · exact Nat.le_succ_of_le (hle j hj)
    · exact Nat.le_of_eq hj

theorem onToken_indent_block (d : String) (s : AtomicML) (P : List Node) (T : NodeTree)
    (ds : List Nat) (hb : BlockOk s.heap s.nodes P T ds) :
    ∃ s2 T2 ds2, onToken Token.INDENT d s = .ok (.inl s2) ∧
      BlockOk s2.heap s2.nodes P T2 ds2 ∧ preorder T2 = preorder T ++ [d] := by
  obtain ⟨pre, jb, hds, hlt, hjb, hn, h0, hh, hpw⟩ := blockOk_snoc _ _ _ _ _ hb
  obtain ⟨hadd, -, -, -, -, hpo⟩ := attach_step P T pre jb d hlt hjb
  have hlen := blockOk_heap_length _ _ _ _ _ hb
  have hheap := hb.1
  have hblock := blockOk_attach P T pre jb d (pre ++ [jb]) (Or.inr rfl) hlt hjb hpw
    (by rw [← hds]; exact hb.2.2.1)
  refine ⟨{ s with heap := P ++ layout P.length none (attach jb d T),
                   nodes := s.nodes ++ [P.length + size T] }, attach jb d T,
    (pre ++ [jb]) ++ [jb + 1], ?_, ?_, hpo⟩
  · have hne : s.nodes.length ≠ 0 := by
      rw [hn]
      simp
    have hback : back s.nodes = .ok (pathAddr P.length jb T) := by
      rw [hn]
      exact back_snoc _ _
    simp only [onToken, Heap.alloc, hlen, hne, ne_eq, not_false_eq_true, if_true, hback, bind,
      Except.bind, push_back]
    rw [hheap, hadd]
  · show BlockOk _ (s.nodes ++ [P.length + size T]) P _ _
    rw [hn]
    simpa using hblock

theorem at_last {α : Type} (pre : List α) (x : α) : at_ (pre ++ [x]) pre.length = .ok x := by
  simp [at_]

theorem onToken_samedent_inner (d : String) (s : AtomicML) (P : List Node) (T : NodeTree)
    (ds : List Nat) (hb : BlockOk s.heap s.nodes P T ds) (h2 : s.nodes.length ≠ 1) :
    ∃ s2 T2 ds2, onToken Token.SAMEDENT d s = .ok (.inl s2) ∧
      BlockOk s2.heap s2.nodes P T2 ds2 ∧ preorder T2 = preorder T ++ [d] := by
  obtain ⟨pre, jb, hds, hlt, hjb, hn, h0, hh, hpw⟩ := blockOk_snoc _ _ _ _ _ hb
  obtain ⟨hadd, -, -, -, -, hpo⟩ := attach_step P T pre jb d hlt hjb
  have hlen := blockOk_heap_length _ _ _ _ _ hb
  have hheap := hb.1
  have hpre : pre ≠ [] := by
    intro e
    apply h2
    rw [hn, e]
    rfl
  have hblock := blockOk_attach P T pre jb d pre (Or.inl rfl) hlt hjb hpw (hh hpre)
  refine ⟨{ s with heap := P ++ layout P.length none (attach jb d T),
                   nodes := pre.map (fun j => pathAddr P.length j T) ++ [P.length + size T] },
    attach jb d T, pre ++ [jb + 1], ?_, hblock, hpo⟩
  have hsm : sizeMinus s.nodes 1 = .ok (pre.map (fun j => pathAddr P.length j T)).length := by
    rw [hn]
    simp [sizeMinus]
  have hat : at_ s.nodes (pre.map (fun j => pathAddr P.length j T)).length
      = .ok (pathAddr P.length jb T) := by
    rw [hn]
    exact at_last _ _
  have hpop : pop_back s.nodes = .ok (pre.map (fun j => pathAddr P.length j T)) := by
    rw [hn]
    exact pop_back_snoc _ _
  simp only [onToken, Heap.alloc, hlen, h2, if_false, hsm, hat, hpop, bind, Except.bind,
    push_back]
  rw [hheap, hadd]

theorem onToken_samedent_outer (d : String) (s : AtomicML) (P : List Node) (T : NodeTree)
    (ds : List Nat) (hb : BlockOk s.heap s.nodes P T ds) (h1 : s.nodes.length = 1) :
    ∃ s2, onToken Token.SAMEDENT d s = .ok (.inr (some P.length, s2)) ∧
      treeAt s2.heap P.length = some T ∧
      BlockOk s2.heap s2.nodes (P ++ layout P.length none T) (.node d []) [0] := by
  obtain ⟨pre, jb, hds, hlt, hjb, hn, h0, hh, hpw⟩ := blockOk_snoc _ _ _ _ _ hb
  have hlen := blockOk_heap_length _ _ _ _ _ hb
  have hheap := hb.1
  have hpre : pre = [] := by
    rw [hn] at h1
    simpa using h1
  subst hpre
  have hjb0 : jb = 0 := h0 rfl
  subst hjb0
  have haddr : pathAddr P.length 0 T = P.length := by
    cases T with
    | node label children => rw [pathAddr]
  rw [haddr] at hn
  simp only [List.map_nil, List.nil_append] at hn
  refine ⟨{ s with heap := s.heap ++ [⟨d, none, none, none⟩], nodes := [P.length + size T] },
    ?_, ?_, ?_⟩
  · have hback : back s.nodes = .ok P.length := by
      rw [hn]
      rfl
    have hpop : pop_back s.nodes = .ok [] := by
      rw [hn]
      rfl
    simp only [onToken, Heap.alloc, hlen, h1, if_true, hback, hpop, bind, Except.bind,
      push_back, List.nil_append]
  · show treeAt (s.heap ++ [⟨d, none, none, none⟩]) P.length = some T
    rw [hheap]
    exact treeAt_layout T P _
  · refine ⟨?_, ?_, rfl, List.pairwise_singleton _ _, ?_⟩
    · show s.heap ++ [⟨d, none, none, none⟩] = _
      rw [hheap, layout_leaf]
    · show [P.length + size T] = _
      rw [List.map_singleton, pathAddr, List.length_append, length_layout]
    · intro j hj
      rw [List.mem_singleton] at hj
      omega

theorem onToken_dedent_block (d : String) (s : AtomicML) (P : List Node) (T : NodeTree)
    (ds : List Nat) (hb : BlockOk s.heap s.nodes P T ds) (h2 : 2 ≤ s.nodes.length) :
    ∃ s2 ds2, onToken Token.DEDENT d s = .ok (.inl s2) ∧ BlockOk s2.heap s2.nodes P T ds2 := by
  obtain ⟨pre, jb, hds, hlt, hjb, hn, h0, hh, hpw⟩ := blockOk_snoc _ _ _ _ _ hb
  have hpre : pre ≠ [] := by
    intro e
    rw [hn, e] at h2
    simp at h2
  refine ⟨{ s with nodes := pre.map (fun j => pathAddr P.length j T) }, pre, ?_,
    hb.1, rfl, hh hpre, hpw, ?_⟩
  · have hpop : pop_back s.nodes = .ok (pre.map (fun j => pathAddr P.length j T)) := by
      rw [hn]
      exact pop_back_snoc _ _
    simp only [onToken, hpop, bind, Except.bind]
  · intro j hj
    exact hb.2.2.2.2 j (by rw [hds]; exact List.mem_append_left _ hj)

theorem onToken_end_block (d : String) (s : AtomicML) (P : List Node) (T : NodeTree)
    (ds : List Nat) (hb : BlockOk s.heap s.nodes P T ds) :
    ∃ s2, onToken Token.END d s = .ok (.inr (some P.length, s2)) ∧
      treeAt s2.heap P.length = some T := by
  obtain ⟨hheap, hn, hhead, -, -⟩ := hb
  cases ds with
  | nil => simp at hhead
  | cons x xs =>
    simp only [List.head?_cons, Option.some.injEq] at hhead
    subst hhead
    have haddr : pathAddr P.length 0 T = P.length := by
      cases T with
      | node label children => rw [pathAddr]
    rw [List.map_cons, haddr] at hn
    have hne : s.nodes.length ≠ 0 := by
      rw [hn]
      simp
    have hat : at_ s.nodes 0 = .ok P.length := by
      rw [hn]
      simp [at_]
    have hpop : pop_back s.nodes
        = .ok (P.length :: xs.map (fun j => pathAddr P.length j T)).dropLast := by
      rw [hn]
      rfl
    refine ⟨{ s with nodes := (P.length :: xs.map (fun j => pathAddr P.length j T)).dropLast },
      ?_, ?_⟩
    · simp only [onToken, hne, ne_eq, not_false_eq_true, if_true, hat, hpop, bind, Except.bind]
    · show treeAt s.heap P.length = some T
      rw [hheap]
      have := treeAt_layout T P []
      simpa using this

theorem onToken_indent_start (d : String) (s : AtomicML) (hn : s.nodes = []) :
    ∃ s2, onToken Token.INDENT d s = .ok (.inl s2) ∧
      BlockOk s2.heap s2.nodes s.heap (.node d []) [0] := by
  refine ⟨{ s with heap := s.heap ++ [⟨d, none, none, none⟩], nodes := [s.heap.length] },
    ?_, ?_, ?_, rfl, List.pairwise_singleton _ _, ?_⟩
  · simp only [onToken, Heap.alloc, hn, push_back, List.length_nil, ne_eq, not_true_eq_false,
      if_false, List.nil_append]
    rfl
  · show s.heap ++ [⟨d, none, none, none⟩] = _
    rw [layout_leaf]
  · show [s.heap.length] = _
    rw [List.map_singleton, pathAddr]
  · intro j hj
    rw [List.mem_singleton] at hj
    omega

theorem onToken_end_start (d : String) (s : AtomicML) (hn : s.nodes = []) :
    onToken Token.END d s = .ok (.inr (none, s)) := by
  simp [onToken, hn]

/-! ### The labels a session owes -/

theorem nextToken_owed (s s1 : AtomicML) (tok : Token) (d : String) (hinv : TokenizerOk s)
    (h : nextToken s = .ok (tok, d, s1)) :
    (tok = Token.END ∧ owedLabels s = []) ∨
    ((tok = Token.BLANK ∨ tok = Token.DEDENT) ∧ owedLabels s1 = owedLabels s) ∨
    ((tok = Token.INDENT ∨ tok = Token.SAMEDENT) ∧ owedLabels s = d :: owedLabels s1) := by
  have key : ∀ u : AtomicML, (u.data = "" → u.state = State.INDENTING) →
      (u.data = "" → owedLabels s
        = (u.source.filter (fun l => !isBlankLine l)).map remainderOf) →
      (u.data ≠ "" → owedLabels s
        = u.data :: (u.source.filter (fun l => !isBlankLine l)).map remainderOf) →
      tokenOfLine u = .ok (tok, d, s1) →
      ((tok = Token.END ∧ owedLabels s = []) ∨
       ((tok = Token.BLANK ∨ tok = Token.DEDENT) ∧ owedLabels s1 = owedLabels s) ∨
       ((tok = Token.INDENT ∨ tok = Token.SAMEDENT) ∧ owedLabels s = d :: owedLabels s1)) := by
    intro u hst hb hnb ht
    by_cases hd : u.data = ""
    · rw [tokenOfLine_blank u hd] at ht
      simp only [Except.ok.injEq, Prod.mk.injEq] at ht
      obtain ⟨rfl, -, rfl⟩ := ht
      exact Or.inr (Or.inl ⟨Or.inl rfl, by rw [hb hd]; simp [owedLabels, hst hd]⟩)
    · rcases tokenOfLine_shape u s1 tok d hd ht with
        ⟨pre, -, rfl, rfl, rfl⟩ | ⟨pre, top, -, -, rfl, rfl, rfl⟩ |
        ⟨pre, below, top, -, -, -, rfl, rfl, rfl⟩ | ⟨pre, below, top, -, -, -, rfl, rfl, rfl⟩
      · exact Or.inr (Or.inr ⟨Or.inr rfl, by rw [hnb hd]; simp [owedLabels]⟩)
      · exact Or.inr (Or.inr ⟨Or.inl rfl, by rw [hnb hd]; simp [owedLabels]⟩)
      · exact Or.inr (Or.inr ⟨Or.inr rfl, by rw [hnb hd]; simp [owedLabels]⟩)
      · exact Or.inr (Or.inl ⟨Or.inr rfl, by rw [hnb hd]; simp [owedLabels]⟩)
  cases hm : s.state with
  | INDENTING =>
    cases hsrc : s.source with
    | nil =>
      rw [nextToken_end s hm hsrc] at h
      simp only [Except.ok.injEq, Prod.mk.injEq] at h
      obtain ⟨rfl, -, rfl⟩ := h
      exact Or.inl ⟨rfl, by simp [owedLabels, hm, hsrc]⟩
    | cons line rest =>
      rw [nextToken_read s line rest hm hsrc] at h
      refine key
        { s with source := rest, indent := (splitLine line).1, data := (splitLine line).2 }
        (fun _ => hm) ?_ ?_ h
      · intro hd
        have hbl : isBlankLine line = true := (splitLine_blank line).1 hd
        simp [owedLabels, hm, hsrc, hbl]
      · intro hd
        have hbl : isBlankLine line = false := by
          cases hb : isBlankLine line with
          | false => rfl
          | true => exact absurd ((splitLine_blank line).2 hb) hd
        simp [owedLabels, hm, hsrc, hbl, remainderOf]
  | DEDENTING =>
    rw [nextToken_pending s hm] at h
    refine key s (fun hd => absurd hd (hinv.2.1 hm).1) ?_ ?_ h
    · intro hd
      exact absurd hd (hinv.2.1 hm).1
    · intro _
      simp [owedLabels, hm]

theorem nextToken_facts (s s1 : AtomicML) (tok : Token) (d : String) (hinv : TokenizerOk s)
    (h : nextToken s = .ok (tok, d, s1)) :
    s1.nodes = s.nodes ∧ s1.heap = s.heap ∧
    ((tok = Token.END ∧ owedLabels s = []) ∨
     (tok = Token.BLANK ∧ owedLabels s1 = owedLabels s) ∨
     (tok = Token.INDENT ∧ owedLabels s = d :: owedLabels s1) ∨
     (tok = Token.SAMEDENT ∧ owedLabels s = d :: owedLabels s1 ∧ 2 ≤ s.stack.length) ∨
     (tok = Token.DEDENT ∧ owedLabels s1 = owedLabels s ∧ 3 ≤ s.stack.length)) := by
  obtain ⟨hn, hh, hlen⟩ := nextToken_lengths s s1 tok d hinv h
  refine ⟨hn, hh, ?_⟩
  have ho := nextToken_owed s s1 tok d hinv h
  rcases hlen with ⟨rfl, -, -⟩ | ⟨rfl, -⟩ | ⟨rfl, -⟩ | ⟨rfl, -, h2⟩ | ⟨rfl, h3, h4⟩
  · rcases ho with ⟨-, e⟩ | ⟨e, -⟩ | ⟨e, -⟩
    · exact Or.inl ⟨rfl, e⟩
    · simp at e
    · simp at e
  · rcases ho with ⟨e, -⟩ | ⟨-, e⟩ | ⟨e, -⟩
    · simp at e
    · exact Or.inr (Or.inl ⟨rfl, e⟩)
    · simp at e
  · rcases ho with ⟨e, -⟩ | ⟨e, -⟩ | ⟨-, e⟩
    · simp at e
    · simp at e
    · exact Or.inr (Or.inr (Or.inl ⟨rfl, e⟩))
  · rcases ho with ⟨e, -⟩ | ⟨e, -⟩ | ⟨-, e⟩
    · simp at e
    · simp at e
    · exact Or.inr (Or.inr (Or.inr (Or.inl ⟨rfl, e, h2⟩)))
  · rcases ho with ⟨e, -⟩ | ⟨-, e⟩ | ⟨e, -⟩
    · simp at e
    · exact Or.inr (Or.inr (Or.inr (Or.inr ⟨rfl, e, by omega⟩)))
    · simp at e

theorem owedLabels_after (tok : Token) (d : String) (s1 : AtomicML)
    (r : AtomicML ⊕ (Option Ptr × AtomicML)) (h : onToken tok d s1 = .ok r) :
    owedLabels (sessionAfter r) = owedLabels s1 := by
  obtain ⟨-, h2, -, h4, h5⟩ := onToken_keeps_after tok d s1 r h
  simp only [owedLabels, h2, h4, h5]

theorem readOut_some (h : Heap) (p : Ptr) (T : NodeTree) (ht : treeAt h p = some T) :
    readOut h (some p) = .ok [T] := by
  simp only [readOut, ht]

theorem labelsOf_single (T : NodeTree) : labelsOf [T] = preorder T := by
  simp [labelsOf]

/-- What one round of the loop of `parseNode` does to the open block and the
labels still owed. -/
theorem round_labels (s s1 : AtomicML) (tok : Token) (d : String)
    (r : AtomicML ⊕ (Option Ptr × AtomicML)) (pend : List String)
    (hs : TokenizerOk s) (hl : Lockstep s) (ho : OpenOk s pend)
    (h1 : nextToken s = .ok (tok, d, s1)) (h2 : onToken tok d s1 = .ok r) :
    match r with
    | .inl s2 => tok ≠ Token.END ∧ (owedLabels s2).length ≤ (owedLabels s).length ∧
        ∃ pend2, OpenOk s2 pend2 ∧ pend2 ++ owedLabels s2 = pend ++ owedLabels s
    | .inr (out, s2) => ∃ ts, readOut s2.heap out = .ok ts ∧
        ((tok = Token.END ∧ labelsOf ts = pend ++ owedLabels s) ∨
         (tok ≠ Token.END ∧ (owedLabels s2).length < (owedLabels s).length ∧
           ∃ pend2, OpenOk s2 pend2 ∧
             labelsOf ts ++ (pend2 ++ owedLabels s2) = pend ++ owedLabels s)) := by
  obtain ⟨hn, hh, hcase⟩ := nextToken_facts s s1 tok d hs h1
  have hafter := owedLabels_after tok d s1 r h2
  rcases ho with ⟨hnil, rfl⟩ | ⟨P, T, ds, hb, rfl⟩
  · -- no node is open
    have hn1 : s1.nodes = [] := hn.trans hnil
    have hst : s.stack.length = 1 := by
      have := hl
      unfold Lockstep at this
      rw [hnil] at this
      simpa using this.symm
    rcases hcase with ⟨rfl, e⟩ | ⟨rfl, e⟩ | ⟨rfl, e⟩ | ⟨rfl, -, e⟩ | ⟨rfl, -, e⟩
    · rw [onToken_end_start d s1 hn1] at h2
      simp only [Except.ok.injEq] at h2
      subst h2
      exact ⟨[], rfl, Or.inl ⟨rfl, by rw [e]; rfl⟩⟩
    · have : onToken Token.BLANK d s1 = .ok (.inl s1) := rfl
      rw [this] at h2
      simp only [Except.ok.injEq] at h2
      subst h2
      exact ⟨by simp, by rw [e], [], Or.inl ⟨hn1, rfl⟩, by rw [e]⟩
    · obtain ⟨s2, hon, hb2⟩ := onToken_indent_start d s1 hn1
      rw [hon] at h2
      simp only [Except.ok.injEq] at h2
      subst h2
      have ha : owedLabels s2 = owedLabels s1 := hafter
      refine ⟨by simp, by rw [ha, e]; simp, [d], Or.inr ⟨_, _, _, hb2, ?_⟩, by rw [ha, e]; rfl⟩
      rw [preorder]
      rfl
    · omega
    · omega
  · -- a block is open
    have hb1 : BlockOk s1.heap s1.nodes P T ds := by
      rw [hn, hh]
      exact hb
    have hlen : s1.nodes.length + 1 = s.stack.length := by
      rw [hn]
      exact hl
    rcases hcase with ⟨rfl, e⟩ | ⟨rfl, e⟩ | ⟨rfl, e⟩ | ⟨rfl, e, -⟩ | ⟨rfl, e, e3⟩
    · obtain ⟨s2, hon, ht⟩ := onToken_end_block d s1 P T ds hb1
      rw [hon] at h2
      simp only [Except.ok.injEq] at h2
      subst h2
      exact ⟨[T], readOut_some _ _ _ ht, Or.inl ⟨rfl, by rw [e, labelsOf_single]; simp⟩⟩
    · have : onToken Token.BLANK d s1 = .ok (.inl s1) := rfl
      rw [this] at h2
      simp only [Except.ok.injEq] at h2
      subst h2
      exact ⟨by simp, by rw [e], preorder T, Or.inr ⟨P, T, ds, hb1, rfl⟩, by rw [e]⟩
    · obtain ⟨s2, T2, ds2, hon, hb2, hpo⟩ := onToken_indent_block d s1 P T ds hb1
      rw [hon] at h2
      simp only [Except.ok.injEq] at h2
      subst h2
      have ha : owedLabels s2 = owedLabels s1 := hafter
      exact ⟨by simp, by rw [ha, e]; simp, preorder T2, Or.inr ⟨P, T2, ds2, hb2, rfl⟩,
        by rw [ha, e, hpo]; simp⟩
    · by_cases hone : s1.nodes.length = 1
      · obtain ⟨s2, hon, ht, hb2⟩ := onToken_samedent_outer d s1 P T ds hb1 hone
        rw [hon] at h2
        simp only [Except.ok.injEq] at h2
        subst h2
        have ha : owedLabels s2 = owedLabels s1 := hafter
        refine ⟨[T], readOut_some _ _ _ ht, Or.inr ⟨by simp, by rw [ha, e]; simp, [d],
          Or.inr ⟨_, _, _, hb2, ?_⟩, by rw [ha, e, labelsOf_single]; rfl⟩⟩
        rw [preorder]
        rfl
      · obtain ⟨s2, T2, ds2, hon, hb2, hpo⟩ := onToken_samedent_inner d s1 P T ds hb1 hone
        rw [hon] at h2
        simp only [Except.ok.injEq] at h2
        subst h2
        have ha : owedLabels s2 = owedLabels s1 := hafter
        exact ⟨by simp, by rw [ha, e]; simp, preorder T2, Or.inr ⟨P, T2, ds2, hb2, rfl⟩,
          by rw [ha, e, hpo]; simp⟩
    · obtain ⟨s2, ds2, hon, hb2⟩ := onToken_dedent_block d s1 P T ds hb1 (by omega)
      rw [hon] at h2
      simp only [Except.ok.injEq] at h2
      subst h2
      have ha : owedLabels s2 = owedLabels s1 := hafter
      exact ⟨by simp, by rw [ha, e], preorder T, Or.inr ⟨P, T, ds2, hb2, rfl⟩, by rw [ha, e]⟩

theorem parseLoopEnd_labels (f : Nat) :
    ∀ (s s2 : AtomicML) (pend : List String) (e : Bool) (out : Option Ptr),
      SessionOk s → Lockstep s → OpenOk s pend → parseLoopEnd f s = .ok (e, out, s2) →
      SessionOk s2 ∧ ∃ ts, readOut s2.heap out = .ok ts ∧
        ((e = true ∧ labelsOf ts = pend ++ owedLabels s) ∨
         (e = false ∧ Lockstep s2 ∧ (owedLabels s2).length < (owedLabels s).length ∧
           ∃ pend2, OpenOk s2 pend2 ∧
             labelsOf ts ++ (pend2 ++ owedLabels s2) = pend ++ owedLabels s)) := by
  induction f with
  | zero =>
    intro s s2 pend e out _ _ _ h
    simp [parseLoopEnd] at h
  | succ f ih =>
    intro s s2 pend e out hs hl ho h
    obtain ⟨tok, d, s1, r, hnt, hon, hs1, hlk, -, -⟩ := round_sessionOk s hs
    have hr := round_labels s s1 tok d r pend hs.1 hl ho hnt hon
    unfold parseLoopEnd at h
    simp only [hnt, hon] at h
    cases r with
    | inl s3 =>
      simp only at h hr
      obtain ⟨hne, hle, pend2, ho2, heq⟩ := hr
      obtain ⟨hs2, ts, hread, hfin⟩ := ih s3 s2 pend2 e out hs1 (hlk hne hl) ho2 h
      refine ⟨hs2, ts, hread, ?_⟩
      rcases hfin with ⟨he, hlab⟩ | ⟨he, hl2, hlt, pend3, ho3, hlab⟩
      · exact Or.inl ⟨he, by rw [hlab, heq]⟩
      · exact Or.inr ⟨he, hl2, Nat.lt_of_lt_of_le hlt hle, pend3, ho3, by rw [hlab, heq]⟩
    | inr q =>
      obtain ⟨out1, s3⟩ := q
      simp only [Except.ok.injEq, Prod.mk.injEq] at h
      obtain ⟨he, rfl, rfl⟩ := h
      simp only at hr
      obtain ⟨ts, hread, hfin⟩ := hr
      refine ⟨hs1, ts, hread, ?_⟩
      rcases hfin with ⟨htok, hlab⟩ | ⟨htok, hlt, pend2, ho2, hlab⟩
      · exact Or.inl ⟨by rw [← he]; simp [htok], hlab⟩
      · exact Or.inr ⟨by rw [← he]; simp [htok], hlk htok hl, hlt, pend2, ho2, hlab⟩

theorem parseLoopEnd_total (s : AtomicML) (hs : SessionOk s) :
    ∃ e out s1, parseLoopEnd (parseFuel s) s = .ok (e, out, s1) := by
  obtain ⟨p, s1, h, -⟩ := parseNode_total s hs
  have hmap := parseLoopEnd_is_parseLoop (parseFuel s) s
  unfold parseNode at h
  rw [h] at hmap
  cases hq : parseLoopEnd (parseFuel s) s with
  | error x =>
    rw [hq] at hmap
    cases hmap
  | ok q => exact ⟨q.1, q.2.1, q.2.2, rfl⟩

theorem labelsOf_append (xs ys : List NodeTree) :
    labelsOf (xs ++ ys) = labelsOf xs ++ labelsOf ys := by
  simp [labelsOf]

theorem treesUntilEnd_labels (n : Nat) :
    ∀ (s : AtomicML) (pend : List String), SessionOk s → Lockstep s → OpenOk s pend →
      (owedLabels s).length < n →
      ∃ trees, treesUntilEnd n s = .ok trees ∧ labelsOf trees = pend ++ owedLabels s := by
  induction n with
  | zero =>
    intro s pend _ _ _ h
    omega
  | succ n ih =>
    intro s pend hs hl ho hn
    obtain ⟨e, out, s1, hrun⟩ := parseLoopEnd_total s hs
    obtain ⟨hs1, ts, hread, hfin⟩ := parseLoopEnd_labels _ s s1 pend e out hs hl ho hrun
    unfold treesUntilEnd
    simp only [hrun, bind, Except.bind, hread]
    rcases hfin with ⟨he, hlab⟩ | ⟨he, hl1, hlt, pend2, ho2, hlab⟩
    · subst he
      exact ⟨ts, rfl, hlab⟩
    · subst he
      obtain ⟨rest, hrest, hlab2⟩ := ih s1 pend2 hs1 hl1 ho2 (by omega)
      refine ⟨ts ++ rest, ?_, ?_⟩
      · simp [hrest]
      · rw [labelsOf_append, hlab2, hlab]

theorem parseLoopEnd_fails (f : Nat) (s : AtomicML) (e : Fault) (h : nextToken s = .error e) :
    parseLoopEnd (f + 1) s = .error e := by
  simp [parseLoopEnd, h]

theorem treesUntilEnd_fails (n : Nat) (s : AtomicML) (e : Fault)
    (h : nextToken s = .error e) : treesUntilEnd (n + 1) s = .error e := by
  have h1 : parseLoopEnd (parseFuel s) s = .error e := parseLoopEnd_fails _ s e h
  simp [treesUntilEnd, h1, bind, Except.bind]

/-- C19, amended: on every list of input lines whose non-blank lines have
columns below `2^31`, every line is read exactly once and in order: the `parseNode` calls on a fresh
session, up to and including the first call that pulls `END`, all return, every
returned pointer can be read as a tree, and the preorder label sequences of
these trees, one after the other, are the remainders of the non-blank input
lines in input order.  One call more than there are lines always reaches `END`;
`extra` further calls allowed change nothing. -/
theorem no_line_is_lost (lines : List String) (indent0 : Int) (extra : Nat)
    (hfit : ∀ l ∈ lines, isBlankLine l = false → columnFits l) :
    ∃ trees, treesUntilEnd (lines.length + 1 + extra) (AtomicML.new lines indent0) = .ok trees ∧
      labelsOf trees = (lines.filter (fun l => !isBlankLine l)).map remainderOf := by
  have hlen : (owedLabels (AtomicML.new lines indent0)).length < lines.length + 1 + extra := by
    have := List.length_filter_le (fun l => !isBlankLine l) lines
    simp only [owedLabels, AtomicML.new]
    simp only [List.length_append, List.length_map]
    simp
    omega
  obtain ⟨trees, hrun, hlab⟩ := treesUntilEnd_labels _ (AtomicML.new lines indent0) []
    (sessionOk_new lines indent0 hfit) rfl (Or.inl ⟨rfl, rfl⟩) hlen
  refine ⟨trees, hrun, ?_⟩
  rw [hlab]
  simp [owedLabels, AtomicML.new]

/-- Witness for C19: the lines `"one"`, `"  two"`, a blank line and `"four"`. -/
theorem no_line_is_lost_witness :
    ∃ trees, treesUntilEnd (["one", "  two", "", "four"].length + 1 + 0)
        (AtomicML.new ["one", "  two", "", "four"] 0) = .ok trees ∧
      labelsOf trees
        = (["one", "  two", "", "four"].filter (fun l => !isBlankLine l)).map remainderOf :=
  no_line_is_lost ["one", "  two", "", "four"] 0 0 (by decide)

/-- C19 as stated fails at the single line of `2^28` tabs followed by `x`, a
non-blank line: the first `parseNode` call fails, so no tree is returned and
the label `x` of the line is lost. -/
theorem wrapped_column_line_is_lost :
    isBlankLine (tabsLine 268435456 "x") = false ∧
    remainderOf (tabsLine 268435456 "x") = "x" ∧
    treesUntilEnd ([tabsLine 268435456 "x"].length + 1 + 0)
      (AtomicML.new [tabsLine 268435456 "x"] 0) = .error .outOfRange :=
  ⟨isBlankLine_tabsLine _ "x" (by decide),
    remainderOf_of_split _ _ _ (splitLine_tabs_wrap "x" (by decide)),
    treesUntilEnd_fails 1 _ _ (nextToken_wrapped_line [] 0)⟩

end Aml
